import Mathlib

/-!
# bsbs: arena allocator, owned lists, runs and staleness

A shallow embedding of `include/bsbs.h` (the `BSBS_IMPL` part).

* The process memory is a byte-addressed map `Mem`; pointers and `size_t` values are
  natural numbers below `2 ^ 64` (LP64: 8-byte little-endian words), `NULL` is `0`.
* `time_t` is a signed integer (`Int`); only comparisons are performed on it.
* The two allocator globals, the global `bsbs_cc`, the memory and the trace of process
  events form the `State`, which is passed explicitly.
* A function that can end the process returns an `Outcome`: `ret` for a normal return,
  `die` for `bsbs_die`, `abort` for a failed `assert` (tagged with its source line),
  `replaced` for a successful `exec*`, and `timeout` when the fuel of an unbounded loop
  of the model is used up.
* The operating system (stat, getenv, malloc, fork, waitpid, exec) is the oracle `Env`.
* A C string argument (`char const *`) is passed by value as the list of its bytes
  before the terminating NUL.
-/

namespace Bsbs

/-! ## Machine model -/

/-- Number of values of `size_t` and `uintptr_t`. -/
abbrev SIZE_MOD : Nat := 18446744073709551616

/-- Byte-addressed memory. -/
abbrev Mem := Nat → Nat

/-- Bytes of a C string, without the terminating NUL. -/
abbrev CStr := List Nat

/-- Well-formed C string contents: every byte is a non-NUL `char` value, and the string with
its NUL fits in the address space. -/
def CStr.valid (s : CStr) : Prop := (∀ c ∈ s, 0 < c ∧ c < 256) ∧ s.length + 1 < SIZE_MOD

def load8 (m : Mem) (a : Nat) : Nat := m a % 256

def store8 (m : Mem) (a v : Nat) : Mem := fun x => if x = a then v % 256 else m x

/-- Read of an 8-byte little-endian word (a pointer or a `size_t`). -/
def load64 (m : Mem) (a : Nat) : Nat :=
  load8 m a + 256 * load8 m (a + 1) + 65536 * load8 m (a + 2)
    + 16777216 * load8 m (a + 3) + 4294967296 * load8 m (a + 4)
    + 1099511627776 * load8 m (a + 5) + 281474976710656 * load8 m (a + 6)
    + 72057594037927936 * load8 m (a + 7)

/-- Write of an 8-byte little-endian word. -/
def store64 (m : Mem) (a v : Nat) : Mem := fun x =>
  if x = a then v % 256
  else if x = a + 1 then v / 256 % 256
  else if x = a + 2 then v / 65536 % 256
  else if x = a + 3 then v / 16777216 % 256
  else if x = a + 4 then v / 4294967296 % 256
  else if x = a + 5 then v / 1099511627776 % 256
  else if x = a + 6 then v / 281474976710656 % 256
  else if x = a + 7 then v / 72057594037927936 % 256
  else m x

/-- The libc `strcpy(dst, src)`: the bytes of `src`, then the terminating NUL. -/
def strcpy (m : Mem) : Nat → CStr → Mem
  | dst, [] => store8 m dst 0
  | dst, c :: cs => strcpy (store8 m dst c) (dst + 1) cs

/-- The C string that starts at address `a`, read with at most `fuel` byte reads. -/
def cstr (m : Mem) : Nat → Nat → Option CStr
  | 0, _ => none
  | fuel + 1, a =>
    if load8 m a = 0 then some []
    else (cstr m fuel (a + 1)).map (fun cs => load8 m a :: cs)

/-- The `bsbs_die` call sites, by message. -/
inductive Fatal where
  | mtime_failed
  | input_missing
  | exec_failed
  | fork_failed
  | wait_failed
  | abnormal_exit
  | malloc_failed
  | rerun_failed
  | overflow
  | underflow
  | out_of_memory
  deriving DecidableEq, Repr

/-- Observable process events, oldest first in a trace. -/
inductive Event where
  | run_execute_unchecked (run : Nat)
  | fork (args : Nat)
  | execl
  deriving DecidableEq, Repr

inductive Outcome (α : Type) where
  | ret (a : α)
  | die (msg : Fatal) (trace : List Event)
  | abort (line : Nat) (trace : List Event)
  | replaced (trace : List Event)
  | timeout

def Outcome.bind {α β : Type} (x : Outcome α) (f : α → Outcome β) : Outcome β :=
  match x with
  | .ret a => f a
  | .die msg tr => .die msg tr
  | .abort line tr => .abort line tr
  | .replaced tr => .replaced tr
  | .timeout => .timeout

/-- The value a call returned with, if it returned. -/
def Outcome.value {α : Type} : Outcome α → Option α
  | .ret a => some a
  | _ => none

/-- The source line and trace of a failed assertion, if the call ended in one. -/
def Outcome.aborted {α : Type} : Outcome α → Option (Nat × List Event)
  | .abort line tr => some (line, tr)
  | _ => none

/-- The message and trace of the `bsbs_die` a call ended in, if it did. -/
def Outcome.died {α : Type} : Outcome α → Option (Fatal × List Event)
  | .die msg tr => some (msg, tr)
  | _ => none

inductive StatResult where
  | ok (st_mtime : Int)
  | enoent
  | failed

/-- The wait status `waitpid` stores: `WIFEXITED` with `WEXITSTATUS`, or killed by a signal. -/
inductive WaitStatus where
  | exited (code : Nat)
  | signaled (sig : Nat)

def WIFEXITED : WaitStatus → Bool
  | .exited _ => true
  | .signaled _ => false

def WEXITSTATUS : WaitStatus → Nat
  | .exited code => code
  | .signaled _ => 0

/-- The operating system as seen by the program. -/
structure Env where
  /-- The libc `stat(path)`: the file's `st_mtime`, `ENOENT`, or another failure. -/
  stat : CStr → StatResult
  /-- The libc `getenv("CC")`. -/
  getenv_CC : Option CStr
  /-- The libc `malloc(n)`; `0` is `NULL`. -/
  malloc : Nat → Nat
  /-- The `fork()` performed to run the argument vector at `args`; the returned pid. -/
  fork : Mem → Nat → Int
  /-- The `waitpid(pid, &status, 0)`; `none` when it fails. -/
  waitpid : Int → Option WaitStatus
  /-- Whether `execvp(args[0], args)` succeeds. -/
  execvp : Mem → Nat → Bool
  /-- Whether `execl(arg0, arg0)` succeeds. -/
  execl : CStr → Bool

structure State where
  _bsbs_alloc_base : Nat
  _bsbs_alloc_ptr : Nat
  bsbs_cc : CStr
  mem : Mem
  trace : List Event

/-- The trace of process events at the end of a call; `none` when the model ran out of fuel. -/
def Outcome.events : Outcome State → Option (List Event)
  | .ret s => some s.trace
  | .die _ tr => some tr
  | .abort _ tr => some tr
  | .replaced tr => some tr
  | .timeout => none

/-! ## Layout (LP64) -/

/-- Value of `sizeof(_bsbs_list_node)`, also its alignment: one pointer, then the flexible `content`. -/
abbrev NODE_SIZE : Nat := 8
/-- Value of `sizeof(char*)`, also its alignment. -/
abbrev PTR_SIZE : Nat := 8
/-- Value of `sizeof(_bsbs_list)`: `count` at 0, `head` at 8, `tail` at 16. -/
abbrev LIST_SIZE : Nat := 24
/-- Value of `sizeof(bsbs_run)`: `args` at 0, `inputs` at 24, `outputs` at 48; alignment 8. -/
abbrev RUN_SIZE : Nat := 72

/-! ## Arena -/

def bsbs_alloc_aligned_array (size align count : Nat) (s : State) : Outcome (Nat × State) :=
  let mask := (align + SIZE_MOD - 1) % SIZE_MOD
  if ¬ ((align &&& mask) = 0 ∧ align ≠ 0) then .abort 263 s.trace
  else if ¬ ((size &&& mask) = 0 ∧ size ≠ 0) then .abort 264 s.trace
  else
    let ptr := s._bsbs_alloc_ptr &&& (SIZE_MOD - 1 - mask)
    let nbytes := (size * count) % SIZE_MOD
    if nbytes / size ≠ count then .die .overflow s.trace
    else if nbytes > ptr then .die .underflow s.trace
    else if ptr - nbytes < s._bsbs_alloc_base then .die .out_of_memory s.trace
    else .ret (ptr - nbytes, { s with _bsbs_alloc_ptr := ptr - nbytes })

def bsbs_alloc_save (s : State) : Nat := s._bsbs_alloc_ptr

def bsbs_alloc_load (save : Nat) (s : State) : Outcome State :=
  if ¬ (save ≥ s._bsbs_alloc_base) then .abort 289 s.trace
  else if ¬ (save ≥ s._bsbs_alloc_ptr) then .abort 290 s.trace
  else .ret { s with _bsbs_alloc_ptr := save }

/-- A sequence of `bsbs_alloc_aligned_array` calls, each request being `(size, align, count)`,
performed in order. It returns the reserved blocks `(address, size * count)` in call order. -/
def alloc_calls : List (Nat × Nat × Nat) → State → Outcome (List (Nat × Nat) × State)
  | [], s => .ret ([], s)
  | req :: rest, s =>
    (bsbs_alloc_aligned_array req.1 req.2.1 req.2.2 s).bind fun r =>
      (alloc_calls rest r.2).bind fun rs => .ret ((r.1, req.1 * req.2.2) :: rs.1, rs.2)

/-! ## Owned lists -/

def _bsbs_list_append (list : Nat) (content : CStr) (s : State) : Outcome State :=
  let length := content.length
  (bsbs_alloc_aligned_array 1 1 ((length + 1) % SIZE_MOD) s).bind fun r1 =>
  (bsbs_alloc_aligned_array NODE_SIZE NODE_SIZE 1 r1.2).bind fun r2 =>
    let node := r2.1
    let m1 := store64 r2.2.mem node 0
    let m2 := strcpy m1 (node + 8) content
    if load64 m2 (list + 8) = 0 then
      let m3 := store64 m2 (list + 8) node
      let m4 := store64 m3 (list + 16) node
      .ret { r2.2 with mem := store64 m4 list 1 }
    else
      let m3 := store64 m2 (load64 m2 (list + 16)) node
      let m4 := store64 m3 (list + 16) node
      .ret { r2.2 with mem := store64 m4 list ((load64 m4 list + 1) % SIZE_MOD) }

/-- The `while (i < list->count && n != NULL)` loop of `_bsbs_list_to_ntarray`; it returns the
final `i`, `n` and memory. Every iteration increments `i`, which stays below a `size_t`
value, so `SIZE_MOD` iterations are never used up (`ntarray_loop_exits`). -/
def _bsbs_list_to_ntarray.loop (list array : Nat) : Nat → Nat → Nat → Mem → Nat × Nat × Mem
  | 0, i, n, m => (i, n, m)
  | fuel + 1, i, n, m =>
    if i < load64 m list ∧ n ≠ 0 then
      _bsbs_list_to_ntarray.loop list array fuel (i + 1)
        (load64 (store64 m (array + 8 * i) (n + 8)) n) (store64 m (array + 8 * i) (n + 8))
    else (i, n, m)

def _bsbs_list_to_ntarray (list : Nat) (s : State) : Outcome (Nat × State) :=
  (bsbs_alloc_aligned_array PTR_SIZE PTR_SIZE ((load64 s.mem list + 1) % SIZE_MOD) s).bind fun r =>
    let array := r.1
    let fin := _bsbs_list_to_ntarray.loop list array SIZE_MOD 0 (load64 r.2.mem (list + 8)) r.2.mem
    if fin.1 ≠ load64 fin.2.2 list then .abort 156 r.2.trace
    else if fin.2.1 ≠ 0 then .abort 157 r.2.trace
    else .ret (array, { r.2 with mem := store64 fin.2.2 (array + 8 * fin.1) 0 })

/-! ## Staleness -/

def _bsbs_mtime (env : Env) (fuel : Nat) (filepath : Nat) (s : State) : Outcome Int :=
  match cstr s.mem fuel filepath with
  | none => .timeout
  | some path =>
    match env.stat path with
    | .ok st_mtime => .ret st_mtime
    | .enoent => .ret 0
    | .failed => .die .mtime_failed s.trace

/-- The loop over `outputs->head->next ...` that lowers `outtime` to the earliest mtime. -/
def _bsbs_requires_rebuild.outputs_loop (env : Env) (s : State) (fuel : Nat) :
    Nat → Nat → Int → Outcome Int
  | 0, _, _ => .timeout
  | k + 1, node, outtime =>
    if node = 0 then .ret outtime
    else (_bsbs_mtime env fuel (node + 8) s).bind fun mtime =>
      _bsbs_requires_rebuild.outputs_loop env s fuel k (load64 s.mem node)
        (if mtime < outtime then mtime else outtime)

/-- The loop over the inputs, from `inputs->head`. -/
def _bsbs_requires_rebuild.inputs_loop (env : Env) (s : State) (fuel : Nat) :
    Nat → Nat → Int → Outcome Bool
  | 0, _, _ => .timeout
  | k + 1, node, outtime =>
    if node = 0 then .ret false
    else (_bsbs_mtime env fuel (node + 8) s).bind fun mtime =>
      if mtime > outtime then .ret true
      else if mtime = 0 then .die .input_missing s.trace
      else _bsbs_requires_rebuild.inputs_loop env s fuel k (load64 s.mem node) outtime

def _bsbs_requires_rebuild (env : Env) (fuel : Nat) (inputs outputs : Nat) (s : State) :
    Outcome Bool :=
  if load64 s.mem outputs = 0 then .ret false
  else if ¬ (load64 s.mem (outputs + 8) ≠ 0) then .abort 178 s.trace
  else
    (_bsbs_mtime env fuel (load64 s.mem (outputs + 8) + 8) s).bind fun first =>
    (_bsbs_requires_rebuild.outputs_loop env s fuel fuel
        (load64 s.mem (load64 s.mem (outputs + 8))) first).bind fun outtime =>
      if outtime = 0 then .ret true
      else _bsbs_requires_rebuild.inputs_loop env s fuel fuel (load64 s.mem (inputs + 8)) outtime

/-! ## Process execution -/

/-- The trace records the call itself on entry, and the `fork` right before it is made. -/
def _bsbs_run_execute_unchecked (env : Env) (run : Nat) (s : State) : Outcome State :=
  (_bsbs_list_to_ntarray run
      { s with trace := s.trace ++ [Event.run_execute_unchecked run] }).bind fun r =>
    let args := r.1
    let s1 : State := { r.2 with trace := r.2.trace ++ [Event.fork args] }
    let pid := env.fork s1.mem args
    if pid = 0 then
      if env.execvp s1.mem args then .replaced s1.trace else .die .exec_failed s1.trace
    else if pid < 0 then .die .fork_failed s1.trace
    else
      match env.waitpid pid with
      | none => .die .wait_failed s1.trace
      | some status =>
        if ¬ (WIFEXITED status = true) ∨ WEXITSTATUS status ≠ 0 then
          .die .abnormal_exit s1.trace
        else .ret s1

/-! ## Runs -/

def bsbs_run_create (s : State) : Outcome (Nat × State) :=
  bsbs_alloc_aligned_array RUN_SIZE 8 1 s

def bsbs_run_add_arg (run : Nat) (arg : CStr) (s : State) : Outcome State :=
  _bsbs_list_append run arg s

def bsbs_run_add_input_file (run : Nat) (filepath : CStr) (s : State) : Outcome State :=
  _bsbs_list_append (run + 24) filepath s

def bsbs_run_add_output_file (run : Nat) (filepath : CStr) (s : State) : Outcome State :=
  _bsbs_list_append (run + 48) filepath s

def bsbs_run_add_input_file_arg (run : Nat) (filepath : CStr) (s : State) : Outcome State :=
  (_bsbs_list_append run filepath s).bind fun s1 => _bsbs_list_append (run + 24) filepath s1

def bsbs_run_add_output_file_arg (run : Nat) (filepath : CStr) (s : State) : Outcome State :=
  (_bsbs_list_append run filepath s).bind fun s1 => _bsbs_list_append (run + 48) filepath s1

def bsbs_run_execute (env : Env) (fuel : Nat) (run : Nat) (s : State) : Outcome State :=
  (_bsbs_requires_rebuild env fuel (run + 24) (run + 48) s).bind fun stale =>
    if stale = true then _bsbs_run_execute_unchecked env run s else .ret s

/-! ## Bootstrap -/

def bsbs_init (env : Env) (fuel : Nat) (total_memory : Nat) (arg0 file : CStr) (s : State) :
    Outcome State :=
  let base := env.malloc total_memory
  if base = 0 then .die .malloc_failed s.trace
  else
    let cc : CStr := match env.getenv_CC with
      | some cc => cc
      | none => [99, 99]
    let s0 : State := { s with
      _bsbs_alloc_base := base, _bsbs_alloc_ptr := base + total_memory, bsbs_cc := cc }
    let save := bsbs_alloc_save s0
    (bsbs_run_create s0).bind fun r =>
    let recompile := r.1
    (bsbs_run_add_arg recompile s0.bsbs_cc r.2).bind fun s1 =>
    (bsbs_run_add_input_file_arg recompile file s1).bind fun s2 =>
    (bsbs_run_add_arg recompile [45, 111] s2).bind fun s3 =>
    (bsbs_run_add_output_file_arg recompile arg0 s3).bind fun s4 =>
    (_bsbs_requires_rebuild env fuel (recompile + 24) (recompile + 48) s4).bind fun stale =>
      if stale = true then
        (_bsbs_run_execute_unchecked env recompile s4).bind fun s5 =>
          let tr := s5.trace ++ [Event.execl]
          if env.execl arg0 then .replaced tr else .die .rerun_failed tr
      else bsbs_alloc_load save s4

/-- Lines 133-141 of `_bsbs_list_append`: the node at `node`, already written, is linked as
the new tail of the list, in the memory `m2` that `strcpy` left. -/
def _bsbs_list_append.link (list node : Nat) (m2 : Mem) : Mem :=
  if load64 m2 (list + 8) = 0 then
    let m3 := store64 m2 (list + 8) node
    let m4 := store64 m3 (list + 16) node
    store64 m4 list 1
  else
    let m3 := store64 m2 (load64 m2 (list + 16)) node
    let m4 := store64 m3 (list + 16) node
    store64 m4 list ((load64 m4 list + 1) % SIZE_MOD)

/-- The first statements of `bsbs_init`: the arena is set up from `malloc(total_memory)` and
`bsbs_cc` is taken from the environment. -/
def bsbs_init.setup (env : Env) (total_memory : Nat) (s : State) : Outcome State :=
  let base := env.malloc total_memory
  if base = 0 then .die .malloc_failed s.trace
  else
    let cc : CStr := match env.getenv_CC with
      | some cc => cc
      | none => [99, 99]
    .ret { s with
      _bsbs_alloc_base := base, _bsbs_alloc_ptr := base + total_memory, bsbs_cc := cc }

/-- The four builder calls of `bsbs_init` on the Run `recompile`. -/
def bsbs_init.describe (recompile : Nat) (arg0 file : CStr) (s : State) : Outcome State :=
  (bsbs_run_add_arg recompile s.bsbs_cc s).bind fun s1 =>
  (bsbs_run_add_input_file_arg recompile file s1).bind fun s2 =>
  (bsbs_run_add_arg recompile [45, 111] s2).bind fun s3 =>
  bsbs_run_add_output_file_arg recompile arg0 s3

/-- The arena invariant `base <= cursor <= top`, where `top` is the end of the region. -/
def ArenaInv (top : Nat) (s : State) : Prop :=
  s._bsbs_alloc_base ≤ s._bsbs_alloc_ptr ∧ s._bsbs_alloc_ptr ≤ top

/-- The arena operations a caller can perform. A `load` restores the checkpoint taken by
the most recent `save` that has not been restored yet (stack discipline). -/
inductive ArenaOp where
  | alloc (size align count : Nat)
  | save
  | load

/-- Runs arena operations in order; `cps` holds the checkpoints taken and not yet restored,
newest first. A `load` without a pending checkpoint is skipped. -/
def arena_ops : List ArenaOp → State → List Nat → Outcome (State × List Nat)
  | [], s, cps => .ret (s, cps)
  | .alloc size align count :: ops, s, cps =>
    (bsbs_alloc_aligned_array size align count s).bind fun r => arena_ops ops r.2 cps
  | .save :: ops, s, cps => arena_ops ops s (bsbs_alloc_save s :: cps)
  | .load :: ops, s, [] => arena_ops ops s []
  | .load :: ops, s, c :: cps => (bsbs_alloc_load c s).bind fun s1 => arena_ops ops s1 cps

/-! ## Representation predicates -/

/-- The bytes of `s` followed by a NUL are stored at address `a`. -/
def CStrAt (m : Mem) : Nat → CStr → Prop
  | a, [] => load8 m a = 0
  | a, c :: cs => load8 m a = c ∧ c ≠ 0 ∧ CStrAt m (a + 1) cs

/-- The linked nodes that start at pointer `p` hold the strings `xs`, in order, and end
with a `NULL` next pointer. -/
def Nodes (m : Mem) : Nat → List CStr → Prop
  | p, [] => p = 0
  | p, c :: cs => p ≠ 0 ∧ CStrAt m (p + 8) c ∧ Nodes m (load64 m p) cs

/-- The `_bsbs_list` at address `list` represents the strings `xs`. -/
def IsList (m : Mem) (list : Nat) (xs : List CStr) : Prop :=
  load64 m list = xs.length ∧ Nodes m (load64 m (list + 8)) xs

/-- As `Nodes`, with the address of every node. -/
def Chain (m : Mem) : Nat → List (Nat × CStr) → Prop
  | p, [] => p = 0
  | p, nd :: rest =>
    p = nd.1 ∧ nd.1 ≠ 0 ∧ CStrAt m (nd.1 + 8) nd.2 ∧ Chain m (load64 m nd.1) rest

/-- Every node block `[a, a + 8 + length + 1)` ends at or below `hi`, and each node lies
below the node linked before it. -/
def Stacked : Nat → List (Nat × CStr) → Prop
  | _, [] => True
  | hi, nd :: rest => nd.1 + 8 + nd.2.length + 1 ≤ hi ∧ Stacked nd.1 rest

/-- Address of the last node of a chain (`0` for the empty chain). -/
def lastAddr : List (Nat × CStr) → Nat
  | [] => 0
  | [nd] => nd.1
  | _ :: nd :: rest => lastAddr (nd :: rest)

/-- Invariant of a list whose header lives at `list` in reserved memory (at or above
the cursor): `count`, `head` and `tail` describe the chain `nodes`, whose blocks lie below the
header, at or above the cursor, each below the one linked before it. -/
structure ListInv (s : State) (list : Nat) (nodes : List (Nat × CStr)) : Prop where
  count : load64 s.mem list = nodes.length
  chain : Chain s.mem (load64 s.mem (list + 8)) nodes
  tail : nodes ≠ [] → load64 s.mem (list + 16) = lastAddr nodes
  stacked : Stacked list nodes
  above : ∀ nd ∈ nodes, s._bsbs_alloc_ptr ≤ nd.1
  hdr : s._bsbs_alloc_ptr ≤ list
  hdr_lt : list < SIZE_MOD
  base_pos : 0 < s._bsbs_alloc_base

/-- The address `x` lies in the block of one of the nodes: its `next` field, its content or
the terminating NUL. -/
def InBlocks (nodes : List (Nat × CStr)) (x : Nat) : Prop :=
  ∃ nd ∈ nodes, nd.1 ≤ x ∧ x < nd.1 + 8 + nd.2.length + 1

/-- Invariant of a Run whose 72 bytes live at `run` in reserved memory: its three lists are
well formed, with chains `A`, `I`, `O`; every node block lies below the Run, and blocks of
different lists do not overlap. -/
structure RunInv (s : State) (run : Nat) (A I O : List (Nat × CStr)) : Prop where
  args : ListInv s run A
  inputs : ListInv s (run + 24) I
  outputs : ListInv s (run + 48) O
  below_inputs : ∀ nd ∈ I, nd.1 + 8 + nd.2.length + 1 ≤ run
  below_outputs : ∀ nd ∈ O, nd.1 + 8 + nd.2.length + 1 ≤ run
  apart_AI : ∀ x, InBlocks A x → ¬ InBlocks I x
  apart_AO : ∀ x, InBlocks A x → ¬ InBlocks O x
  apart_IO : ∀ x, InBlocks I x → ¬ InBlocks O x

/-- The Run at `run` is well formed and its lists hold the strings `args`, `inputs` and
`outputs`, in order. -/
def RunRep (s : State) (run : Nat) (args inputs outputs : List CStr) : Prop :=
  ∃ A I O, RunInv s run A I O ∧ A.map (fun nd => nd.2) = args ∧
    I.map (fun nd => nd.2) = inputs ∧ O.map (fun nd => nd.2) = outputs

/-- The three lists of the Run at `run` represent `args`, `inputs` and `outputs`. -/
def IsRun (m : Mem) (run : Nat) (args inputs outputs : List CStr) : Prop :=
  IsList m run args ∧ IsList m (run + 24) inputs ∧ IsList m (run + 48) outputs

/-- The array at `array` is an argument vector for `strs`: entry `j` is a non-null pointer
to a copy of `strs[j]`, and the entry after the last one is `NULL`. -/
def IsArgv (m : Mem) (array : Nat) (strs : List CStr) : Prop :=
  (∀ j (h : j < strs.length),
      load64 m (array + 8 * j) ≠ 0 ∧ CStrAt m (load64 m (array + 8 * j)) strs[j]) ∧
    load64 m (array + 8 * strs.length) = 0

/-- Calls `_bsbs_list_append(list, c)` for every `c` of the given strings, in order. -/
def append_all (list : Nat) : List CStr → State → Outcome State
  | [], s => .ret s
  | c :: cs, s => (_bsbs_list_append list c s).bind fun s1 => append_all list cs s1

/-! ## List-level view of the staleness check -/

/-- `_bsbs_mtime` as a function of what `stat` reports for the path. -/
def mtime_of_stat (tr : List Event) : StatResult → Outcome Int
  | .ok st_mtime => .ret st_mtime
  | .enoent => .ret 0
  | .failed => .die .mtime_failed tr

/-- The outputs loop of `_bsbs_requires_rebuild` over the `stat` results of the remaining
outputs, in list order. -/
def outputs_scan (tr : List Event) : List StatResult → Int → Outcome Int
  | [], outtime => .ret outtime
  | r :: rs, outtime =>
    (mtime_of_stat tr r).bind fun mtime =>
      outputs_scan tr rs (if mtime < outtime then mtime else outtime)

/-- The inputs loop of `_bsbs_requires_rebuild` over the `stat` results of the inputs. -/
def inputs_scan (tr : List Event) : List StatResult → Int → Outcome Bool
  | [], _ => .ret false
  | r :: rs, outtime =>
    (mtime_of_stat tr r).bind fun mtime =>
      if mtime > outtime then .ret true
      else if mtime = 0 then .die .input_missing tr
      else inputs_scan tr rs outtime

/-- The verdict of `_bsbs_requires_rebuild` as a function of the `stat` results of the inputs
and of the outputs, for lists that are well formed in memory (see `requires_rebuild_refines`). -/
def requires_rebuild_on (tr : List Event) (ins outs : List StatResult) : Outcome Bool :=
  match outs with
  | [] => .ret false
  | o :: rest =>
    (mtime_of_stat tr o).bind fun first =>
    (outputs_scan tr rest first).bind fun outtime =>
      if outtime = 0 then .ret true else inputs_scan tr ins outtime

/-- Fuel that suffices to walk a list and to read each of its strings. -/
def weight : List CStr → Nat
  | [] => 1
  | c :: cs => c.length + 1 + weight cs

/-- The modification time `_bsbs_mtime` reports for a path whose `stat` does not fail. -/
def mtime (env : Env) (path : CStr) : Int :=
  match env.stat path with
  | .ok st_mtime => st_mtime
  | .enoent => 0
  | .failed => 0

/-- The call recorded no event: it returned, ran out of fuel, or ended in `bsbs_die` or in
a failed assertion with the trace `tr` it started with. -/
def Outcome.quiet {α : Type} (tr : List Event) : Outcome α → Prop
  | .ret _ => True
  | .die _ t => t = tr
  | .abort _ t => t = tr
  | .replaced _ => False
  | .timeout => True

/-- Number of calls of `_bsbs_run_execute_unchecked` recorded in a trace. -/
def unchecked_calls : List Event → Nat
  | [] => 0
  | .run_execute_unchecked _ :: tr => unchecked_calls tr + 1
  | _ :: tr => unchecked_calls tr

/-! ## Concrete inputs -/

/-- An arena of 4096 bytes at 4096 with nothing reserved, all memory zero. -/
def arena0 : State :=
  { _bsbs_alloc_base := 4096, _bsbs_alloc_ptr := 8192, bsbs_cc := [99, 99],
    mem := fun _ => 0, trace := [] }

/-- An arena of 96 bytes at 4096 with nothing reserved, all memory zero. -/
def arenaSmall : State :=
  { _bsbs_alloc_base := 4096, _bsbs_alloc_ptr := 4192, bsbs_cc := [99, 99],
    mem := fun _ => 0, trace := [] }

/-- The process state before `bsbs_init`: both allocator globals are `NULL`. -/
def boot : State :=
  { _bsbs_alloc_base := 0, _bsbs_alloc_ptr := 0, bsbs_cc := [99, 99],
    mem := fun _ => 0, trace := [] }

/-- The `stat` of a file system that holds exactly the listed files, with their mtimes. -/
def stat_of (files : List (CStr × Int)) : CStr → StatResult := fun path =>
  match files.lookup path with
  | some st_mtime => .ok st_mtime
  | none => .enoent

/-- A system with the given `stat`, no `CC` variable, `malloc` returning 4096 and every
child exiting with code 0. -/
def envOf (stat : CStr → StatResult) : Env :=
  { stat := stat,
    getenv_CC := none,
    malloc := fun _ => 4096,
    fork := fun _ _ => 1,
    waitpid := fun _ => some (.exited 0),
    execvp := fun _ _ => true,
    execl := fun _ => true }

/-- The Run built in `arena0` by `bsbs_run_create`, then `bsbs_run_add_output_file` for each
path of `outs` (an append to the list at offset 48) and `bsbs_run_add_input_file` for each
path of `ins` (an append to the list at offset 24); the Run's address, which is 8120, and the
state after the calls. -/
def run_with (outs ins : List CStr) : Nat × State :=
  match (bsbs_run_create arena0).bind fun r =>
      (append_all (r.1 + 48) outs r.2).bind fun s1 =>
      (append_all (r.1 + 24) ins s1).bind fun s2 => .ret (r.1, s2) with
  | .ret x => x
  | _ => (0, arena0)

/-! ## Arithmetic of the allocator -/

theorem and_not_mask (x k : Nat) (hk : k ≤ 64) (hx : x < 2 ^ 64) :
    x &&& (2 ^ 64 - 1 - (2 ^ k - 1)) = x / 2 ^ k * 2 ^ k := by
  have h1 : 2 ^ 64 - 1 - (2 ^ k - 1) = 2 ^ k * (2 ^ (64 - k) - 1) := by
    have h2 : 2 ^ 64 = 2 ^ k * 2 ^ (64 - k) := by
      rw [← pow_add]; congr 1; omega
    have h3 : 0 < 2 ^ k := Nat.pow_pos (by norm_num)
    rw [Nat.mul_sub, ← h2]; omega
  rw [h1, Nat.mul_comm (x / 2 ^ k)]
  apply Nat.eq_of_testBit_eq
  intro i
  rw [Nat.testBit_and, Nat.testBit_mul_pow_two, Nat.testBit_mul_pow_two, Nat.testBit_two_pow_sub_one,
    ← Nat.shiftRight_eq_div_pow, Nat.testBit_shiftRight]
  by_cases hik : k ≤ i
  · have : k + (i - k) = i := by omega
    simp only [ge_iff_le, hik, decide_True, Bool.true_and, this]
    by_cases h64 : i < 64
    · have : i - k < 64 - k := by omega
      simp [this]
    · have hlt : x < 2 ^ i := lt_of_lt_of_le hx (Nat.pow_le_pow_right (by norm_num) (by omega))
      simp [Nat.testBit_lt_two_pow hlt]
  · simp [hik]

theorem overflow_check (size count : Nat) (hs : 0 < size) :
    (size * count) % SIZE_MOD / size ≠ count ↔ SIZE_MOD ≤ size * count := by
  constructor
  · intro h
    by_contra hlt
    push_neg at hlt
    rw [Nat.mod_eq_of_lt hlt, Nat.mul_div_cancel_left count hs] at h
    exact h rfl
  · intro h
    have h1 : (size * count) % SIZE_MOD < size * count :=
      lt_of_lt_of_le (Nat.mod_lt _ (by norm_num)) h
    have h2 : (size * count) % SIZE_MOD / size < count := by
      rw [Nat.div_lt_iff_lt_mul hs, Nat.mul_comm count size]
      exact h1
    omega

theorem pow_lt_size_mod {k : Nat} (hk : k < 64) : 2 ^ k < SIZE_MOD := by
  have : (2:Nat) ^ k < 2 ^ 64 := Nat.pow_lt_pow_right (by norm_num) hk
  simpa using this

theorem alloc_eq (size k count : Nat) (s : State) (hk : k < 64) (hs : size ≠ 0)
    (hdvd : 2 ^ k ∣ size) (hp : s._bsbs_alloc_ptr < SIZE_MOD) :
    bsbs_alloc_aligned_array size (2 ^ k) count s =
      if SIZE_MOD ≤ size * count then .die .overflow s.trace
      else if s._bsbs_alloc_ptr / 2 ^ k * 2 ^ k < size * count then .die .underflow s.trace
      else if s._bsbs_alloc_ptr / 2 ^ k * 2 ^ k - size * count < s._bsbs_alloc_base then
        .die .out_of_memory s.trace
      else .ret (s._bsbs_alloc_ptr / 2 ^ k * 2 ^ k - size * count,
        { s with _bsbs_alloc_ptr := s._bsbs_alloc_ptr / 2 ^ k * 2 ^ k - size * count }) := by
  have hpos : 0 < 2 ^ k := Nat.pow_pos (by norm_num)
  have hlt := pow_lt_size_mod hk
  have hmask : (2 ^ k + SIZE_MOD - 1) % SIZE_MOD = 2 ^ k - 1 := by
    have : 2 ^ k + SIZE_MOD - 1 = (2 ^ k - 1) + SIZE_MOD := by omega
    rw [this, Nat.add_mod_right]
    exact Nat.mod_eq_of_lt (by omega)
  have ha1 : (2 ^ k &&& (2 ^ k - 1)) = 0 := by
    rw [Nat.and_pow_two_sub_one_eq_mod]; exact Nat.mod_self _
  have ha2 : (size &&& (2 ^ k - 1)) = 0 := by
    rw [Nat.and_pow_two_sub_one_eq_mod]; exact Nat.mod_eq_zero_of_dvd hdvd
  have ha3 : s._bsbs_alloc_ptr &&& (SIZE_MOD - 1 - (2 ^ k - 1)) = s._bsbs_alloc_ptr / 2 ^ k * 2 ^ k := by
    have := and_not_mask s._bsbs_alloc_ptr k (by omega) (by simpa using hp)
    simpa using this
  have hov := overflow_check size count (Nat.pos_of_ne_zero hs)
  unfold bsbs_alloc_aligned_array
  simp only [hmask, ha1, ha2, ha3, hs, ne_eq, not_false_eq_true, and_self, not_true_eq_false,
    if_false]
  by_cases h1 : SIZE_MOD ≤ size * count
  · have := hov.mpr h1
    simp [h1, this]
  · have hne : ¬ ((size * count) % SIZE_MOD / size ≠ count) := fun h => h1 (hov.mp h)
    have hmod : (size * count) % SIZE_MOD = size * count := Nat.mod_eq_of_lt (by omega)
    rw [if_neg hne, if_neg h1, hmod]
    have hk0 : ¬ ¬ (True ∧ ¬ 2 ^ k = 0) := by
      intro h; exact h ⟨trivial, by omega⟩
    rw [if_neg hk0]

theorem alloc_ret_inv {size align count : Nat} {s : State} {p : Nat} {s' : State}
    (h : bsbs_alloc_aligned_array size align count s = .ret (p, s')) :
    size * count < SIZE_MOD ∧ s._bsbs_alloc_base ≤ p ∧ p + size * count ≤ s._bsbs_alloc_ptr ∧
      s' = { s with _bsbs_alloc_ptr := p } := by
  unfold bsbs_alloc_aligned_array at h
  simp only at h
  split at h
  · cases h
  split at h
  · cases h
  rename_i _ hsz
  split at h
  · cases h
  rename_i hov
  split at h
  · cases h
  rename_i hun
  split at h
  · cases h
  rename_i hoom
  simp only [Outcome.ret.injEq, Prod.mk.injEq] at h
  obtain ⟨hp, hs'⟩ := h
  have hs0 : 0 < size := by
    have := (not_not.mp hsz).2
    omega
  have hq : (size * count) % SIZE_MOD / size = count := not_not.mp hov
  have hle : size * count ≤ (size * count) % SIZE_MOD := by
    have := Nat.div_mul_le_self ((size * count) % SIZE_MOD) size
    rw [hq, Nat.mul_comm] at this
    exact this
  have hlt : size * count < SIZE_MOD := lt_of_le_of_lt hle (Nat.mod_lt _ (by norm_num))
  have hmod : (size * count) % SIZE_MOD = size * count := Nat.mod_eq_of_lt hlt
  rw [hmod] at hp hun hoom hs'
  have hand := @Nat.and_le_left s._bsbs_alloc_ptr (SIZE_MOD - 1 - (align + SIZE_MOD - 1) % SIZE_MOD)
  refine ⟨hlt, ?_, ?_, ?_⟩
  · omega
  · omega
  · rw [← hs', hp]

/-! ## Arena: checkpoints, overflow, bounds -/

@[simp]
theorem Outcome.bind_ret {α β : Type} (a : α) (f : α → Outcome β) :
    (Outcome.ret a).bind f = f a := rfl

theorem Outcome.bind_eq_ret {α β : Type} {x : Outcome α} {f : α → Outcome β} {b : β}
    (h : x.bind f = .ret b) : ∃ a, x = .ret a ∧ f a = .ret b := by
  cases x with
  | ret a => exact ⟨a, rfl, h⟩
  | die _ _ => cases h
  | abort _ _ => cases h
  | replaced _ => cases h
  | timeout => cases h

/-- What a returning sequence of allocations leaves behind: only the cursor moved, downward,
and every reserved block lies between the new and the old cursor, below the blocks
reserved before it. -/
theorem alloc_calls_inv (reqs : List (Nat × Nat × Nat)) :
    ∀ (s0 s : State) (blocks : List (Nat × Nat)), alloc_calls reqs s0 = .ret (blocks, s) →
      s = { s0 with _bsbs_alloc_ptr := s._bsbs_alloc_ptr } ∧
      s._bsbs_alloc_ptr ≤ s0._bsbs_alloc_ptr ∧
      (reqs ≠ [] → s0._bsbs_alloc_base ≤ s._bsbs_alloc_ptr) ∧
      (∀ b ∈ blocks, s._bsbs_alloc_ptr ≤ b.1 ∧ b.1 + b.2 ≤ s0._bsbs_alloc_ptr) ∧
      blocks.Pairwise (fun older newer => newer.1 + newer.2 ≤ older.1) := by
  induction reqs with
  | nil =>
    intro s0 s blocks h
    simp only [alloc_calls, Outcome.ret.injEq, Prod.mk.injEq] at h
    obtain ⟨hb, hs⟩ := h
    subst hb; subst hs
    simp
  | cons req rest ih =>
    intro s0 s blocks h
    simp only [alloc_calls] at h
    obtain ⟨⟨p, s1⟩, h1, h2⟩ := Outcome.bind_eq_ret h
    obtain ⟨⟨bs, s2⟩, h3, h4⟩ := Outcome.bind_eq_ret h2
    simp only [Outcome.ret.injEq, Prod.mk.injEq] at h4
    obtain ⟨hb, hs⟩ := h4
    subst hb; subst hs
    obtain ⟨_, hbase, hblk, hs1⟩ := alloc_ret_inv h1
    obtain ⟨e, hle, hnb, hin, hpw⟩ := ih s1 s2 bs h3
    have hbase1 : s1._bsbs_alloc_base = s0._bsbs_alloc_base := by rw [hs1]
    have hptr1 : s1._bsbs_alloc_ptr = p := by rw [hs1]
    have hlow : s0._bsbs_alloc_base ≤ s2._bsbs_alloc_ptr := by
      by_cases hr : rest = []
      · subst hr
        simp only [alloc_calls, Outcome.ret.injEq, Prod.mk.injEq] at h3
        rw [← h3.2, hptr1]; exact hbase
      · have := hnb hr
        omega
    refine ⟨?_, by omega, fun _ => hlow, ?_, ?_⟩
    · rw [e, hs1]
    · intro b hb
      rcases List.mem_cons.mp hb with hb | hb
      · subst hb
        simp only
        omega
      · have := hin b hb
        omega
    · refine List.pairwise_cons.mpr ⟨?_, hpw⟩
      intro b hb
      have := hin b hb
      simp only
      omega

/-- C6: after a checkpoint `c = bsbs_alloc_save()` and any sequence of allocations that all
return, `bsbs_alloc_load(c)` passes both of its assertions and returns with the arena state of
the checkpoint (the cursor equals its saved value); hence every request made next behaves as
it would have at checkpoint time, returning the same address when it succeeds. -/
theorem C6_checkpoint_roundtrip (s : State) (reqs : List (Nat × Nat × Nat))
    (blocks : List (Nat × Nat)) (s1 : State)
    (hinv : s._bsbs_alloc_base ≤ s._bsbs_alloc_ptr)
    (hcalls : alloc_calls reqs s = .ret (blocks, s1)) :
    bsbs_alloc_load (bsbs_alloc_save s) s1 = .ret s ∧
      ∀ size align count,
        (bsbs_alloc_load (bsbs_alloc_save s) s1).bind
            (bsbs_alloc_aligned_array size align count) =
          bsbs_alloc_aligned_array size align count s := by
  obtain ⟨e, hle, _, _, _⟩ := alloc_calls_inv reqs s s1 blocks hcalls
  have hb : s1._bsbs_alloc_base = s._bsbs_alloc_base := by rw [e]
  have h2 : bsbs_alloc_load (bsbs_alloc_save s) s1 = .ret s := by
    unfold bsbs_alloc_load bsbs_alloc_save
    rw [if_neg (by rw [hb]; omega), if_neg (by omega)]
    rw [e]
  refine ⟨h2, ?_⟩
  intro size align count
  rw [h2]
  rfl

theorem C6_checkpoint_roundtrip_witness :
    bsbs_alloc_load (bsbs_alloc_save arena0)
        { arena0 with _bsbs_alloc_ptr := 8088 } = .ret arena0 ∧
      (bsbs_alloc_load (bsbs_alloc_save arena0) { arena0 with _bsbs_alloc_ptr := 8088 }).bind
          (bsbs_alloc_aligned_array 72 8 1) = bsbs_alloc_aligned_array 72 8 1 arena0 :=
  have h := C6_checkpoint_roundtrip arena0 [(72, 8, 1), (1, 1, 3), (8, 8, 3)]
    [(8120, 72), (8117, 3), (8088, 24)] { arena0 with _bsbs_alloc_ptr := 8088 }
    (by decide) (by rfl)
  ⟨h.1, h.2 72 8 1⟩

/-- C7 as stated fails: a non-zero `size` that is not a multiple of `align` stops at the
assertion of line 264 although `size * count` does not fit in 64 bits. -/
theorem C7_counterexample :
    SIZE_MOD ≤ 3 * 9223372036854775808 ∧
      bsbs_alloc_aligned_array 3 2 9223372036854775808 arena0 = .abort 264 [] := by
  constructor
  · decide
  · rfl

/-- C7 (amended): for `align` a power of two and `size` a non-zero multiple of it (the two
assertions pass), the call ends in the overflow error exactly when `size * count` does not
fit in 64 bits; a call that returns `p` had a product that fits and reserved all of
`[p, p + size * count)` below the old cursor. -/
theorem C7_overflow_exact (size k count : Nat) (s : State) (hk : k < 64) (hs : size ≠ 0)
    (hdvd : 2 ^ k ∣ size) (hp : s._bsbs_alloc_ptr < SIZE_MOD) :
    (bsbs_alloc_aligned_array size (2 ^ k) count s = .die .overflow s.trace ↔
        SIZE_MOD ≤ size * count) ∧
      ∀ p s1, bsbs_alloc_aligned_array size (2 ^ k) count s = .ret (p, s1) →
        size * count < SIZE_MOD ∧ s._bsbs_alloc_base ≤ p ∧
          p + size * count ≤ s._bsbs_alloc_ptr ∧ s1._bsbs_alloc_ptr = p := by
  constructor
  · rw [alloc_eq size k count s hk hs hdvd hp]
    constructor
    · intro h
      by_contra hno
      rw [if_neg hno] at h
      split at h
      · cases h
      · split at h <;> cases h
    · intro h
      rw [if_pos h]
  · intro p s1 h
    obtain ⟨h1, h2, h3, h4⟩ := alloc_ret_inv h
    exact ⟨h1, h2, h3, by rw [h4]⟩

theorem C7_overflow_exact_witness :
    bsbs_alloc_aligned_array 8 (2 ^ 3) 2305843009213693952 arena0 =
      .die .overflow arena0.trace :=
  (C7_overflow_exact 8 3 2305843009213693952 arena0 (by decide) (by decide) (by decide)
    (by decide)).1.mpr (by decide)

/-- C8: for a request that meets the asserted preconditions and whose `size * count` does not
overflow, made after any returning sequence of earlier allocations, the call returns exactly
when `alignDown(cursor, align) - size * count >= base` over the integers, and otherwise ends
in the underflow or the out-of-memory error; a returned `p` satisfies `base <= p` and
`p + size * count <= cursor`, and the block lies below every block reserved earlier. -/
theorem C8_block_inside_arena (reqs : List (Nat × Nat × Nat)) (s0 s : State)
    (blocks : List (Nat × Nat)) (size k count : Nat)
    (hprev : alloc_calls reqs s0 = .ret (blocks, s))
    (hp : s0._bsbs_alloc_ptr < SIZE_MOD)
    (hk : k < 64) (hs : size ≠ 0) (hdvd : 2 ^ k ∣ size) (hno : size * count < SIZE_MOD) :
    ((∃ r, bsbs_alloc_aligned_array size (2 ^ k) count s = .ret r) ↔
        (s._bsbs_alloc_base : Int) ≤
          ((s._bsbs_alloc_ptr / 2 ^ k * 2 ^ k : Nat) : Int) - ((size * count : Nat) : Int)) ∧
      ((¬ ∃ r, bsbs_alloc_aligned_array size (2 ^ k) count s = .ret r) →
        bsbs_alloc_aligned_array size (2 ^ k) count s = .die .underflow s.trace ∨
        bsbs_alloc_aligned_array size (2 ^ k) count s = .die .out_of_memory s.trace) ∧
      ∀ p s1, bsbs_alloc_aligned_array size (2 ^ k) count s = .ret (p, s1) →
        s._bsbs_alloc_base ≤ p ∧ p + size * count ≤ s._bsbs_alloc_ptr ∧
          s1._bsbs_alloc_ptr = p ∧ ∀ b ∈ blocks, p + size * count ≤ b.1 := by
  obtain ⟨_, hle, _, hin, _⟩ := alloc_calls_inv reqs s0 s blocks hprev
  have hps : s._bsbs_alloc_ptr < SIZE_MOD := lt_of_le_of_lt hle hp
  have heq := alloc_eq size k count s hk hs hdvd hps
  rw [if_neg (by omega)] at heq
  refine ⟨?_, ?_, ?_⟩
  · rw [heq]
    constructor
    · rintro ⟨r, hr⟩
      split at hr
      · cases hr
      · split at hr
        · cases hr
        · omega
    · intro h
      rw [if_neg (by omega), if_neg (by omega)]
      exact ⟨_, rfl⟩
  · intro h
    rw [heq] at h ⊢
    split
    · exact Or.inl rfl
    · split
      · exact Or.inr rfl
      · rename_i h1 h2
        rw [if_neg h1, if_neg h2] at h
        exact absurd ⟨_, rfl⟩ h
  · intro p s1 h
    obtain ⟨_, h2, h3, h4⟩ := alloc_ret_inv h
    refine ⟨h2, h3, by rw [h4], ?_⟩
    intro b hb
    have := hin b hb
    omega

theorem C8_block_inside_arena_witness :
    (4096 : Nat) ≤ 8104 ∧ 8104 + 8 * 2 ≤ 8120 ∧
      ({ arena0 with _bsbs_alloc_ptr := 8104 } : State)._bsbs_alloc_ptr = 8104 ∧
      ∀ b ∈ [((8120 : Nat), (72 : Nat))], 8104 + 8 * 2 ≤ b.1 :=
  (C8_block_inside_arena [(72, 8, 1)] arena0 { arena0 with _bsbs_alloc_ptr := 8120 }
    [(8120, 72)] 8 3 2 (by rfl) (by decide) (by decide) (by decide) (by decide)
    (by decide)).2.2 8104 { arena0 with _bsbs_alloc_ptr := 8104 } (by rfl)

/-! ## Memory: reads after writes -/

theorem load8_lt (m : Mem) (a : Nat) : load8 m a < 256 := Nat.mod_lt _ (by norm_num)

theorem load64_lt (m : Mem) (a : Nat) : load64 m a < SIZE_MOD := by
  unfold load64
  have h0 := load8_lt m a
  have h1 := load8_lt m (a + 1)
  have h2 := load8_lt m (a + 2)
  have h3 := load8_lt m (a + 3)
  have h4 := load8_lt m (a + 4)
  have h5 := load8_lt m (a + 5)
  have h6 := load8_lt m (a + 6)
  have h7 := load8_lt m (a + 7)
  simp only [SIZE_MOD]
  omega

theorem store64_outside (m : Mem) (a v x : Nat) (h : x < a ∨ a + 8 ≤ x) :
    store64 m a v x = m x := by
  have hne : ∀ d, d < 8 → x ≠ a + d := fun d hd => by omega
  have h0 : x ≠ a := hne 0 (by decide)
  unfold store64
  rw [if_neg h0, if_neg (hne 1 (by decide)), if_neg (hne 2 (by decide)),
    if_neg (hne 3 (by decide)), if_neg (hne 4 (by decide)), if_neg (hne 5 (by decide)),
    if_neg (hne 6 (by decide)), if_neg (hne 7 (by decide))]

theorem load64_congr {m m1 : Mem} {a : Nat} (h : ∀ x, a ≤ x → x < a + 8 → m1 x = m x) :
    load64 m1 a = load64 m a := by
  unfold load64 load8
  rw [h a (by omega) (by omega), h (a + 1) (by omega) (by omega),
    h (a + 2) (by omega) (by omega), h (a + 3) (by omega) (by omega),
    h (a + 4) (by omega) (by omega), h (a + 5) (by omega) (by omega),
    h (a + 6) (by omega) (by omega), h (a + 7) (by omega) (by omega)]

theorem load64_store64_same (m : Mem) (a v : Nat) (hv : v < 18446744073709551616) :
    load64 (store64 m a v) a = v := by
  have e0 : store64 m a v a = v % 256 := by simp [store64]
  have e1 : store64 m a v (a + 1) = v / 256 % 256 := by simp [store64]
  have e2 : store64 m a v (a + 2) = v / 65536 % 256 := by simp [store64]
  have e3 : store64 m a v (a + 3) = v / 16777216 % 256 := by simp [store64]
  have e4 : store64 m a v (a + 4) = v / 4294967296 % 256 := by simp [store64]
  have e5 : store64 m a v (a + 5) = v / 1099511627776 % 256 := by simp [store64]
  have e6 : store64 m a v (a + 6) = v / 281474976710656 % 256 := by simp [store64]
  have e7 : store64 m a v (a + 7) = v / 72057594037927936 % 256 := by simp [store64]
  unfold load64 load8
  rw [e0, e1, e2, e3, e4, e5, e6, e7]
  omega

theorem load64_store64_other (m : Mem) (a v b : Nat) (h : b + 8 ≤ a ∨ a + 8 ≤ b) :
    load64 (store64 m a v) b = load64 m b :=
  load64_congr fun x h1 h2 => store64_outside m a v x (by omega)

theorem strcpy_outside (s : CStr) : ∀ (m : Mem) (dst x : Nat), x < dst ∨ dst + s.length < x →
    strcpy m dst s x = m x := by
  induction s with
  | nil =>
    intro m dst x h
    simp only [strcpy, store8, List.length_nil, Nat.add_zero] at h ⊢
    rw [if_neg (by omega)]
  | cons c cs ih =>
    intro m dst x h
    simp only [strcpy, List.length_cons] at h ⊢
    rw [ih _ _ _ (by omega)]
    simp only [store8]
    rw [if_neg (by omega)]

theorem CStrAt_congr (s : CStr) : ∀ (m m1 : Mem) (a : Nat),
    (∀ x, a ≤ x → x ≤ a + s.length → m1 x = m x) → CStrAt m a s → CStrAt m1 a s := by
  induction s with
  | nil =>
    intro m m1 a h hs
    simp only [CStrAt, load8] at hs ⊢
    rw [h a (by omega) (by omega)]; exact hs
  | cons c cs ih =>
    intro m m1 a h hs
    simp only [CStrAt, load8, List.length_cons] at hs h ⊢
    refine ⟨?_, hs.2.1, ih m m1 (a + 1) (fun x h1 h2 => h x (by omega) (by omega)) hs.2.2⟩
    rw [h a (by omega) (by omega)]; exact hs.1

theorem CStrAt_strcpy (s : CStr) : ∀ (m : Mem) (dst : Nat), (∀ c ∈ s, 0 < c ∧ c < 256) →
    CStrAt (strcpy m dst s) dst s := by
  induction s with
  | nil =>
    intro m dst _
    simp [CStrAt, strcpy, load8, store8]
  | cons c cs ih =>
    intro m dst hv
    have hc := hv c (List.mem_cons_self _ _)
    simp only [CStrAt, strcpy]
    refine ⟨?_, by omega, ih _ _ (fun c1 h1 => hv c1 (List.mem_cons_of_mem _ h1))⟩
    unfold load8
    rw [strcpy_outside cs _ _ _ (Or.inl (by omega))]
    simp only [store8, if_true, Nat.mod_mod]
    exact Nat.mod_eq_of_lt hc.2

theorem cstr_of_CStrAt (s : CStr) : ∀ (m : Mem) (a fuel : Nat), CStrAt m a s →
    s.length < fuel → cstr m fuel a = some s := by
  induction s with
  | nil =>
    intro m a fuel h hf
    cases fuel with
    | zero => omega
    | succ f =>
      simp only [CStrAt] at h
      simp [cstr, h]
  | cons c cs ih =>
    intro m a fuel h hf
    cases fuel with
    | zero => omega
    | succ f =>
      simp only [CStrAt] at h
      simp only [List.length_cons] at hf
      obtain ⟨h1, h2, h3⟩ := h
      simp only [cstr]
      rw [if_neg (by rw [h1]; exact h2), ih m (a + 1) f h3 (by omega), h1]
      rfl

/-! ## Owned lists: the chain invariant -/

theorem lastAddr_snoc (nodes : List (Nat × CStr)) (nd : Nat × CStr) :
    lastAddr (nodes ++ [nd]) = nd.1 := by
  induction nodes with
  | nil => rfl
  | cons a rest ih =>
    cases rest with
    | nil => rfl
    | cons b rest2 =>
      simp only [List.cons_append, lastAddr] at ih ⊢
      exact ih

theorem lastAddr_mem (nodes : List (Nat × CStr)) (h : nodes ≠ []) :
    ∃ nd ∈ nodes, nd.1 = lastAddr nodes := by
  induction nodes with
  | nil => exact absurd rfl h
  | cons a rest ih =>
    cases rest with
    | nil => exact ⟨a, List.mem_cons_self _ _, rfl⟩
    | cons b rest2 =>
      obtain ⟨nd, hm, he⟩ := ih (by simp)
      exact ⟨nd, List.mem_cons_of_mem _ hm, he⟩

theorem stacked_mono (nodes : List (Nat × CStr)) : ∀ (hi hi1 : Nat), hi ≤ hi1 →
    Stacked hi nodes → Stacked hi1 nodes := by
  cases nodes with
  | nil => intro _ _ _ _; trivial
  | cons nd rest =>
    intro hi hi1 hle h
    simp only [Stacked] at h ⊢
    exact ⟨by omega, h.2⟩

theorem stacked_mem (nodes : List (Nat × CStr)) : ∀ (hi : Nat), Stacked hi nodes →
    ∀ nd ∈ nodes, nd.1 + 8 + nd.2.length + 1 ≤ hi := by
  induction nodes with
  | nil => intro _ _ nd h; cases h
  | cons a rest ih =>
    intro hi h nd hm
    simp only [Stacked] at h
    rcases List.mem_cons.mp hm with e | hm1
    · subst e; exact h.1
    · have := ih a.1 h.2 nd hm1
      omega

theorem stacked_snoc (nodes : List (Nat × CStr)) : ∀ (hi : Nat) (nd : Nat × CStr),
    Stacked hi nodes → nd.1 + 8 + nd.2.length + 1 ≤ hi →
    (∀ x ∈ nodes, nd.1 + 8 + nd.2.length + 1 ≤ x.1) → Stacked hi (nodes ++ [nd]) := by
  induction nodes with
  | nil =>
    intro hi nd _ h _
    simp only [List.nil_append, Stacked]
    exact ⟨h, trivial⟩
  | cons a rest ih =>
    intro hi nd h h1 h2
    simp only [List.cons_append, Stacked] at h ⊢
    exact ⟨h.1, ih a.1 nd h.2 (h2 a (List.mem_cons_self _ _))
      (fun x hx => h2 x (List.mem_cons_of_mem _ hx))⟩

theorem stacked_length (nodes : List (Nat × CStr)) : ∀ (hi : Nat), Stacked hi nodes →
    9 * nodes.length ≤ hi := by
  induction nodes with
  | nil => intro _ _; simp
  | cons a rest ih =>
    intro hi h
    simp only [Stacked] at h
    have := ih a.1 h.2
    simp only [List.length_cons]
    omega

/-- Linking a new last node: the chain is kept when the memory changes only inside the new
node's block (below `lo`), in the next pointer of the old last node, and at or above `hi`. -/
theorem chain_snoc (m m5 : Mem) (node : Nat) (content : CStr) (lo : Nat) :
    ∀ (nodes : List (Nat × CStr)) (p hi : Nat), nodes ≠ [] → Chain m p nodes →
      Stacked hi nodes → (∀ nd ∈ nodes, lo ≤ nd.1) →
      (∀ x, lo ≤ x → x < hi → (x < lastAddr nodes ∨ lastAddr nodes + 8 ≤ x) → m5 x = m x) →
      load64 m5 (lastAddr nodes) = node →
      Chain m5 node [(node, content)] →
      Chain m5 p (nodes ++ [(node, content)]) := by
  intro nodes
  induction nodes with
  | nil => intro _ _ h; exact absurd rfl h
  | cons a rest ih =>
    intro p hi _ hch hst hlo hfr hld hnew
    cases rest with
    | nil =>
      simp only [Chain, Stacked, lastAddr, List.nil_append, List.cons_append] at *
      obtain ⟨hp, ha0, hs, _⟩ := hch
      refine ⟨hp, ha0, ?_, ?_⟩
      · refine CStrAt_congr _ m m5 _ ?_ hs
        intro x h1 h2
        have := hlo a (List.mem_singleton.mpr rfl)
        exact hfr x (by omega) (by omega) (by omega)
      · rw [hld]; exact ⟨rfl, hnew.2⟩
    | cons b rest2 =>
      simp only [Chain, Stacked, List.cons_append] at hch hst ⊢
      obtain ⟨hp, ha0, hs, hrest⟩ := hch
      have hla : lastAddr (a :: b :: rest2) = lastAddr (b :: rest2) := rfl
      rw [hla] at hfr hld
      obtain ⟨t, htm, hte⟩ := lastAddr_mem (b :: rest2) (by simp)
      have htb := stacked_mem (b :: rest2) a.1 (by simpa [Stacked] using hst.2) t htm
      rw [hte] at htb
      have hloa := hlo a (List.mem_cons_self _ _)
      refine ⟨hp, ha0, ?_, ?_⟩
      · refine CStrAt_congr _ m m5 _ ?_ hs
        intro x h1 h2
        exact hfr x (by omega) (by omega) (by omega)
      · have e : load64 m5 a.1 = load64 m a.1 :=
          load64_congr fun x h1 h2 => hfr x (by omega) (by omega) (by omega)
        rw [e]
        have := ih (load64 m a.1) a.1 (by simp)
          (by simpa [Chain] using hrest) (by simpa [Stacked] using hst.2)
          (fun nd hnd => hlo nd (List.mem_cons_of_mem _ hnd))
          (fun x h1 h2 h3 => hfr x h1 (by omega) h3) hld hnew
        simpa [Chain] using this

theorem chain_single (m : Mem) (node : Nat) (content : CStr) (h0 : node ≠ 0)
    (hs : CStrAt m (node + 8) content) (hn : load64 m node = 0) :
    Chain m node [(node, content)] :=
  ⟨rfl, h0, hs, hn⟩

theorem chain_nil_iff {m : Mem} {p : Nat} {nodes : List (Nat × CStr)} (h : Chain m p nodes) :
    p = 0 ↔ nodes = [] := by
  cases nodes with
  | nil => simpa [Chain] using h
  | cons a rest =>
    simp only [Chain] at h
    constructor
    · intro hp; exact absurd (hp ▸ h.1).symm h.2.1
    · intro hn; cases hn

/-- One `_bsbs_list_append` that returns extends the chain by a node at the new cursor. -/
theorem append_step {s s1 : State} {list : Nat} {content : CStr} {nodes : List (Nat × CStr)}
    (hinv : ListInv s list nodes) (hv : content.valid)
    (h : _bsbs_list_append list content s = .ret s1) :
    ListInv s1 list (nodes ++ [(s1._bsbs_alloc_ptr, content)]) ∧
      s1._bsbs_alloc_ptr + 8 + content.length + 1 ≤ s._bsbs_alloc_ptr ∧
      s1._bsbs_alloc_base = s._bsbs_alloc_base ∧ s1.trace = s.trace := by
  unfold _bsbs_list_append at h
  simp only at h
  obtain ⟨⟨p1, sA⟩, hA, h⟩ := Outcome.bind_eq_ret h
  obtain ⟨⟨node, sB⟩, hB, h⟩ := Outcome.bind_eq_ret h
  simp only at h
  obtain ⟨_, hA1, hA2, hA3⟩ := alloc_ret_inv hA
  obtain ⟨_, hB1, hB2, hB3⟩ := alloc_ret_inv hB
  rw [Nat.mod_eq_of_lt hv.2] at hA2
  subst hA3
  subst hB3
  have hvlen := hv.2
  obtain ⟨hcount, hchain, htail, hstacked, habove, hhdr, hhdr_lt, hbase⟩ := hinv
  simp only [NODE_SIZE, SIZE_MOD, Nat.one_mul, Nat.mul_one] at h hA1 hA2 hB1 hB2 hvlen hhdr_lt
  have hnode0 : node ≠ 0 := by omega
  have hnode_lt : node < 18446744073709551616 := by omega
  -- the memory after writing the node
  obtain ⟨m2, hm2⟩ : ∃ m2, m2 = strcpy (store64 s.mem node 0) (node + 8) content := ⟨_, rfl⟩
  rw [← hm2] at h
  have F2 : ∀ x, x < node ∨ node + 8 + content.length + 1 ≤ x → m2 x = s.mem x := by
    intro x hx
    rw [hm2, strcpy_outside content _ _ _ (by omega), store64_outside _ _ _ _ (by omega)]
  have N2 : load64 m2 node = 0 := by
    rw [hm2]
    rw [load64_congr fun x h1 h2 => strcpy_outside content _ _ x (Or.inl (by omega))]
    exact load64_store64_same _ _ _ (by norm_num)
  have S2 : CStrAt m2 (node + 8) content := by
    rw [hm2]; exact CStrAt_strcpy content _ _ hv.1
  have Hhead : load64 m2 (list + 8) = load64 s.mem (list + 8) :=
    load64_congr fun x h1 h2 => F2 x (by omega)
  have Htail : load64 m2 (list + 16) = load64 s.mem (list + 16) :=
    load64_congr fun x h1 h2 => F2 x (by omega)
  have Hcount : load64 m2 list = load64 s.mem list :=
    load64_congr fun x h1 h2 => F2 x (by omega)
  split at h
  · -- empty list
    rename_i hz
    rw [Hhead] at hz
    have hnil : nodes = [] := (chain_nil_iff hchain).mp hz
    subst hnil
    simp only [Outcome.ret.injEq] at h
    subst h
    have c1 : load64 (store64 (store64 (store64 m2 (list + 8) node) (list + 16) node) list 1) list
        = ([] ++ [(node, content)]).length := load64_store64_same _ _ _ (by norm_num)
    have c2 : Chain (store64 (store64 (store64 m2 (list + 8) node) (list + 16) node) list 1)
        (load64 (store64 (store64 (store64 m2 (list + 8) node) (list + 16) node) list 1)
          (list + 8)) ([] ++ [(node, content)]) := by
      rw [load64_store64_other _ _ _ _ (by omega), load64_store64_other _ _ _ _ (by omega),
        load64_store64_same _ _ _ hnode_lt]
      refine chain_single _ _ _ hnode0 ?_ ?_
      · refine CStrAt_congr content m2 _ _ ?_ S2
        intro x h1 h2
        rw [store64_outside _ _ _ _ (by omega), store64_outside _ _ _ _ (by omega),
          store64_outside _ _ _ _ (by omega)]
      · rw [load64_store64_other _ _ _ _ (by omega), load64_store64_other _ _ _ _ (by omega),
          load64_store64_other _ _ _ _ (by omega), N2]
    have c3 : load64 (store64 (store64 (store64 m2 (list + 8) node) (list + 16) node) list 1)
        (list + 16) = lastAddr ([] ++ [(node, content)]) := by
      rw [load64_store64_other _ _ _ _ (by omega), load64_store64_same _ _ _ hnode_lt]
      rfl
    have c4 : Stacked list ([] ++ [(node, content)]) := by
      refine ⟨?_, trivial⟩
      show node + 8 + content.length + 1 ≤ list
      omega
    have c5 : ∀ nd ∈ ([] : List (Nat × CStr)) ++ [(node, content)], node ≤ nd.1 := by
      intro nd hnd
      rw [List.mem_singleton.mp hnd]
    have c6 : node ≤ list := by omega
    have c7 : node + 8 + content.length + 1 ≤ s._bsbs_alloc_ptr := by omega
    exact ⟨⟨c1, c2, fun _ => c3, c4, c5, c6, hhdr_lt, hbase⟩, c7, rfl, rfl⟩
  · -- non-empty list
    rename_i hz
    rw [Hhead] at hz
    have hne : nodes ≠ [] := fun e => hz ((chain_nil_iff hchain).mpr e)
    have ht := htail hne
    obtain ⟨tn, htm, hte⟩ := lastAddr_mem nodes hne
    have htb := stacked_mem nodes list hstacked tn htm
    have hta := habove tn htm
    rw [hte] at htb hta
    rw [Htail, ht] at h
    have hlen := stacked_length nodes list hstacked
    have Hcount4 : load64 (store64 (store64 m2 (lastAddr nodes) node) (list + 16) node) list
        = nodes.length := by
      rw [load64_store64_other _ _ _ _ (by omega), load64_store64_other _ _ _ _ (by omega),
        Hcount, hcount]
    rw [Hcount4, Nat.mod_eq_of_lt (by omega)] at h
    simp only [Outcome.ret.injEq] at h
    subst h
    obtain ⟨m5, hm5⟩ : ∃ m5, m5 = store64 (store64 (store64 m2 (lastAddr nodes) node)
        (list + 16) node) list (nodes.length + 1) := ⟨_, rfl⟩
    rw [← hm5]
    have c1 : load64 m5 list = (nodes ++ [(node, content)]).length := by
      rw [hm5, List.length_append, List.length_singleton]
      exact load64_store64_same _ _ _ (by omega)
    have F5 : ∀ x, (x < node ∨ node + 8 + content.length + 1 ≤ x) →
        (x < lastAddr nodes ∨ lastAddr nodes + 8 ≤ x) → x < list → m5 x = s.mem x := by
      intro x h1 h2 h3
      rw [hm5, store64_outside _ _ _ _ (by omega), store64_outside _ _ _ _ (by omega),
        store64_outside _ _ _ _ (by omega)]
      exact F2 x h1
    have G5 : ∀ x, x < list → (x < lastAddr nodes ∨ lastAddr nodes + 8 ≤ x) → m5 x = m2 x := by
      intro x h1 h2
      rw [hm5, store64_outside _ _ _ _ (by omega), store64_outside _ _ _ _ (by omega),
        store64_outside _ _ _ _ (by omega)]
    have c2 : Chain m5 (load64 m5 (list + 8)) (nodes ++ [(node, content)]) := by
      have e : load64 m5 (list + 8) = load64 s.mem (list + 8) := by
        rw [hm5, load64_store64_other _ _ _ _ (by omega),
          load64_store64_other _ _ _ _ (by omega), load64_store64_other _ _ _ _ (by omega),
          Hhead]
      rw [e]
      refine chain_snoc s.mem m5 node content s._bsbs_alloc_ptr nodes _ list hne hchain
        hstacked habove ?_ ?_ ?_
      · intro x h1 h2 h3
        exact F5 x (by omega) h3 h2
      · rw [hm5, load64_store64_other _ _ _ _ (by omega),
          load64_store64_other _ _ _ _ (by omega), load64_store64_same _ _ _ hnode_lt]
      · refine chain_single _ _ _ hnode0 ?_ ?_
        · refine CStrAt_congr content m2 _ _ ?_ S2
          intro x h1 h2
          exact G5 x (by omega) (by omega)
        · rw [load64_congr fun x h1 h2 => G5 x (by omega) (by omega)]
          exact N2
    have c3 : load64 m5 (list + 16) = lastAddr (nodes ++ [(node, content)]) := by
      rw [lastAddr_snoc, hm5, load64_store64_other _ _ _ _ (by omega),
        load64_store64_same _ _ _ hnode_lt]
    have c4 : Stacked list (nodes ++ [(node, content)]) := by
      refine stacked_snoc nodes list _ hstacked ?_ ?_
      · show node + 8 + content.length + 1 ≤ list
        omega
      · intro x hx
        have := habove x hx
        show node + 8 + content.length + 1 ≤ x.1
        omega
    have c5 : ∀ nd ∈ nodes ++ [(node, content)], node ≤ nd.1 := by
      intro nd hnd
      rcases List.mem_append.mp hnd with h1 | h1
      · have := habove nd h1
        omega
      · rw [List.mem_singleton.mp h1]
    have c6 : node ≤ list := by omega
    have c7 : node + 8 + content.length + 1 ≤ s._bsbs_alloc_ptr := by omega
    exact ⟨⟨c1, c2, fun _ => c3, c4, c5, c6, hhdr_lt, hbase⟩, c7, rfl, rfl⟩

theorem chain_congr (m m1 : Mem) (lo : Nat) (hfr : ∀ x, lo ≤ x → m1 x = m x) :
    ∀ (nodes : List (Nat × CStr)) (p : Nat), (∀ nd ∈ nodes, lo ≤ nd.1) →
      Chain m p nodes → Chain m1 p nodes := by
  intro nodes
  induction nodes with
  | nil => intro p _ h; exact h
  | cons a rest ih =>
    intro p hlo h
    obtain ⟨h1, h2, h3, h4⟩ := h
    have ha := hlo a (List.mem_cons_self _ _)
    refine ⟨h1, h2, CStrAt_congr _ m m1 _ (fun x hx _ => hfr x (by omega)) h3, ?_⟩
    rw [load64_congr fun x hx _ => hfr x (by omega)]
    exact ih _ (fun nd hnd => hlo nd (List.mem_cons_of_mem _ hnd)) h4

theorem chain_get (m : Mem) : ∀ (nodes : List (Nat × CStr)) (p j : Nat) (nd : Nat × CStr),
    Chain m p nodes → nodes[j]? = some nd → nd.1 ≠ 0 ∧ CStrAt m (nd.1 + 8) nd.2 := by
  intro nodes
  induction nodes with
  | nil => intro p j nd _ h; simp at h
  | cons a rest ih =>
    intro p j nd h hj
    obtain ⟨_, h2, h3, h4⟩ := h
    cases j with
    | zero =>
      simp only [List.getElem?_cons_zero, Option.some.injEq] at hj
      subst hj
      exact ⟨h2, h3⟩
    | succ j =>
      simp only [List.getElem?_cons_succ] at hj
      exact ih _ j nd h4 hj

theorem chain_nodes (m : Mem) : ∀ (nodes : List (Nat × CStr)) (p : Nat),
    Chain m p nodes → Nodes m p (nodes.map fun nd => nd.2) := by
  intro nodes
  induction nodes with
  | nil => intro p h; exact h
  | cons a rest ih =>
    intro p h
    obtain ⟨h1, h2, h3, h4⟩ := h
    subst h1
    exact ⟨h2, h3, ih _ h4⟩

/-- The copy loop of `_bsbs_list_to_ntarray` on a well-formed chain: it stops with
`i = count` and `n = NULL`, having stored the content addresses in order, and it
writes nowhere else. -/
theorem ntarray_loop_spec (list array lo : Nat) (hlist : lo ≤ list) :
    ∀ (rest : List (Nat × CStr)) (fuel i n : Nat) (m : Mem),
      rest.length ≤ fuel → Chain m n rest → load64 m list = i + rest.length →
      array + 8 * (i + rest.length) ≤ lo →
      (∀ nd ∈ rest, lo ≤ nd.1 ∧ nd.1 + 8 < 18446744073709551616) →
      ∃ m1, _bsbs_list_to_ntarray.loop list array fuel i n m = (i + rest.length, 0, m1) ∧
        (∀ x, (x < array + 8 * i ∨ array + 8 * (i + rest.length) ≤ x) → m1 x = m x) ∧
        ∀ j nd, rest[j]? = some nd → load64 m1 (array + 8 * (i + j)) = nd.1 + 8 := by
  intro rest
  induction rest with
  | nil =>
    intro fuel i n m _ hch _ _ _
    have hn : n = 0 := hch
    subst hn
    refine ⟨m, ?_, fun _ _ => rfl, ?_⟩
    · cases fuel with
      | zero => rfl
      | succ f => simp [_bsbs_list_to_ntarray.loop]
    · intro j nd h; simp at h
  | cons a rest ih =>
    intro fuel i n m hf hch hcount harr hnodes
    obtain ⟨h1, h2, h3, h4⟩ := hch
    subst h1
    simp only [List.length_cons] at hf hcount harr
    obtain ⟨hlo_a, hlt_a⟩ := hnodes a (List.mem_cons_self _ _)
    cases fuel with
    | zero => omega
    | succ f =>
      have hfr : ∀ x, lo ≤ x → store64 m (array + 8 * i) (a.1 + 8) x = m x :=
        fun x hx => store64_outside _ _ _ _ (by omega)
      have e1 : load64 (store64 m (array + 8 * i) (a.1 + 8)) a.1 = load64 m a.1 :=
        load64_congr fun x hx _ => hfr x (by omega)
      have e2 : load64 (store64 m (array + 8 * i) (a.1 + 8)) list = load64 m list :=
        load64_congr fun x hx _ => hfr x (by omega)
      obtain ⟨m1, hl, hout, hent⟩ := ih f (i + 1) (load64 m a.1)
        (store64 m (array + 8 * i) (a.1 + 8)) (by omega)
        (chain_congr m _ lo hfr rest _
          (fun nd hnd => (hnodes nd (List.mem_cons_of_mem _ hnd)).1) h4)
        (by rw [e2, hcount]; omega) (by omega)
        (fun nd hnd => hnodes nd (List.mem_cons_of_mem _ hnd))
      refine ⟨m1, ?_, ?_, ?_⟩
      · simp only [_bsbs_list_to_ntarray.loop]
        rw [if_pos ⟨by omega, h2⟩, e1, hl]
        simp only [List.length_cons, Prod.mk.injEq, and_true]
        omega
      · intro x hx
        simp only [List.length_cons] at hx
        rw [hout x (by omega), store64_outside _ _ _ _ (by omega)]
      · intro j nd hj
        cases j with
        | zero =>
          simp only [List.getElem?_cons_zero, Option.some.injEq] at hj
          subst hj
          rw [Nat.add_zero, load64_congr fun x hx1 hx2 => hout x (Or.inl (by omega))]
          exact load64_store64_same _ _ _ hlt_a
        | succ j =>
          simp only [List.getElem?_cons_succ] at hj
          have := hent j nd hj
          rw [← this]
          congr 1
          omega

/-- The fuel of the copy loop is never what stops it: started with `i + fuel >= 2 ^ 64`, the
loop ends with its condition `i < list->count && n != NULL` false. -/
theorem ntarray_loop_exits (list array : Nat) :
    ∀ (fuel i n : Nat) (m : Mem), SIZE_MOD ≤ i + fuel →
      ¬ ((_bsbs_list_to_ntarray.loop list array fuel i n m).1 <
            load64 (_bsbs_list_to_ntarray.loop list array fuel i n m).2.2 list ∧
          (_bsbs_list_to_ntarray.loop list array fuel i n m).2.1 ≠ 0) := by
  intro fuel
  induction fuel with
  | zero =>
    intro i n m h
    have := load64_lt m list
    simp only [_bsbs_list_to_ntarray.loop]
    omega
  | succ f ih =>
    intro i n m h
    simp only [_bsbs_list_to_ntarray.loop]
    split
    · exact ih _ _ _ (by omega)
    · assumption

/-- On a well-formed list, `_bsbs_list_to_ntarray` returns whenever its allocation does: both
assertions pass, entry `j` of the array is the content address of node `j`, the entry after
the last one is `NULL`, and the memory at or above the old cursor is unchanged. -/
theorem to_ntarray_spec {s sA : State} {list array : Nat} {nodes : List (Nat × CStr)}
    (hinv : ListInv s list nodes)
    (halloc : bsbs_alloc_aligned_array PTR_SIZE PTR_SIZE (nodes.length + 1) s = .ret (array, sA)) :
    ∃ s1, _bsbs_list_to_ntarray list s = .ret (array, s1) ∧
      s1._bsbs_alloc_ptr = array ∧ s1._bsbs_alloc_base = s._bsbs_alloc_base ∧
      s1.trace = s.trace ∧
      (∀ x, s._bsbs_alloc_ptr ≤ x → s1.mem x = s.mem x) ∧
      (∀ j nd, nodes[j]? = some nd → load64 s1.mem (array + 8 * j) = nd.1 + 8) ∧
      load64 s1.mem (array + 8 * nodes.length) = 0 := by
  obtain ⟨hcount, hchain, htail, hstacked, habove, hhdr, hhdr_lt, hbase⟩ := hinv
  have hlen := stacked_length nodes list hstacked
  simp only [SIZE_MOD] at hhdr_lt
  obtain ⟨_, hA1, hA2, hA3⟩ := alloc_ret_inv halloc
  subst hA3
  simp only [PTR_SIZE] at hA2
  have hnodes : ∀ nd ∈ nodes, s._bsbs_alloc_ptr ≤ nd.1 ∧ nd.1 + 8 < 18446744073709551616 := by
    intro nd hnd
    have := stacked_mem nodes list hstacked nd hnd
    exact ⟨habove nd hnd, by omega⟩
  obtain ⟨m1, hl, hout, hent⟩ := ntarray_loop_spec list array s._bsbs_alloc_ptr hhdr nodes
    SIZE_MOD 0 (load64 s.mem (list + 8)) s.mem (by simp only [SIZE_MOD]; omega) hchain
    (by rw [hcount]; omega) (by omega) hnodes
  simp only [Nat.zero_add, Nat.mul_zero, Nat.add_zero] at hl hout hent
  have hc1 : load64 m1 list = nodes.length := by
    rw [load64_congr fun x hx _ => hout x (Or.inr (by omega))]
    exact hcount
  unfold _bsbs_list_to_ntarray
  rw [hcount, Nat.mod_eq_of_lt (by simp only [SIZE_MOD]; omega), halloc]
  simp only [Outcome.bind_ret, hl, hc1, ne_eq, not_true_eq_false, if_false]
  refine ⟨_, rfl, rfl, rfl, rfl, ?_, ?_, ?_⟩
  · intro x hx
    show store64 m1 (array + 8 * nodes.length) 0 x = s.mem x
    rw [store64_outside _ _ _ _ (by omega), hout x (Or.inr (by omega))]
  · intro j nd hj
    have hjlt : j < nodes.length := (List.getElem?_eq_some.mp hj).1
    show load64 (store64 m1 (array + 8 * nodes.length) 0) (array + 8 * j) = nd.1 + 8
    rw [load64_store64_other _ _ _ _ (by omega)]
    exact hent j nd hj
  · exact load64_store64_same _ _ _ (by norm_num)

/-- The invariant of an empty list header in reserved memory. -/
theorem listInv_empty {s : State} {list : Nat} (hcount : load64 s.mem list = 0)
    (hhead : load64 s.mem (list + 8) = 0) (hhdr : s._bsbs_alloc_ptr ≤ list)
    (hlt : list < SIZE_MOD) (hbase : 0 < s._bsbs_alloc_base) : ListInv s list [] :=
  ⟨hcount, hhead, (fun h => absurd rfl h), trivial, (fun _ h => nomatch h), hhdr, hlt, hbase⟩

/-- A returning sequence of appends extends the chain by one node per string, in order. -/
theorem append_all_inv (list : Nat) : ∀ (strs : List CStr) (s s1 : State)
    (nodes : List (Nat × CStr)), ListInv s list nodes → (∀ c ∈ strs, c.valid) →
    append_all list strs s = .ret s1 →
    ∃ added, added.map (fun nd => nd.2) = strs ∧ ListInv s1 list (nodes ++ added) ∧
      s1._bsbs_alloc_ptr ≤ s._bsbs_alloc_ptr ∧ s1._bsbs_alloc_base = s._bsbs_alloc_base ∧
      s1.trace = s.trace := by
  intro strs
  induction strs with
  | nil =>
    intro s s1 nodes hinv _ h
    simp only [append_all, Outcome.ret.injEq] at h
    subst h
    exact ⟨[], rfl, by simpa using hinv, Nat.le_refl _, rfl, rfl⟩
  | cons c cs ih =>
    intro s s1 nodes hinv hv h
    simp only [append_all] at h
    obtain ⟨sA, hA, h⟩ := Outcome.bind_eq_ret h
    obtain ⟨hinvA, hptr, hb, htr⟩ := append_step hinv (hv c (List.mem_cons_self _ _)) hA
    obtain ⟨added, hmap, hinv1, hptr1, hb1, htr1⟩ := ih sA s1 _ hinvA
      (fun c1 h1 => hv c1 (List.mem_cons_of_mem _ h1)) h
    refine ⟨(sA._bsbs_alloc_ptr, c) :: added, by simp [hmap], ?_, by omega, by rw [hb1, hb],
      by rw [htr1, htr]⟩
    simpa using hinv1

/-! ## Owned lists and runs: claims -/

/-- C10 as stated fails when the arena cannot hold the array: in an arena of 96 bytes, for the
`args` list of a new Run (an empty header, the memory being zero) to which `"a"` was
appended, the call ends in the out-of-memory error of its own allocation and returns no
array. -/
theorem C10_counterexample :
    ((bsbs_run_create arenaSmall).bind fun r =>
        (append_all r.1 [[97]] r.2).bind fun s => _bsbs_list_to_ntarray r.1 s).died =
      some (Fatal.out_of_memory, []) := by
  decide

/-- C9 fails on the code: `bsbs_init` on a fresh binary releases its recompile Run, and the
next `bsbs_run_create` returns those 72 bytes as they are: `args.count = 4` with a non-null
head, `inputs.count = 1`, `outputs.count = 1`. The first append then takes the non-empty
branch, and `_bsbs_list_to_ntarray` fails the assertion of line 156. -/
theorem C9_run_create_reuses_released_run :
    ((bsbs_init (envOf (stat_of [([97], 10), ([98], 5)])) 16 4096 [97] [98] boot).bind fun s =>
        (bsbs_run_create s).bind fun r => .ret (s._bsbs_alloc_ptr, r.1,
          load64 r.2.mem r.1, load64 r.2.mem (r.1 + 8),
          load64 r.2.mem (r.1 + 24), load64 r.2.mem (r.1 + 48))).value
      = some (8192, 8120, 4, 8104, 1, 1) ∧
    ((bsbs_init (envOf (stat_of [([97], 10), ([98], 5)])) 16 4096 [97] [98] boot).bind fun s =>
        (bsbs_run_create s).bind fun r =>
        (bsbs_run_add_arg r.1 [99, 99] r.2).bind fun s1 =>
        (_bsbs_list_to_ntarray r.1 s1).bind fun a => .ret a.1).aborted
      = some (156, []) := by
  decide!

/-! ## Staleness: the loops on well-formed lists -/

theorem mtime_spec (env : Env) (s : State) (a fuel : Nat) (p : CStr)
    (h : CStrAt s.mem a p) (hf : p.length < fuel) :
    _bsbs_mtime env fuel a s = mtime_of_stat s.trace (env.stat p) := by
  unfold _bsbs_mtime
  rw [cstr_of_CStrAt p s.mem a fuel h hf]
  simp only
  generalize env.stat p = r
  cases r <;> rfl

theorem length_lt_weight (xs : List CStr) : xs.length < weight xs := by
  induction xs with
  | nil => simp [weight]
  | cons c cs ih => simp only [List.length_cons, weight]; omega

theorem outputs_loop_refines (env : Env) (s : State) (fuel : Nat) :
    ∀ (xs : List CStr) (k node : Nat) (acc : Int), Nodes s.mem node xs → weight xs ≤ fuel →
      xs.length < k →
      _bsbs_requires_rebuild.outputs_loop env s fuel k node acc =
        outputs_scan s.trace (xs.map env.stat) acc := by
  intro xs
  induction xs with
  | nil =>
    intro k node acc hn _ hk
    have h0 : node = 0 := hn
    cases k with
    | zero => simp at hk
    | succ k => simp [_bsbs_requires_rebuild.outputs_loop, outputs_scan, h0]
  | cons c cs ih =>
    intro k node acc hn hw hk
    obtain ⟨h1, h2, h3⟩ := hn
    simp only [weight] at hw
    simp only [List.length_cons] at hk
    cases k with
    | zero => omega
    | succ k =>
      simp only [_bsbs_requires_rebuild.outputs_loop, List.map_cons, outputs_scan]
      rw [if_neg h1, mtime_spec env s _ fuel c h2 (by omega)]
      congr 1
      funext mt
      exact ih k _ _ h3 (by omega) (by omega)

theorem inputs_loop_refines (env : Env) (s : State) (fuel : Nat) :
    ∀ (xs : List CStr) (k node : Nat) (outtime : Int), Nodes s.mem node xs →
      weight xs ≤ fuel → xs.length < k →
      _bsbs_requires_rebuild.inputs_loop env s fuel k node outtime =
        inputs_scan s.trace (xs.map env.stat) outtime := by
  intro xs
  induction xs with
  | nil =>
    intro k node outtime hn _ hk
    have h0 : node = 0 := hn
    cases k with
    | zero => simp at hk
    | succ k => simp [_bsbs_requires_rebuild.inputs_loop, inputs_scan, h0]
  | cons c cs ih =>
    intro k node outtime hn hw hk
    obtain ⟨h1, h2, h3⟩ := hn
    simp only [weight] at hw
    simp only [List.length_cons] at hk
    cases k with
    | zero => omega
    | succ k =>
      simp only [_bsbs_requires_rebuild.inputs_loop, List.map_cons, inputs_scan]
      rw [if_neg h1, mtime_spec env s _ fuel c h2 (by omega)]
      congr 1
      funext mt
      rw [ih k _ _ h3 (by omega) (by omega)]

/-- On lists that are well formed in memory, with enough fuel, `_bsbs_requires_rebuild`
computes `requires_rebuild_on` of the `stat` results of the listed paths. -/
theorem requires_rebuild_refines (env : Env) (fuel inputs outputs : Nat) (s : State)
    (ins outs : List CStr) (hout : IsList s.mem outputs outs) (hin : IsList s.mem inputs ins)
    (hfuel : weight ins + weight outs ≤ fuel) :
    _bsbs_requires_rebuild env fuel inputs outputs s =
      requires_rebuild_on s.trace (ins.map env.stat) (outs.map env.stat) := by
  obtain ⟨hc, hn⟩ := hout
  have hwi := length_lt_weight ins
  have hwo := length_lt_weight outs
  cases outs with
  | nil =>
    simp only [List.length_nil, Nat.cast_zero] at hc
    simp [_bsbs_requires_rebuild, requires_rebuild_on, hc]
  | cons o rest =>
    obtain ⟨h1, h2, h3⟩ := hn
    simp only [List.length_cons] at hc hwo
    simp only [weight] at hfuel
    have hwr := length_lt_weight rest
    unfold _bsbs_requires_rebuild
    rw [if_neg (by rw [hc]; omega), if_neg (by simpa using h1),
      mtime_spec env s _ fuel o h2 (by omega)]
    simp only [List.map_cons, requires_rebuild_on]
    congr 1
    funext first
    rw [outputs_loop_refines env s fuel rest fuel _ first h3 (by omega) (by omega)]
    congr 1
    funext outtime
    rw [inputs_loop_refines env s fuel ins fuel _ outtime hin.2 (by omega) (by omega)]

/-! ## Staleness: the list-level verdict -/

theorem mtime_of_stat_eq (env : Env) (tr : List Event) (p : CStr)
    (h : env.stat p ≠ .failed) : mtime_of_stat tr (env.stat p) = .ret (mtime env p) := by
  unfold mtime
  generalize env.stat p = r at h
  cases r with
  | ok t => rfl
  | enoent => rfl
  | failed => exact absurd rfl h

theorem mtime_of_ok (env : Env) (p : CStr) (t : Int) (h : env.stat p = .ok t) :
    mtime env p = t := by
  unfold mtime; rw [h]

/-- The outputs loop returns the minimum of its start value and the listed mtimes. -/
theorem outputs_scan_min (env : Env) (tr : List Event) :
    ∀ (ps : List CStr) (acc : Int), (∀ p ∈ ps, env.stat p ≠ .failed) →
      ∃ T, outputs_scan tr (ps.map env.stat) acc = .ret T ∧ T ≤ acc ∧
        (∀ p ∈ ps, T ≤ mtime env p) ∧ (T = acc ∨ ∃ p ∈ ps, T = mtime env p) := by
  intro ps
  induction ps with
  | nil =>
    intro acc _
    exact ⟨acc, rfl, le_refl _, (fun _ h => nomatch h), Or.inl rfl⟩
  | cons p ps ih =>
    intro acc h
    have hp := h p (List.mem_cons_self _ _)
    obtain ⟨T, h1, h2, h3, h4⟩ := ih (if mtime env p < acc then mtime env p else acc)
      (fun q hq => h q (List.mem_cons_of_mem _ hq))
    refine ⟨T, ?_, ?_, ?_, ?_⟩
    · simp only [List.map_cons, outputs_scan]
      rw [mtime_of_stat_eq env tr p hp]
      exact h1
    · split at h2 <;> omega
    · intro q hq
      rcases List.mem_cons.mp hq with e | hq1
      · subst e
        split at h2 <;> omega
      · exact h3 q hq1
    · rcases h4 with e | ⟨q, hq, e⟩
      · split at e
        · exact Or.inr ⟨p, List.mem_cons_self _ _, e⟩
        · exact Or.inl e
      · exact Or.inr ⟨q, List.mem_cons_of_mem _ hq, e⟩

/-- With no failing `stat`, the check on a non-empty outputs list compares the inputs with
the minimum `T` of the outputs' mtimes, after the test `T == 0`. -/
theorem rebuild_on_min (env : Env) (tr : List Event) (insR : List StatResult)
    (outs : List CStr) (hne : outs ≠ []) (h : ∀ p ∈ outs, env.stat p ≠ .failed) :
    ∃ T, (∃ p ∈ outs, mtime env p = T) ∧ (∀ p ∈ outs, T ≤ mtime env p) ∧
      requires_rebuild_on tr insR (outs.map env.stat) =
        if T = 0 then .ret true else inputs_scan tr insR T := by
  cases outs with
  | nil => exact absurd rfl hne
  | cons o rest =>
    have ho := h o (List.mem_cons_self _ _)
    obtain ⟨T, h1, h2, h3, h4⟩ := outputs_scan_min env tr rest (mtime env o)
      (fun q hq => h q (List.mem_cons_of_mem _ hq))
    refine ⟨T, ?_, ?_, ?_⟩
    · rcases h4 with e | ⟨q, hq, e⟩
      · exact ⟨o, List.mem_cons_self _ _, e.symm⟩
      · exact ⟨q, List.mem_cons_of_mem _ hq, e.symm⟩
    · intro q hq
      rcases List.mem_cons.mp hq with e | hq1
      · subst e; exact h2
      · exact h3 q hq1
    · simp only [List.map_cons, requires_rebuild_on]
      rw [mtime_of_stat_eq env tr o ho]
      simp only [Outcome.bind_ret]
      rw [h1]
      rfl

theorem inputs_scan_exist (env : Env) (tr : List Event) (T : Int) :
    ∀ (ps : List CStr), (∀ p ∈ ps, ∃ t, env.stat p = .ok t ∧ t ≠ 0) →
      inputs_scan tr (ps.map env.stat) T = .ret (decide (∃ p ∈ ps, T < mtime env p)) := by
  intro ps
  induction ps with
  | nil => intro _; simp [inputs_scan]
  | cons p ps ih =>
    intro h
    obtain ⟨t, ht, ht0⟩ := h p (List.mem_cons_self _ _)
    have hm := mtime_of_ok env p t ht
    simp only [List.map_cons, inputs_scan, ht, mtime_of_stat, Outcome.bind_ret]
    by_cases hgt : t > T
    · rw [if_pos hgt]
      have : ∃ q ∈ p :: ps, T < mtime env q := ⟨p, List.mem_cons_self _ _, by rw [hm]; exact hgt⟩
      rw [decide_eq_true this]
    · rw [if_neg hgt, if_neg ht0, ih (fun q hq => h q (List.mem_cons_of_mem _ hq))]
      congr 1
      simp only [List.mem_cons, exists_eq_or_imp, hm, decide_eq_decide]
      constructor
      · intro h1; exact Or.inr h1
      · rintro (h1 | h1)
        · exact absurd h1 hgt
        · exact h1

theorem inputs_scan_missing (env : Env) (tr : List Event) (T : Int) (hT : 0 < T)
    (missing : CStr) (post : List CStr)
    (hmiss : env.stat missing = .enoent ∨ env.stat missing = .ok 0) :
    ∀ (pre : List CStr), (∀ p ∈ pre, ∃ t, env.stat p = .ok t ∧ t ≠ 0) →
      inputs_scan tr ((pre ++ missing :: post).map env.stat) T =
        if ∃ p ∈ pre, T < mtime env p then .ret true else .die .input_missing tr := by
  intro pre
  induction pre with
  | nil =>
    intro _
    simp only [List.nil_append, List.map_cons, inputs_scan, List.not_mem_nil, false_and,
      exists_false, if_false]
    rcases hmiss with e | e <;> rw [e] <;>
      simp only [mtime_of_stat, Outcome.bind_ret] <;>
      rw [if_neg (by omega)] <;> simp
  | cons p ps ih =>
    intro h
    obtain ⟨t, ht, ht0⟩ := h p (List.mem_cons_self _ _)
    have hm := mtime_of_ok env p t ht
    have ih1 := ih (fun q hq => h q (List.mem_cons_of_mem _ hq))
    simp only [List.cons_append, List.map_cons, inputs_scan, ht, mtime_of_stat,
      Outcome.bind_ret]
    by_cases hgt : t > T
    · rw [if_pos hgt]
      have : ∃ q ∈ p :: ps, T < mtime env q := ⟨p, List.mem_cons_self _ _, by rw [hm]; exact hgt⟩
      rw [if_pos this]
    · rw [if_neg hgt, if_neg ht0]
      refine ih1.trans ?_
      have : (∃ q ∈ p :: ps, T < mtime env q) ↔ ∃ q ∈ ps, T < mtime env q := by
        simp only [List.mem_cons, exists_eq_or_imp, hm]
        constructor
        · rintro (h1 | h1)
          · exact absurd h1 hgt
          · exact h1
        · intro h1; exact Or.inr h1
      simp only [this]

/-! ## Staleness and execution: traces -/

theorem unchecked_calls_append (tr1 tr2 : List Event) :
    unchecked_calls (tr1 ++ tr2) = unchecked_calls tr1 + unchecked_calls tr2 := by
  induction tr1 with
  | nil => simp [unchecked_calls]
  | cons e tr ih =>
    have ih1 : unchecked_calls (List.append tr tr2) =
        unchecked_calls tr + unchecked_calls tr2 := ih
    cases e with
    | run_execute_unchecked r =>
      simp only [List.cons_append, unchecked_calls, ih1]
      omega
    | fork a => simp only [List.cons_append, unchecked_calls, ih1]
    | execl => simp only [List.cons_append, unchecked_calls, ih1]

/-- An allocation neither records an event nor runs out of fuel. -/
theorem alloc_events (size align count : Nat) (s : State) :
    ((bsbs_alloc_aligned_array size align count s).bind fun r => .ret r.2).events
      = some s.trace := by
  unfold bsbs_alloc_aligned_array
  simp only
  split
  · rfl
  split
  · rfl
  split
  · rfl
  split
  · rfl
  split <;> rfl

/-- Building the argument vector neither records an event nor runs out of fuel. -/
theorem to_ntarray_events (list : Nat) (s : State) :
    ((_bsbs_list_to_ntarray list s).bind fun r => .ret r.2).events = some s.trace := by
  unfold _bsbs_list_to_ntarray
  have h := alloc_events PTR_SIZE PTR_SIZE ((load64 s.mem list + 1) % SIZE_MOD) s
  cases hA : bsbs_alloc_aligned_array PTR_SIZE PTR_SIZE ((load64 s.mem list + 1) % SIZE_MOD) s with
  | ret r =>
    rw [hA] at h
    simp only [Outcome.bind_ret, Outcome.events, Option.some.injEq] at h
    simp only [Outcome.bind_ret]
    split
    · simp only [Outcome.bind, Outcome.events, h]
    split
    · simp only [Outcome.bind, Outcome.events, h]
    · simp only [Outcome.bind, Outcome.events, h]
  | die msg tr => rw [hA] at h; exact h
  | abort line tr => rw [hA] at h; exact h
  | replaced tr => rw [hA] at h; exact h
  | timeout => rw [hA] at h; exact h

/-- Every way `_bsbs_run_execute_unchecked` can end has recorded exactly one more call. -/
theorem unchecked_events (env : Env) (run : Nat) (s : State) :
    (_bsbs_run_execute_unchecked env run s).events.map unchecked_calls =
      some (unchecked_calls s.trace + 1) := by
  unfold _bsbs_run_execute_unchecked
  have h := to_ntarray_events run { s with trace := s.trace ++ [Event.run_execute_unchecked run] }
  have hc : unchecked_calls (s.trace ++ [Event.run_execute_unchecked run]) =
      unchecked_calls s.trace + 1 := by
    rw [unchecked_calls_append]; rfl
  cases hA : _bsbs_list_to_ntarray run
      { s with trace := s.trace ++ [Event.run_execute_unchecked run] } with
  | ret r =>
    rw [hA] at h
    simp only [Outcome.bind_ret, Outcome.events, Option.some.injEq] at h
    have hc2 : unchecked_calls (r.2.trace ++ [Event.fork r.1]) = unchecked_calls s.trace + 1 := by
      rw [unchecked_calls_append, h, hc]; rfl
    simp only [Outcome.bind_ret]
    split
    · split <;> simp only [Outcome.events, Option.map_some', hc2]
    split
    · simp only [Outcome.events, Option.map_some', hc2]
    split
    · simp only [Outcome.events, Option.map_some', hc2]
    · split <;> simp only [Outcome.events, Option.map_some', hc2]
  | die msg tr =>
    rw [hA] at h
    simp only [Outcome.bind, Outcome.events, Option.some.injEq] at h
    simp only [Outcome.bind, Outcome.events, Option.map_some', h, hc]
  | abort line tr =>
    rw [hA] at h
    simp only [Outcome.bind, Outcome.events, Option.some.injEq] at h
    simp only [Outcome.bind, Outcome.events, Option.map_some', h, hc]
  | replaced tr =>
    rw [hA] at h
    simp only [Outcome.bind, Outcome.events, Option.some.injEq] at h
    simp only [Outcome.bind, Outcome.events, Option.map_some', h, hc]
  | timeout =>
    rw [hA] at h
    simp [Outcome.bind, Outcome.events] at h

theorem quiet_bind {α β : Type} (tr : List Event) (x : Outcome α) (f : α → Outcome β)
    (hx : x.quiet tr) (hf : ∀ a, (f a).quiet tr) : (x.bind f).quiet tr := by
  cases x with
  | ret a => exact hf a
  | die _ _ => exact hx
  | abort _ _ => exact hx
  | replaced _ => exact hx
  | timeout => trivial

theorem mtime_quiet (env : Env) (fuel a : Nat) (s : State) :
    (_bsbs_mtime env fuel a s).quiet s.trace := by
  unfold _bsbs_mtime
  split
  · trivial
  · split
    · trivial
    · trivial
    · rfl

theorem outputs_loop_quiet (env : Env) (s : State) (fuel : Nat) :
    ∀ (k node : Nat) (acc : Int),
      (_bsbs_requires_rebuild.outputs_loop env s fuel k node acc).quiet s.trace := by
  intro k
  induction k with
  | zero => intro _ _; trivial
  | succ k ih =>
    intro node acc
    simp only [_bsbs_requires_rebuild.outputs_loop]
    split
    · trivial
    · exact quiet_bind _ _ _ (mtime_quiet env fuel _ s) (fun _ => ih _ _)

theorem inputs_loop_quiet (env : Env) (s : State) (fuel : Nat) :
    ∀ (k node : Nat) (outtime : Int),
      (_bsbs_requires_rebuild.inputs_loop env s fuel k node outtime).quiet s.trace := by
  intro k
  induction k with
  | zero => intro _ _; trivial
  | succ k ih =>
    intro node outtime
    simp only [_bsbs_requires_rebuild.inputs_loop]
    split
    · trivial
    · refine quiet_bind _ _ _ (mtime_quiet env fuel _ s) (fun mt => ?_)
      split
      · trivial
      · split
        · rfl
        · exact ih _ _

/-- The staleness check records no event. -/
theorem requires_rebuild_quiet (env : Env) (fuel inputs outputs : Nat) (s : State) :
    (_bsbs_requires_rebuild env fuel inputs outputs s).quiet s.trace := by
  unfold _bsbs_requires_rebuild
  split
  · trivial
  · split
    · rfl
    · refine quiet_bind _ _ _ (mtime_quiet env fuel _ s) (fun first => ?_)
      refine quiet_bind _ _ _ (outputs_loop_quiet env s fuel _ _ _) (fun outtime => ?_)
      split
      · trivial
      · exact inputs_loop_quiet env s fuel _ _ _

/-- The check on a Run with one existing output and one existing input. -/
theorem rebuild_single (env : Env) (fuel inputs outputs : Nat) (s : State) (o i : CStr)
    (To Ti : Int) (hout : IsList s.mem outputs [o]) (hin : IsList s.mem inputs [i])
    (ho : env.stat o = .ok To) (hi : env.stat i = .ok Ti) (hTo : To ≠ 0) (hTi : Ti ≠ 0)
    (hfuel : weight [i] + weight [o] ≤ fuel) :
    _bsbs_requires_rebuild env fuel inputs outputs s = .ret (decide (To < Ti)) := by
  rw [requires_rebuild_refines env fuel inputs outputs s [i] [o] hout hin hfuel]
  simp only [List.map_cons, List.map_nil, requires_rebuild_on, ho, hi, mtime_of_stat,
    Outcome.bind_ret, outputs_scan, inputs_scan]
  rw [if_neg hTo]
  by_cases h : To < Ti
  · rw [if_pos h, decide_eq_true h]
  · rw [if_neg h, if_neg hTi, decide_eq_false h]

/-! ## Staleness and execution: claims -/

/-- C1: for a non-empty outputs list and an inputs list whose files all exist with non-zero
modification times, `_bsbs_requires_rebuild` returns, and it returns true exactly when some
input is strictly newer than the minimum `T` of the outputs' times; inputs that are all at
most `T`, equal ones included, give false. -/
theorem C1_stale_iff_input_newer (env : Env) (fuel inputs outputs : Nat) (s : State)
    (ins outs : List CStr) (T : Int)
    (hout : IsList s.mem outputs outs) (hin : IsList s.mem inputs ins)
    (houts : ∀ p ∈ outs, ∃ t, env.stat p = .ok t ∧ t ≠ 0)
    (hins : ∀ p ∈ ins, ∃ t, env.stat p = .ok t ∧ t ≠ 0)
    (hT : ∃ p ∈ outs, mtime env p = T) (hmin : ∀ p ∈ outs, T ≤ mtime env p)
    (hfuel : weight ins + weight outs ≤ fuel) :
    (∃ b, _bsbs_requires_rebuild env fuel inputs outputs s = .ret b ∧
        (b = true ↔ ∃ p ∈ ins, T < mtime env p)) ∧
      ((∀ p ∈ ins, mtime env p ≤ T) →
        _bsbs_requires_rebuild env fuel inputs outputs s = .ret false) := by
  have hne : outs ≠ [] := by
    obtain ⟨p, hp, _⟩ := hT
    exact List.ne_nil_of_mem hp
  have hnf : ∀ p ∈ outs, env.stat p ≠ .failed := by
    intro p hp
    obtain ⟨t, ht, _⟩ := houts p hp
    rw [ht]; exact fun h => nomatch h
  obtain ⟨T1, ⟨q, hq, hqT⟩, hmin1, heq⟩ :=
    rebuild_on_min env s.trace (ins.map env.stat) outs hne hnf
  obtain ⟨p, hp, hpT⟩ := hT
  have hTT : T1 = T := by
    have h1 := hmin q hq
    have h2 := hmin1 p hp
    omega
  subst hTT
  have hT0 : T1 ≠ 0 := by
    obtain ⟨t, ht, ht0⟩ := houts q hq
    rw [← hqT, mtime_of_ok env q t ht]
    exact ht0
  have hmain : _bsbs_requires_rebuild env fuel inputs outputs s =
      .ret (decide (∃ p ∈ ins, T1 < mtime env p)) := by
    rw [requires_rebuild_refines env fuel inputs outputs s ins outs hout hin hfuel, heq,
      if_neg hT0, inputs_scan_exist env s.trace T1 ins hins]
  refine ⟨⟨_, hmain, decide_eq_true_iff⟩, ?_⟩
  intro hle
  rw [hmain]
  congr 1
  rw [decide_eq_false_iff_not]
  rintro ⟨p1, hp1, hlt⟩
  have := hle p1 hp1
  omega

theorem C1_stale_iff_input_newer_witness :
    (∃ b, _bsbs_requires_rebuild (envOf (stat_of [([111], 5), ([105], 5)])) 16 (8120 + 24)
          (8120 + 48) (run_with [[111]] [[105]]).2 = .ret b ∧
        (b = true ↔ ∃ p ∈ [[105]], 5 < mtime (envOf (stat_of [([111], 5), ([105], 5)])) p)) ∧
      _bsbs_requires_rebuild (envOf (stat_of [([111], 5), ([105], 5)])) 16 (8120 + 24) (8120 + 48)
        (run_with [[111]] [[105]]).2 = .ret false :=
  have h := C1_stale_iff_input_newer (envOf (stat_of [([111], 5), ([105], 5)])) 16 (8120 + 24)
    (8120 + 48) (run_with [[111]] [[105]]).2 [[105]] [[111]] 5
    (by simp only [IsList, Nodes, CStrAt]; decide)
    (by simp only [IsList, Nodes, CStrAt]; decide)
    (by intro p hp; rw [List.mem_singleton.mp hp]; exact ⟨5, rfl, by decide⟩)
    (by intro p hp; rw [List.mem_singleton.mp hp]; exact ⟨5, rfl, by decide⟩)
    ⟨[111], List.mem_singleton.mpr rfl, rfl⟩
    (by intro p hp; rw [List.mem_singleton.mp hp]; exact le_of_eq rfl)
    (by decide)
  ⟨h.1, h.2 (by intro p hp; rw [List.mem_singleton.mp hp]; exact le_of_eq rfl)⟩

/-- C2 as stated fails: with output `o` (mtime 5) and inputs `a` (mtime 10), `b` (missing),
the loop returns true at `a` and never examines `b`; and with output `o` of mtime -5 the
missing input `b` itself counts as newer. Both calls return true instead of dying. -/
theorem C2_counterexample :
    (_bsbs_requires_rebuild (envOf (stat_of [([111], 5), ([97], 10)])) 16 (8120 + 24) (8120 + 48)
        (run_with [[111]] [[97], [98]]).2).value = some true ∧
    (_bsbs_requires_rebuild (envOf (stat_of [([111], -5)])) 16 (8120 + 24) (8120 + 48)
        (run_with [[111]] [[98]]).2).value = some true := by
  decide

/-- C2 (amended): when all declared outputs exist with positive modification times, of minimum
`T`, and the first missing input is preceded only by existing inputs, the call ends in the
fatal 'input file is missing' error if none of those earlier inputs is newer than `T`, and
returns true if one of them is; the inputs after the missing one are not examined. -/
theorem C2_missing_input_fatal (env : Env) (fuel inputs outputs : Nat) (s : State)
    (pre post outs : List CStr) (missing : CStr) (T : Int)
    (hout : IsList s.mem outputs outs)
    (hin : IsList s.mem inputs (pre ++ missing :: post))
    (houts : ∀ p ∈ outs, ∃ t, env.stat p = .ok t ∧ 0 < t)
    (hpre : ∀ p ∈ pre, ∃ t, env.stat p = .ok t ∧ t ≠ 0)
    (hmiss : env.stat missing = .enoent ∨ env.stat missing = .ok 0)
    (hT : ∃ p ∈ outs, mtime env p = T) (hmin : ∀ p ∈ outs, T ≤ mtime env p)
    (hfuel : weight (pre ++ missing :: post) + weight outs ≤ fuel) :
    _bsbs_requires_rebuild env fuel inputs outputs s =
      if ∃ p ∈ pre, T < mtime env p then .ret true else .die .input_missing s.trace := by
  have hne : outs ≠ [] := by
    obtain ⟨p, hp, _⟩ := hT
    exact List.ne_nil_of_mem hp
  have hnf : ∀ p ∈ outs, env.stat p ≠ .failed := by
    intro p hp
    obtain ⟨t, ht, _⟩ := houts p hp
    rw [ht]; exact fun h => nomatch h
  obtain ⟨T1, ⟨q, hq, hqT⟩, hmin1, heq⟩ :=
    rebuild_on_min env s.trace ((pre ++ missing :: post).map env.stat) outs hne hnf
  obtain ⟨p, hp, hpT⟩ := hT
  have hTT : T1 = T := by
    have h1 := hmin q hq
    have h2 := hmin1 p hp
    omega
  subst hTT
  have hT0 : 0 < T1 := by
    obtain ⟨t, ht, ht0⟩ := houts q hq
    rw [← hqT, mtime_of_ok env q t ht]
    exact ht0
  rw [requires_rebuild_refines env fuel inputs outputs s _ outs hout hin hfuel, heq,
    if_neg (by omega), inputs_scan_missing env s.trace T1 hT0 missing post hmiss pre hpre]

theorem C2_missing_input_fatal_witness :
    _bsbs_requires_rebuild (envOf (stat_of [([111], 5), ([97], 3)])) 16 (8120 + 24) (8120 + 48)
        (run_with [[111]] [[97], [98]]).2 =
      if ∃ p ∈ ([[97]] : List CStr), 5 < mtime (envOf (stat_of [([111], 5), ([97], 3)])) p then .ret true
      else .die .input_missing (run_with [[111]] [[97], [98]]).2.trace :=
  C2_missing_input_fatal (envOf (stat_of [([111], 5), ([97], 3)])) 16 (8120 + 24)
    (8120 + 48) (run_with [[111]] [[97], [98]]).2 [[97]] [] [[111]] [98] 5
    (by simp only [IsList, Nodes, CStrAt]; decide)
    (by simp only [IsList, Nodes, CStrAt, List.cons_append, List.nil_append]; decide)
    (by intro p hp; rw [List.mem_singleton.mp hp]; exact ⟨5, rfl, by decide⟩)
    (by intro p hp; rw [List.mem_singleton.mp hp]; exact ⟨3, rfl, by decide⟩)
    (Or.inl rfl)
    ⟨[111], List.mem_singleton.mpr rfl, rfl⟩
    (by intro p hp; rw [List.mem_singleton.mp hp]; exact le_of_eq rfl)
    (by decide)

/-- C3 fails on the code: with outputs `a` (missing) and `b` (mtime -1) and no inputs, the
minimum is -1, the test `outtime == 0` does not fire, and the call returns false. -/
theorem C3_missing_output_undetected :
    IsList (run_with [[97], [98]] []).2.mem (8120 + 48) [[97], [98]] ∧
    IsList (run_with [[97], [98]] []).2.mem (8120 + 24) [] ∧
    (_bsbs_requires_rebuild (envOf (stat_of [([98], -1)])) 16 (8120 + 24) (8120 + 48)
        (run_with [[97], [98]] []).2).value = some false := by
  refine ⟨?_, ?_, ?_⟩
  · simp only [IsList, Nodes, CStrAt]; decide
  · simp only [IsList, Nodes, CStrAt]; decide
  · decide

/-- C4: the number of calls of `_bsbs_run_execute_unchecked` that `bsbs_run_execute` makes is
one when `_bsbs_requires_rebuild` returns true and zero otherwise; when it returns false the
call returns with the state unchanged. For a Run with one existing output of time `To` and one
existing input of time `Ti`: if `Ti < To` nothing is spawned and the call returns normally, if
`To < Ti` the command is run by exactly one call. -/
theorem C4_execute_iff_stale (env : Env) (fuel run : Nat) (s : State) :
    ((bsbs_run_execute env fuel run s).events.map unchecked_calls =
        match _bsbs_requires_rebuild env fuel (run + 24) (run + 48) s with
        | .ret true => some (unchecked_calls s.trace + 1)
        | .timeout => none
        | _ => some (unchecked_calls s.trace)) ∧
      (_bsbs_requires_rebuild env fuel (run + 24) (run + 48) s = .ret false →
        bsbs_run_execute env fuel run s = .ret s) ∧
      ∀ (o i : CStr) (To Ti : Int), IsList s.mem (run + 48) [o] → IsList s.mem (run + 24) [i] →
        env.stat o = .ok To → env.stat i = .ok Ti → To ≠ 0 → Ti ≠ 0 →
        weight [i] + weight [o] ≤ fuel →
        (Ti < To → bsbs_run_execute env fuel run s = .ret s) ∧
        (To < Ti → bsbs_run_execute env fuel run s = _bsbs_run_execute_unchecked env run s ∧
          (bsbs_run_execute env fuel run s).events.map unchecked_calls =
            some (unchecked_calls s.trace + 1)) := by
  refine ⟨?_, ?_, ?_⟩
  · unfold bsbs_run_execute
    cases hR : _bsbs_requires_rebuild env fuel (run + 24) (run + 48) s with
    | ret b =>
      cases b with
      | true => simpa using unchecked_events env run s
      | false => simp [Outcome.events]
    | die msg tr =>
      have hq := requires_rebuild_quiet env fuel (run + 24) (run + 48) s
      rw [hR] at hq
      have : tr = s.trace := hq
      simp [Outcome.bind, Outcome.events, this]
    | abort line tr =>
      have hq := requires_rebuild_quiet env fuel (run + 24) (run + 48) s
      rw [hR] at hq
      have : tr = s.trace := hq
      simp [Outcome.bind, Outcome.events, this]
    | replaced tr =>
      have hq := requires_rebuild_quiet env fuel (run + 24) (run + 48) s
      rw [hR] at hq
      exact absurd hq id
    | timeout => simp [Outcome.bind, Outcome.events]
  · intro h
    unfold bsbs_run_execute
    rw [h]
    rfl
  · intro o i To Ti hout hin ho hi hTo hTi hfuel
    have h1 := rebuild_single env fuel (run + 24) (run + 48) s o i To Ti hout hin ho hi hTo hTi
      hfuel
    unfold bsbs_run_execute
    rw [h1]
    constructor
    · intro hlt
      rw [decide_eq_false (by omega)]
      rfl
    · intro hlt
      rw [decide_eq_true hlt]
      exact ⟨rfl, unchecked_events env run s⟩

theorem C4_execute_iff_stale_witness :
    bsbs_run_execute (envOf (stat_of [([111], 10), ([105], 5)])) 16 8120
        (run_with [[111]] [[105]]).2 = .ret (run_with [[111]] [[105]]).2 ∧
      (bsbs_run_execute (envOf (stat_of [([111], 5), ([105], 10)])) 16 8120
          (run_with [[111]] [[105]]).2).events.map unchecked_calls =
        some (unchecked_calls (run_with [[111]] [[105]]).2.trace + 1) :=
  ⟨((C4_execute_iff_stale (envOf (stat_of [([111], 10), ([105], 5)])) 16 8120
      (run_with [[111]] [[105]]).2).2.2 [111] [105] 10 5
      (by simp only [IsList, Nodes, CStrAt]; decide)
      (by simp only [IsList, Nodes, CStrAt]; decide)
      rfl rfl (by decide) (by decide) (by decide)).1 (by decide),
   (((C4_execute_iff_stale (envOf (stat_of [([111], 5), ([105], 10)])) 16 8120
      (run_with [[111]] [[105]]).2).2.2 [111] [105] 5 10
      (by simp only [IsList, Nodes, CStrAt]; decide)
      (by simp only [IsList, Nodes, CStrAt]; decide)
      rfl rfl (by decide) (by decide) (by decide)).2 (by decide)).2⟩

/-- C5: when the outputs list of a Run is empty (`count == 0`), `_bsbs_requires_rebuild`
returns false for every inputs list, whatever the inputs' files are, and `bsbs_run_execute`
returns with the state, trace included, unchanged: no process is spawned. -/
theorem C5_no_outputs_never_stale (env : Env) (fuel run : Nat) (s : State)
    (hempty : load64 s.mem (run + 48) = 0) :
    (∀ inputs, _bsbs_requires_rebuild env fuel inputs (run + 48) s = .ret false) ∧
      bsbs_run_execute env fuel run s = .ret s := by
  have h : ∀ inputs, _bsbs_requires_rebuild env fuel inputs (run + 48) s = .ret false := by
    intro inputs
    unfold _bsbs_requires_rebuild
    rw [if_pos hempty]
  refine ⟨h, ?_⟩
  unfold bsbs_run_execute
  rw [h]
  rfl

theorem C5_no_outputs_never_stale_witness :
    _bsbs_requires_rebuild (envOf (stat_of [])) 0 (8120 + 24) (8120 + 48)
        (run_with [] [[98]]).2 = .ret false ∧
      bsbs_run_execute (envOf (stat_of [])) 0 8120 (run_with [] [[98]]).2 =
        .ret (run_with [] [[98]]).2 :=
  have h := C5_no_outputs_never_stale (envOf (stat_of [])) 0 8120 (run_with [] [[98]]).2
    (by decide)
  ⟨h.1 (8120 + 24), h.2⟩

/-! ## Bootstrap and arena: further claims -/

theorem Outcome.bind_assoc {α β γ : Type} (x : Outcome α) (f : α → Outcome β)
    (g : β → Outcome γ) : (x.bind f).bind g = x.bind fun a => (f a).bind g := by
  cases x <;> rfl

theorem Outcome.bind_congr {α β : Type} (x : Outcome α) (f g : α → Outcome β)
    (h : ∀ a, x = .ret a → f a = g a) : x.bind f = x.bind g := by
  cases x with
  | ret a => exact h a rfl
  | die _ _ => rfl
  | abort _ _ => rfl
  | replaced _ => rfl
  | timeout => rfl

/-- `bsbs_init` is its arena setup, the creation and description of the recompile Run, the
staleness check and what follows it. -/
theorem bsbs_init_eq (env : Env) (fuel total_memory : Nat) (arg0 file : CStr) (s : State) :
    bsbs_init env fuel total_memory arg0 file s =
      (bsbs_init.setup env total_memory s).bind fun s0 =>
      (bsbs_run_create s0).bind fun r =>
      (bsbs_init.describe r.1 arg0 file r.2).bind fun s4 =>
      (_bsbs_requires_rebuild env fuel (r.1 + 24) (r.1 + 48) s4).bind fun stale =>
        if stale = true then
          (_bsbs_run_execute_unchecked env r.1 s4).bind fun s5 =>
            if env.execl arg0 then .replaced (s5.trace ++ [Event.execl])
            else .die .rerun_failed (s5.trace ++ [Event.execl])
        else bsbs_alloc_load (env.malloc total_memory + total_memory) s4 := by
  unfold bsbs_init bsbs_init.setup
  by_cases h : env.malloc total_memory = 0
  · simp only [h, if_true]
    rfl
  · simp only [h, if_false, Outcome.bind_ret]
    refine Outcome.bind_congr _ _ _ (fun r hr => ?_)
    obtain ⟨p, s1⟩ := r
    obtain ⟨_, _, _, e⟩ := alloc_ret_inv hr
    subst e
    simp only [bsbs_init.describe, Outcome.bind_assoc]
    rfl

/-- C16: for `align` a power of two and `size` a non-zero multiple of it, whatever the count
and the cursor, a pointer returned by `bsbs_alloc_aligned_array` is a multiple of `align`. -/
theorem C16_returned_pointer_aligned (size k count : Nat) (s : State) (p : Nat) (s1 : State)
    (hk : k < 64) (hs : size ≠ 0) (hdvd : 2 ^ k ∣ size)
    (hp : s._bsbs_alloc_ptr < SIZE_MOD)
    (hret : bsbs_alloc_aligned_array size (2 ^ k) count s = .ret (p, s1)) :
    2 ^ k ∣ p := by
  rw [alloc_eq size k count s hk hs hdvd hp] at hret
  split at hret
  · cases hret
  split at hret
  · cases hret
  split at hret
  · cases hret
  simp only [Outcome.ret.injEq, Prod.mk.injEq] at hret
  rw [← hret.1]
  exact Nat.dvd_sub' (Dvd.intro_left _ rfl) (Dvd.dvd.mul_right hdvd count)

theorem C16_returned_pointer_aligned_witness : 2 ^ 3 ∣ 8101 / 2 ^ 3 * 2 ^ 3 - 24 * 2 :=
  C16_returned_pointer_aligned 24 3 2 { arena0 with _bsbs_alloc_ptr := 8101 }
    (8101 / 2 ^ 3 * 2 ^ 3 - 24 * 2)
    { arena0 with _bsbs_alloc_ptr := 8101 / 2 ^ 3 * 2 ^ 3 - 24 * 2 }
    (by decide) (by decide) (by decide) (by decide) (by rfl)


/-- A returning append leaves the base, `bsbs_cc` and the trace alone and moves the cursor
down below the bytes it reserved. -/
theorem append_ret_fields {list : Nat} {content : CStr} {s s1 : State}
    (h : _bsbs_list_append list content s = .ret s1) :
    s1._bsbs_alloc_base = s._bsbs_alloc_base ∧ s1.trace = s.trace ∧
      s1.bsbs_cc = s.bsbs_cc ∧ s1._bsbs_alloc_ptr + 8 ≤ s._bsbs_alloc_ptr ∧
      s._bsbs_alloc_base ≤ s1._bsbs_alloc_ptr := by
  unfold _bsbs_list_append at h
  simp only at h
  obtain ⟨⟨p1, sA⟩, hA, h⟩ := Outcome.bind_eq_ret h
  obtain ⟨⟨node, sB⟩, hB, h⟩ := Outcome.bind_eq_ret h
  obtain ⟨_, hA1, hA2, hA3⟩ := alloc_ret_inv hA
  obtain ⟨_, hB1, hB2, hB3⟩ := alloc_ret_inv hB
  subst hA3
  subst hB3
  simp only [NODE_SIZE, Nat.mul_one] at hB1 hB2 h
  split at h <;>
  · simp only [Outcome.ret.injEq] at h
    subst h
    exact ⟨rfl, rfl, rfl, by show node + 8 ≤ s._bsbs_alloc_ptr; omega, hB1⟩

theorem alloc_abort_line {size align count : Nat} {s : State} {line : Nat}
    {tr : List Event} (h : bsbs_alloc_aligned_array size align count s = .abort line tr) :
    line = 263 ∨ line = 264 := by
  unfold bsbs_alloc_aligned_array at h
  simp only at h
  split at h
  · simp only [Outcome.abort.injEq] at h
    exact Or.inl h.1.symm
  split at h
  · simp only [Outcome.abort.injEq] at h
    exact Or.inr h.1.symm
  split at h
  · cases h
  split at h
  · cases h
  split at h <;> cases h

/-- The checkpoints pending in `cps` (newest first) are at or above the cursor, at most `top`,
and each is at most the ones taken before it. -/
theorem arena_ops_inv (top : Nat) : ∀ (ops : List ArenaOp) (s : State) (cps : List Nat),
    ArenaInv top s → (∀ c ∈ cps, s._bsbs_alloc_ptr ≤ c ∧ c ≤ top) →
    cps.Pairwise (fun newer older => newer ≤ older) →
    (∀ line tr, arena_ops ops s cps = .abort line tr → line = 263 ∨ line = 264) ∧
      ∀ s1 cps1, arena_ops ops s cps = .ret (s1, cps1) →
        ArenaInv top s1 ∧ s1._bsbs_alloc_base = s._bsbs_alloc_base := by
  intro ops
  induction ops with
  | nil =>
    intro s cps hinv _ _
    refine ⟨(fun _ _ h => nomatch h), ?_⟩
    intro s1 cps1 h
    simp only [arena_ops, Outcome.ret.injEq, Prod.mk.injEq] at h
    rw [← h.1]
    exact ⟨hinv, rfl⟩
  | cons op ops ih =>
    intro s cps hinv hcps hsorted
    cases op with
    | alloc size align count =>
      simp only [arena_ops]
      cases hA : bsbs_alloc_aligned_array size align count s with
      | ret r =>
        obtain ⟨p, sA⟩ := r
        obtain ⟨_, h1, h2, h3⟩ := alloc_ret_inv hA
        have hb : sA._bsbs_alloc_base = s._bsbs_alloc_base := by rw [h3]
        have hp : sA._bsbs_alloc_ptr = p := by rw [h3]
        have hinvA : ArenaInv top sA := by
          unfold ArenaInv at hinv ⊢
          rw [hb, hp]
          omega
        have := ih sA cps hinvA
          (fun c hc => ⟨by have := (hcps c hc).1; rw [hp]; omega, (hcps c hc).2⟩) hsorted
        simp only [Outcome.bind_ret]
        refine ⟨this.1, ?_⟩
        intro s1 cps1 h
        have := this.2 s1 cps1 h
        exact ⟨this.1, by rw [this.2, hb]⟩
      | die msg tr => exact ⟨(fun _ _ h => nomatch h), (fun _ _ h => nomatch h)⟩
      | abort line tr =>
        refine ⟨?_, fun _ _ h => nomatch h⟩
        intro line1 tr1 h
        simp only [Outcome.bind, Outcome.abort.injEq] at h
        rw [← h.1]
        exact alloc_abort_line hA
      | replaced tr => exact ⟨(fun _ _ h => nomatch h), (fun _ _ h => nomatch h)⟩
      | timeout => exact ⟨(fun _ _ h => nomatch h), (fun _ _ h => nomatch h)⟩
    | save =>
      simp only [arena_ops]
      refine ih s (bsbs_alloc_save s :: cps) hinv ?_ ?_
      · intro c hc
        rcases List.mem_cons.mp hc with e | hc1
        · subst e
          exact ⟨Nat.le_refl _, hinv.2⟩
        · exact hcps c hc1
      · exact List.pairwise_cons.mpr ⟨fun c hc => (hcps c hc).1, hsorted⟩
    | load =>
      cases cps with
      | nil =>
        simp only [arena_ops]
        exact ih s [] hinv (fun _ h => nomatch h) List.Pairwise.nil
      | cons c rest =>
        simp only [arena_ops]
        have hc := hcps c (List.mem_cons_self _ _)
        have hload : bsbs_alloc_load c s = .ret { s with _bsbs_alloc_ptr := c } := by
          unfold bsbs_alloc_load
          rw [if_neg (by have := hinv.1; omega), if_neg (by omega)]
        rw [hload]
        simp only [Outcome.bind_ret]
        have hs := List.pairwise_cons.mp hsorted
        exact ih _ rest ⟨by show s._bsbs_alloc_base ≤ c; have := hinv.1; omega, hc.2⟩
          (fun c1 hc1 => ⟨hs.1 c1 hc1, (hcps c1 (List.mem_cons_of_mem _ hc1)).2⟩) hs.2


/-- C17: the invariant `base <= cursor <= base + total_memory` holds right after the arena
setup of `bsbs_init`; a returning allocation keeps it and never moves the cursor upward; and
any sequence of allocations, saves and loads in stack order keeps it, every load passing
both of its assertions. -/
theorem C17_arena_invariant (env : Env) (total_memory : Nat) (s : State) :
    (∀ s0, bsbs_init.setup env total_memory s = .ret s0 →
        ArenaInv (s0._bsbs_alloc_base + total_memory) s0 ∧
          s0._bsbs_alloc_ptr = s0._bsbs_alloc_base + total_memory) ∧
      (∀ top size align count (s1 : State) p s2, ArenaInv top s1 →
        bsbs_alloc_aligned_array size align count s1 = .ret (p, s2) →
        ArenaInv top s2 ∧ s2._bsbs_alloc_ptr ≤ s1._bsbs_alloc_ptr) ∧
      ∀ top ops (s1 : State), ArenaInv top s1 →
        (∀ line tr, arena_ops ops s1 [] = .abort line tr → line = 263 ∨ line = 264) ∧
        ∀ s2 cps, arena_ops ops s1 [] = .ret (s2, cps) → ArenaInv top s2 := by
  refine ⟨?_, ?_, ?_⟩
  · intro s0 h
    unfold bsbs_init.setup at h
    simp only at h
    split at h
    · cases h
    · simp only [Outcome.ret.injEq] at h
      subst h
      exact ⟨⟨Nat.le_add_right _ _, Nat.le_refl _⟩, rfl⟩
  · intro top size align count s1 p s2 hinv h
    obtain ⟨_, h1, h2, h3⟩ := alloc_ret_inv h
    have hb : s2._bsbs_alloc_base = s1._bsbs_alloc_base := by rw [h3]
    have hp : s2._bsbs_alloc_ptr = p := by rw [h3]
    unfold ArenaInv at hinv ⊢
    rw [hb, hp]
    omega
  · intro top ops s1 hinv
    have := arena_ops_inv top ops s1 [] hinv (fun _ h => nomatch h) List.Pairwise.nil
    exact ⟨this.1, fun s2 cps h => (this.2 s2 cps h).1⟩

theorem C17_arena_invariant_witness :
    (ArenaInv (4096 + 1000) { boot with _bsbs_alloc_base := 4096, _bsbs_alloc_ptr := 4096 + 1000 } ∧
        4096 + 1000 = 4096 + 1000) ∧
      (ArenaInv 8192 { arena0 with _bsbs_alloc_ptr := 8120 } ∧ 8120 ≤ arena0._bsbs_alloc_ptr) ∧
      ArenaInv 8192 arena0 :=
  have h := C17_arena_invariant (envOf (stat_of [])) 1000 boot
  ⟨h.1 { boot with _bsbs_alloc_base := 4096, _bsbs_alloc_ptr := 4096 + 1000 } (by rfl),
   h.2.1 8192 72 8 1 arena0 8120 { arena0 with _bsbs_alloc_ptr := 8120 }
     ⟨by decide, by decide⟩ (by rfl),
   (h.2.2 8192 [.save, .alloc 72 8 1, .save, .alloc 1 1 3, .load, .alloc 8 8 1, .load] arena0
      ⟨by decide, by decide⟩).2 arena0 [] (by rfl)⟩

/-- C12 as stated fails: after `c0 = save`, an allocation of 16 bytes, `c = save` (8176),
`load(c0)` and an allocation of 32 bytes (the block at 8160), `load(c)` of the invalidated
checkpoint passes both assertions and sets the cursor to 8176, inside that block. -/
theorem C12_counterexample :
    ((bsbs_alloc_aligned_array 16 8 1 arena0).bind fun r1 =>
      (bsbs_alloc_load (bsbs_alloc_save arena0) r1.2).bind fun s2 =>
      (bsbs_alloc_aligned_array 32 8 1 s2).bind fun r3 =>
      (bsbs_alloc_load (bsbs_alloc_save r1.2) r3.2).bind fun s4 =>
        .ret (bsbs_alloc_save r1.2, r3.1, s4._bsbs_alloc_ptr)).value =
      some (8176, 8160, 8176) := by
  decide

/-- C12 (amended): `bsbs_alloc_load(c)` fails an assertion exactly when `c` is below the base
(line 289) or below the current cursor (line 290), and otherwise sets the cursor to `c`.
So a checkpoint `c` taken after an older checkpoint `c0`, with something reserved in
between, is rejected when it is loaded right after `c0` was restored; it is accepted again
once later allocations have moved the cursor to `c` or below. -/
theorem C12_load_assertions (c : Nat) (s s0 s1 s3 : State)
    (reqs reqs2 : List (Nat × Nat × Nat)) (blocks blocks2 : List (Nat × Nat))
    (hinv : s0._bsbs_alloc_base ≤ s0._bsbs_alloc_ptr)
    (hcalls : alloc_calls reqs s0 = .ret (blocks, s1))
    (hlow : s1._bsbs_alloc_ptr < s0._bsbs_alloc_ptr)
    (hcalls2 : alloc_calls reqs2 s0 = .ret (blocks2, s3))
    (hbelow : s3._bsbs_alloc_ptr ≤ s1._bsbs_alloc_ptr) :
    (bsbs_alloc_load c s =
        if c < s._bsbs_alloc_base then .abort 289 s.trace
        else if c < s._bsbs_alloc_ptr then .abort 290 s.trace
        else .ret { s with _bsbs_alloc_ptr := c }) ∧
      bsbs_alloc_load (bsbs_alloc_save s0) s1 = .ret s0 ∧
      bsbs_alloc_load (bsbs_alloc_save s1) s0 = .abort 290 s0.trace ∧
      bsbs_alloc_load (bsbs_alloc_save s1) s3 =
        .ret { s3 with _bsbs_alloc_ptr := s1._bsbs_alloc_ptr } := by
  have hgen : ∀ (c : Nat) (s : State), bsbs_alloc_load c s =
      if c < s._bsbs_alloc_base then .abort 289 s.trace
      else if c < s._bsbs_alloc_ptr then .abort 290 s.trace
      else .ret { s with _bsbs_alloc_ptr := c } := by
    intro c s
    unfold bsbs_alloc_load
    by_cases h1 : c < s._bsbs_alloc_base
    · rw [if_pos (by omega), if_pos h1]
    · rw [if_neg (by omega), if_neg h1]
      by_cases h2 : c < s._bsbs_alloc_ptr
      · rw [if_pos (by omega), if_pos h2]
      · rw [if_neg (by omega), if_neg h2]
  obtain ⟨e1, hle1, hnb1, _, _⟩ := alloc_calls_inv reqs s0 s1 blocks hcalls
  obtain ⟨e3, hle3, hnb3, _, _⟩ := alloc_calls_inv reqs2 s0 s3 blocks2 hcalls2
  have hne : reqs ≠ [] := by
    intro e
    subst e
    simp only [alloc_calls, Outcome.ret.injEq, Prod.mk.injEq] at hcalls
    rw [hcalls.2] at hlow
    exact Nat.lt_irrefl _ hlow
  have hb1 : s1._bsbs_alloc_base = s0._bsbs_alloc_base := by rw [e1]
  have hb3 : s3._bsbs_alloc_base = s0._bsbs_alloc_base := by rw [e3]
  have hbase := hnb1 hne
  refine ⟨hgen c s, ?_, ?_, ?_⟩
  · rw [hgen]
    unfold bsbs_alloc_save
    rw [if_neg (by omega), if_neg (by omega), e1]
  · rw [hgen]
    unfold bsbs_alloc_save
    rw [if_neg (by omega), if_pos hlow]
  · rw [hgen]
    unfold bsbs_alloc_save
    rw [if_neg (by omega), if_neg (by omega)]

theorem C12_load_assertions_witness :
    (bsbs_alloc_load 100 arena0 =
        if 100 < arena0._bsbs_alloc_base then .abort 289 arena0.trace
        else if 100 < arena0._bsbs_alloc_ptr then .abort 290 arena0.trace
        else .ret { arena0 with _bsbs_alloc_ptr := 100 }) ∧
      bsbs_alloc_load (bsbs_alloc_save arena0) { arena0 with _bsbs_alloc_ptr := 8176 } =
        .ret arena0 ∧
      bsbs_alloc_load (bsbs_alloc_save { arena0 with _bsbs_alloc_ptr := 8176 }) arena0 =
        .abort 290 arena0.trace ∧
      bsbs_alloc_load (bsbs_alloc_save { arena0 with _bsbs_alloc_ptr := 8176 })
          { arena0 with _bsbs_alloc_ptr := 8160 } =
        .ret { ({ arena0 with _bsbs_alloc_ptr := 8160 } : State) with
          _bsbs_alloc_ptr := ({ arena0 with _bsbs_alloc_ptr := 8176 } : State)._bsbs_alloc_ptr } :=
  C12_load_assertions 100 arena0 arena0 { arena0 with _bsbs_alloc_ptr := 8176 }
    { arena0 with _bsbs_alloc_ptr := 8160 } [(16, 8, 1)] [(32, 8, 1)] [(8176, 16)] [(8160, 32)]
    (by decide) (by rfl) (by decide) (by rfl) (by decide)


/-- The description of the recompile Run leaves the base, `bsbs_cc` and the trace alone. -/
theorem describe_fields {run : Nat} {arg0 file : CStr} {s s4 : State}
    (h : bsbs_init.describe run arg0 file s = .ret s4) :
    s4._bsbs_alloc_base = s._bsbs_alloc_base ∧ s4.trace = s.trace ∧ s4.bsbs_cc = s.bsbs_cc ∧
      s4._bsbs_alloc_ptr ≤ s._bsbs_alloc_ptr ∧ s._bsbs_alloc_base ≤ s4._bsbs_alloc_ptr := by
  unfold bsbs_init.describe bsbs_run_add_arg bsbs_run_add_input_file_arg
    bsbs_run_add_output_file_arg at h
  obtain ⟨s1, h1, h⟩ := Outcome.bind_eq_ret h
  obtain ⟨s2, h2, h⟩ := Outcome.bind_eq_ret h
  obtain ⟨s2a, h2a, h2b⟩ := Outcome.bind_eq_ret h2
  obtain ⟨s3, h3, h⟩ := Outcome.bind_eq_ret h
  obtain ⟨s3a, h4a, h4b⟩ := Outcome.bind_eq_ret h
  have a1 := append_ret_fields h1
  have a2 := append_ret_fields h2a
  have a3 := append_ret_fields h2b
  have a4 := append_ret_fields h3
  have a5 := append_ret_fields h4a
  have a6 := append_ret_fields h4b
  refine ⟨?_, ?_, ?_, by omega, by omega⟩
  · rw [a6.1, a5.1, a4.1, a3.1, a2.1, a1.1]
  · rw [a6.2.1, a5.2.1, a4.2.1, a3.2.1, a2.2.1, a1.2.1]
  · rw [a6.2.2.1, a5.2.2.1, a4.2.2.1, a3.2.2.1, a2.2.2.1, a1.2.2.1]

/-- C18: whenever `bsbs_init` returns, the recompile Run was judged not stale, the base is
the address `malloc` returned and the cursor equals `base + total_memory`: everything the
temporary Run and its nodes consumed has been released. -/
theorem C18_init_returns_full_arena (env : Env) (fuel total_memory : Nat) (arg0 file : CStr)
    (s s1 : State) (h : bsbs_init env fuel total_memory arg0 file s = .ret s1) :
    s1._bsbs_alloc_ptr = s1._bsbs_alloc_base + total_memory ∧
      s1._bsbs_alloc_base = env.malloc total_memory ∧ env.malloc total_memory ≠ 0 ∧
      s1.trace = s.trace ∧
      ∃ run s4, _bsbs_requires_rebuild env fuel (run + 24) (run + 48) s4 = .ret false ∧
        s4._bsbs_alloc_ptr + RUN_SIZE ≤ s1._bsbs_alloc_ptr ∧
        s1 = { s4 with _bsbs_alloc_ptr := s1._bsbs_alloc_ptr } := by
  rw [bsbs_init_eq] at h
  obtain ⟨s0, h0, h⟩ := Outcome.bind_eq_ret h
  obtain ⟨⟨run, sr⟩, hr, h⟩ := Outcome.bind_eq_ret h
  obtain ⟨s4, hd, h⟩ := Outcome.bind_eq_ret h
  obtain ⟨stale, hs, h⟩ := Outcome.bind_eq_ret h
  have hm : env.malloc total_memory ≠ 0 := by
    intro e
    unfold bsbs_init.setup at h0
    simp only [e, if_true] at h0
    cases h0
  unfold bsbs_init.setup at h0
  simp only [hm, if_false, Outcome.ret.injEq] at h0
  have hb0 : s0._bsbs_alloc_base = env.malloc total_memory := by rw [← h0]
  have hp0 : s0._bsbs_alloc_ptr = env.malloc total_memory + total_memory := by rw [← h0]
  have ht0 : s0.trace = s.trace := by rw [← h0]
  obtain ⟨_, hr1, hr2, hr3⟩ := alloc_ret_inv hr
  have hbr : sr._bsbs_alloc_base = s0._bsbs_alloc_base := by rw [hr3]
  have hpr : sr._bsbs_alloc_ptr = run := by rw [hr3]
  have htr : sr.trace = s0.trace := by rw [hr3]
  obtain ⟨d1, d2, _, d4, d5⟩ := describe_fields hd
  simp only at d1 d2 d4 d5
  cases stale with
  | true =>
    simp only [if_true] at h
    obtain ⟨s5, _, h5⟩ := Outcome.bind_eq_ret h
    split at h5 <;> cases h5
  | false =>
    simp only [Bool.false_eq_true, if_false] at h
    unfold bsbs_alloc_load at h
    split at h
    · cases h
    split at h
    · cases h
    simp only [Outcome.ret.injEq] at h
    subst h
    refine ⟨?_, ?_, hm, ?_, run, s4, hs, ?_, rfl⟩
    · show env.malloc total_memory + total_memory = s4._bsbs_alloc_base + total_memory
      rw [d1, hbr, hb0]
    · show s4._bsbs_alloc_base = env.malloc total_memory
      rw [d1, hbr, hb0]
    · show s4.trace = s.trace
      rw [d2, htr, ht0]
    · show s4._bsbs_alloc_ptr + RUN_SIZE ≤ env.malloc total_memory + total_memory
      simp only [RUN_SIZE, Nat.mul_one] at hr2 ⊢
      omega

theorem Outcome.exists_ret {α : Type} {x : Outcome α} (h : x.value.isSome = true) :
    ∃ a, x = .ret a := by
  cases x with
  | ret a => exact ⟨a, rfl⟩
  | die _ _ => cases h
  | abort _ _ => cases h
  | replaced _ => cases h
  | timeout => cases h

theorem C18_init_returns_full_arena_witness :
    ∃ s1, bsbs_init (envOf (stat_of [([97], 10), ([98], 5)])) 16 4096 [97] [98] boot = .ret s1 ∧
      s1._bsbs_alloc_ptr = s1._bsbs_alloc_base + 4096 :=
  (Outcome.exists_ret (by decide! :
      (bsbs_init (envOf (stat_of [([97], 10), ([98], 5)])) 16 4096 [97] [98]
        boot).value.isSome = true)).elim fun s1 h =>
    ⟨s1, h, (C18_init_returns_full_arena _ 16 4096 [97] [98] boot s1 h).1⟩


theorem weight_perm {xs ys : List CStr} (h : xs.Perm ys) : weight xs = weight ys := by
  induction h with
  | nil => rfl
  | cons x _ ih => simp only [weight, ih]
  | swap x y l => simp only [weight]; omega
  | trans _ _ ih1 ih2 => rw [ih1, ih2]

/-- The outputs loop dies on the first `stat` that fails. -/
theorem outputs_scan_failed (tr : List Event) : ∀ (rs : List StatResult) (acc : Int),
    StatResult.failed ∈ rs → outputs_scan tr rs acc = .die .mtime_failed tr := by
  intro rs
  induction rs with
  | nil => intro _ h; cases h
  | cons r rs ih =>
    intro acc h
    cases r with
    | ok t =>
      have h1 : StatResult.failed ∈ rs := by
        rcases List.mem_cons.mp h with e | e
        · cases e
        · exact e
      simp only [outputs_scan, mtime_of_stat, Outcome.bind_ret]
      exact ih _ h1
    | enoent =>
      have h1 : StatResult.failed ∈ rs := by
        rcases List.mem_cons.mp h with e | e
        · cases e
        · exact e
      simp only [outputs_scan, mtime_of_stat, Outcome.bind_ret]
      exact ih _ h1
    | failed => rfl

/-- A failing `stat` on any output makes the check die, wherever the output is listed. -/
theorem rebuild_on_failed (env : Env) (tr : List Event) (insR : List StatResult)
    (outs : List CStr) (h : ∃ p ∈ outs, env.stat p = .failed) :
    requires_rebuild_on tr insR (outs.map env.stat) = .die .mtime_failed tr := by
  obtain ⟨p, hp, hf⟩ := h
  cases outs with
  | nil => cases hp
  | cons o rest =>
    simp only [List.map_cons, requires_rebuild_on]
    rcases List.mem_cons.mp hp with e | e
    · subst e
      rw [hf]
      rfl
    · have hmem : StatResult.failed ∈ rest.map env.stat :=
        List.mem_map.mpr ⟨p, e, hf⟩
      generalize env.stat o = r
      cases r with
      | ok t =>
        simp only [mtime_of_stat, Outcome.bind_ret]
        rw [outputs_scan_failed tr _ _ hmem]
        rfl
      | enoent =>
        simp only [mtime_of_stat, Outcome.bind_ret]
        rw [outputs_scan_failed tr _ _ hmem]
        rfl
      | failed => rfl

/-- The list-level verdict does not depend on the order of the outputs. -/
theorem rebuild_on_perm (env : Env) (tr : List Event) (insR : List StatResult)
    (outs1 outs2 : List CStr) (hperm : outs1.Perm outs2) :
    requires_rebuild_on tr insR (outs1.map env.stat) =
      requires_rebuild_on tr insR (outs2.map env.stat) := by
  by_cases hf : ∃ p ∈ outs1, env.stat p = .failed
  · have hf2 : ∃ p ∈ outs2, env.stat p = .failed := by
      obtain ⟨p, hp, e⟩ := hf
      exact ⟨p, hperm.mem_iff.mp hp, e⟩
    rw [rebuild_on_failed env tr insR outs1 hf, rebuild_on_failed env tr insR outs2 hf2]
  · have hn1 : ∀ p ∈ outs1, env.stat p ≠ .failed := fun p hp e => hf ⟨p, hp, e⟩
    have hn2 : ∀ p ∈ outs2, env.stat p ≠ .failed :=
      fun p hp e => hf ⟨p, hperm.mem_iff.mpr hp, e⟩
    by_cases hne : outs1 = []
    · subst hne
      rw [List.Perm.nil_eq hperm]
    · have hne2 : outs2 ≠ [] := fun e => hne (by subst e; exact List.Perm.eq_nil hperm)
      obtain ⟨T1, ⟨q1, hq1, e1⟩, m1, r1⟩ := rebuild_on_min env tr insR outs1 hne hn1
      obtain ⟨T2, ⟨q2, hq2, e2⟩, m2, r2⟩ := rebuild_on_min env tr insR outs2 hne2 hn2
      have hT : T1 = T2 := by
        have a := m1 q2 (hperm.mem_iff.mpr hq2)
        have b := m2 q1 (hperm.mem_iff.mp hq1)
        omega
      rw [r1, r2, hT]

theorem outputs_scan_total (tr : List Event) : ∀ (rs : List StatResult) (acc : Int),
    outputs_scan tr rs acc ≠ .timeout := by
  intro rs
  induction rs with
  | nil => intro _ h; cases h
  | cons r rs ih =>
    intro acc
    cases r with
    | ok t => exact ih _
    | enoent => exact ih _
    | failed => intro h; cases h

theorem inputs_scan_total (tr : List Event) (T : Int) : ∀ (rs : List StatResult),
    inputs_scan tr rs T ≠ .timeout := by
  intro rs
  induction rs with
  | nil => intro h; cases h
  | cons r rs ih =>
    have hstep : ∀ mt : Int, (if mt > T then Outcome.ret true
        else if mt = 0 then .die .input_missing tr else inputs_scan tr rs T) ≠ .timeout := by
      intro mt
      split
      · intro h; cases h
      · split
        · intro h; cases h
        · exact ih
    cases r with
    | ok t => exact hstep t
    | enoent => exact hstep 0
    | failed => intro h; cases h

/-- The list-level check always ends: it needs no fuel. -/
theorem rebuild_on_total (tr : List Event) (insR outsR : List StatResult) :
    requires_rebuild_on tr insR outsR ≠ .timeout := by
  cases outsR with
  | nil => intro h; cases h
  | cons o rest =>
    have hstep : ∀ first : Int, ((outputs_scan tr rest first).bind fun outtime =>
        if outtime = 0 then Outcome.ret true else inputs_scan tr insR outtime) ≠ .timeout := by
      intro first
      have h1 := outputs_scan_total tr rest first
      cases hO : outputs_scan tr rest first with
      | ret T =>
        simp only [Outcome.bind_ret]
        split
        · intro h; cases h
        · exact inputs_scan_total tr T insR
      | die _ _ => intro h; cases h
      | abort _ _ => intro h; cases h
      | replaced _ => intro h; cases h
      | timeout => exact absurd hO h1
    cases o with
    | ok t => exact hstep t
    | enoent => exact hstep 0
    | failed => intro h; cases h

/-- C20: for a fixed `stat` (assignment of modification times) and a fixed inputs list, two
well-formed outputs lists that are permutations of each other give the same outcome of
`_bsbs_requires_rebuild`: the same verdict, or the same fatal error. -/
theorem C20_outputs_order_irrelevant (env : Env) (fuel : Nat) (s1 s2 : State)
    (inputs1 outputs1 inputs2 outputs2 : Nat) (ins outs1 outs2 : List CStr)
    (hperm : outs1.Perm outs2) (htr : s1.trace = s2.trace)
    (hout1 : IsList s1.mem outputs1 outs1) (hin1 : IsList s1.mem inputs1 ins)
    (hout2 : IsList s2.mem outputs2 outs2) (hin2 : IsList s2.mem inputs2 ins)
    (hfuel : weight ins + weight outs1 ≤ fuel) :
    _bsbs_requires_rebuild env fuel inputs1 outputs1 s1 =
        _bsbs_requires_rebuild env fuel inputs2 outputs2 s2 ∧
      _bsbs_requires_rebuild env fuel inputs1 outputs1 s1 ≠ .timeout := by
  have hw := weight_perm hperm
  have e1 := requires_rebuild_refines env fuel inputs1 outputs1 s1 ins outs1 hout1 hin1 hfuel
  have e2 := requires_rebuild_refines env fuel inputs2 outputs2 s2 ins outs2 hout2 hin2
    (by omega)
  refine ⟨?_, ?_⟩
  · rw [e1, e2, htr]
    exact rebuild_on_perm env s2.trace _ outs1 outs2 hperm
  · rw [e1]
    exact rebuild_on_total _ _ _

theorem C20_outputs_order_irrelevant_witness :
    _bsbs_requires_rebuild (envOf (stat_of [([97], 5), ([98], 7), ([105], 6)])) 16
          (8120 + 24) (8120 + 48) (run_with [[97], [98]] [[105]]).2 =
        _bsbs_requires_rebuild (envOf (stat_of [([97], 5), ([98], 7), ([105], 6)])) 16
          (8120 + 24) (8120 + 48) (run_with [[98], [97]] [[105]]).2 ∧
      _bsbs_requires_rebuild (envOf (stat_of [([97], 5), ([98], 7), ([105], 6)])) 16
        (8120 + 24) (8120 + 48) (run_with [[97], [98]] [[105]]).2 ≠ .timeout :=
  C20_outputs_order_irrelevant (envOf (stat_of [([97], 5), ([98], 7), ([105], 6)])) 16
    (run_with [[97], [98]] [[105]]).2 (run_with [[98], [97]] [[105]]).2
    (8120 + 24) (8120 + 48) (8120 + 24) (8120 + 48) [[105]] [[97], [98]] [[98], [97]]
    (List.Perm.swap _ _ _) (by decide)
    (by simp only [IsList, Nodes, CStrAt]; decide)
    (by simp only [IsList, Nodes, CStrAt]; decide)
    (by simp only [IsList, Nodes, CStrAt]; decide)
    (by simp only [IsList, Nodes, CStrAt]; decide)
    (by decide)


/-- The ways `_bsbs_run_execute_unchecked` ends once its argument vector is built: the
trace has grown by the call and by one `fork`. -/
theorem unchecked_after_args (env : Env) (run : Nat) (s : State) (args : Nat) (s1 : State)
    (h : _bsbs_list_to_ntarray run
      { s with trace := s.trace ++ [Event.run_execute_unchecked run] } = .ret (args, s1)) :
    s1.trace = s.trace ++ [Event.run_execute_unchecked run] ∧
    _bsbs_run_execute_unchecked env run s =
      if env.fork s1.mem args = 0 then
        if env.execvp s1.mem args then .replaced (s1.trace ++ [Event.fork args])
        else .die .exec_failed (s1.trace ++ [Event.fork args])
      else if env.fork s1.mem args < 0 then .die .fork_failed (s1.trace ++ [Event.fork args])
      else
        match env.waitpid (env.fork s1.mem args) with
        | none => .die .wait_failed (s1.trace ++ [Event.fork args])
        | some (.exited 0) => .ret { s1 with trace := s1.trace ++ [Event.fork args] }
        | some _ => .die .abnormal_exit (s1.trace ++ [Event.fork args]) := by
  constructor
  · have := to_ntarray_events run { s with trace := s.trace ++ [Event.run_execute_unchecked run] }
    rw [h] at this
    simpa [Outcome.events] using this
  · unfold _bsbs_run_execute_unchecked
    rw [h]
    simp only [Outcome.bind_ret]
    split
    · rfl
    split
    · rfl
    cases env.waitpid (env.fork s1.mem args) with
    | none => rfl
    | some st =>
      cases st with
      | exited code =>
        cases code with
        | zero => simp [WIFEXITED, WEXITSTATUS]
        | succ n => simp [WIFEXITED, WEXITSTATUS]
      | signaled sig => simp [WIFEXITED, WEXITSTATUS]

/-- C15: `_bsbs_run_execute_unchecked` returns exactly when its argument vector was built,
`fork` returned a child pid, `waitpid` succeeded and the child exited with code 0. Once the
vector is built, a failed `fork`, a failed `waitpid`, a child killed by a signal and a
child with a non-zero exit code each end in `bsbs_die`, the trace holding the single
`fork` that was made. -/
theorem C15_unchecked_outcomes (env : Env) (run : Nat) (s : State) :
    ((∃ s2, _bsbs_run_execute_unchecked env run s = .ret s2) ↔
        ∃ args s1 st, _bsbs_list_to_ntarray run
            { s with trace := s.trace ++ [Event.run_execute_unchecked run] } = .ret (args, s1) ∧
          0 < env.fork s1.mem args ∧ env.waitpid (env.fork s1.mem args) = some st ∧
          WIFEXITED st = true ∧ WEXITSTATUS st = 0) ∧
      ∀ args s1, _bsbs_list_to_ntarray run
          { s with trace := s.trace ++ [Event.run_execute_unchecked run] } = .ret (args, s1) →
        (env.fork s1.mem args < 0 → _bsbs_run_execute_unchecked env run s =
          .die .fork_failed (s.trace ++ [Event.run_execute_unchecked run, Event.fork args])) ∧
        (0 < env.fork s1.mem args →
          (env.waitpid (env.fork s1.mem args) = none → _bsbs_run_execute_unchecked env run s =
            .die .wait_failed (s.trace ++ [Event.run_execute_unchecked run, Event.fork args])) ∧
          (∀ sig, env.waitpid (env.fork s1.mem args) = some (.signaled sig) →
            _bsbs_run_execute_unchecked env run s = .die .abnormal_exit
              (s.trace ++ [Event.run_execute_unchecked run, Event.fork args])) ∧
          (∀ code, code ≠ 0 → env.waitpid (env.fork s1.mem args) = some (.exited code) →
            _bsbs_run_execute_unchecked env run s = .die .abnormal_exit
              (s.trace ++ [Event.run_execute_unchecked run, Event.fork args])) ∧
          (env.waitpid (env.fork s1.mem args) = some (.exited 0) →
            _bsbs_run_execute_unchecked env run s = .ret { s1 with trace :=
              s.trace ++ [Event.run_execute_unchecked run, Event.fork args] })) := by
  have htr : ∀ (tr : List Event) (a b : Event), (tr ++ [a]) ++ [b] = tr ++ [a, b] := by
    intro tr a b
    rw [List.append_assoc]
    rfl
  refine ⟨⟨?_, ?_⟩, ?_⟩
  · rintro ⟨s2, h2⟩
    cases hA : _bsbs_list_to_ntarray run
        { s with trace := s.trace ++ [Event.run_execute_unchecked run] } with
    | ret r =>
      obtain ⟨args, s1⟩ := r
      obtain ⟨_, heq⟩ := unchecked_after_args env run s args s1 hA
      rw [heq] at h2
      split at h2
      · split at h2 <;> cases h2
      split at h2
      · cases h2
      rename_i h0 hneg
      split at h2
      · cases h2
      · rename_i hw
        exact ⟨args, s1, .exited 0, rfl, by omega, hw, rfl, rfl⟩
      · cases h2
    | die _ _ => unfold _bsbs_run_execute_unchecked at h2; rw [hA] at h2; cases h2
    | abort _ _ => unfold _bsbs_run_execute_unchecked at h2; rw [hA] at h2; cases h2
    | replaced _ => unfold _bsbs_run_execute_unchecked at h2; rw [hA] at h2; cases h2
    | timeout => unfold _bsbs_run_execute_unchecked at h2; rw [hA] at h2; cases h2
  · rintro ⟨args, s1, st, hA, hpos, hw, hexit, hcode⟩
    obtain ⟨_, heq⟩ := unchecked_after_args env run s args s1 hA
    have hst : st = .exited 0 := by
      cases st with
      | exited code =>
        have : code = 0 := hcode
        rw [this]
      | signaled sig => cases hexit
    rw [heq, if_neg (by omega), if_neg (by omega), hw, hst]
    exact ⟨_, rfl⟩
  · intro args s1 hA
    obtain ⟨ht, heq⟩ := unchecked_after_args env run s args s1 hA
    rw [ht, htr] at heq
    refine ⟨?_, ?_⟩
    · intro hneg
      rw [heq, if_neg (by omega), if_pos hneg]
    · intro hpos
      refine ⟨?_, ?_, ?_, ?_⟩
      · intro hw
        rw [heq, if_neg (by omega), if_neg (by omega), hw]
      · intro sig hw
        rw [heq, if_neg (by omega), if_neg (by omega), hw]
      · intro code hc hw
        rw [heq, if_neg (by omega), if_neg (by omega), hw]
        cases code with
        | zero => exact absurd rfl hc
        | succ n => rfl
      · intro hw
        rw [heq, if_neg (by omega), if_neg (by omega), hw]

theorem C15_unchecked_outcomes_witness :
    ∃ args s1, _bsbs_list_to_ntarray 8120
        { (run_with [[111]] [[105]]).2 with trace := (run_with [[111]] [[105]]).2.trace ++
          [Event.run_execute_unchecked 8120] } = .ret (args, s1) ∧
      _bsbs_run_execute_unchecked { envOf (stat_of []) with fork := fun _ _ => -1 } 8120
          (run_with [[111]] [[105]]).2 =
        .die .fork_failed ((run_with [[111]] [[105]]).2.trace ++
          [Event.run_execute_unchecked 8120, Event.fork args]) :=
  (Outcome.exists_ret (by decide : (_bsbs_list_to_ntarray 8120
      { (run_with [[111]] [[105]]).2 with trace := (run_with [[111]] [[105]]).2.trace ++
        [Event.run_execute_unchecked 8120] }).value.isSome = true)).elim fun r h =>
    ⟨r.1, r.2, h, ((C15_unchecked_outcomes { envOf (stat_of []) with fork := fun _ _ => -1 }
      8120 (run_with [[111]] [[105]]).2).2 r.1 r.2 h).1 (show (-1 : Int) < 0 by decide)⟩


theorem inBlocks_snoc (nodes : List (Nat × CStr)) (nd : Nat × CStr) (x : Nat) :
    InBlocks (nodes ++ [nd]) x ↔
      InBlocks nodes x ∨ (nd.1 ≤ x ∧ x < nd.1 + 8 + nd.2.length + 1) := by
  unfold InBlocks
  constructor
  · rintro ⟨a, ha, h⟩
    rcases List.mem_append.mp ha with h1 | h1
    · exact Or.inl ⟨a, h1, h⟩
    · rw [List.mem_singleton.mp h1] at h
      exact Or.inr h
  · rintro (⟨a, ha, h⟩ | h)
    · exact ⟨a, List.mem_append_left _ ha, h⟩
    · exact ⟨nd, List.mem_append_right _ (List.mem_singleton.mpr rfl), h⟩

/-- A chain is kept by any change of memory outside the blocks of its nodes. -/
theorem chain_congr_blocks (m m1 : Mem) : ∀ (nodes : List (Nat × CStr)) (p : Nat),
    (∀ x, InBlocks nodes x → m1 x = m x) → Chain m p nodes → Chain m1 p nodes := by
  intro nodes
  induction nodes with
  | nil => intro p _ h; exact h
  | cons a rest ih =>
    intro p hfr h
    obtain ⟨h1, h2, h3, h4⟩ := h
    have hin : ∀ x, a.1 ≤ x → x < a.1 + 8 + a.2.length + 1 → m1 x = m x :=
      fun x hx1 hx2 => hfr x ⟨a, List.mem_cons_self _ _, hx1, hx2⟩
    refine ⟨h1, h2, CStrAt_congr _ m m1 _ (fun x hx1 hx2 => hin x (by omega) (by omega)) h3, ?_⟩
    rw [load64_congr fun x hx1 hx2 => hin x hx1 (by omega)]
    refine ih _ (fun x hx => hfr x ?_) h4
    obtain ⟨nd, hnd, hb⟩ := hx
    exact ⟨nd, List.mem_cons_of_mem _ hnd, hb⟩

/-- A list is kept when the cursor moves down and memory changes only outside its
header and the blocks of its nodes. -/
theorem listInv_frame {s s1 : State} {list : Nat} {nodes : List (Nat × CStr)}
    (hinv : ListInv s list nodes) (hbase : s1._bsbs_alloc_base = s._bsbs_alloc_base)
    (hptr : s1._bsbs_alloc_ptr ≤ s._bsbs_alloc_ptr)
    (hhdr : ∀ x, list ≤ x → x < list + 24 → s1.mem x = s.mem x)
    (hblk : ∀ x, InBlocks nodes x → s1.mem x = s.mem x) : ListInv s1 list nodes := by
  obtain ⟨c1, c2, c3, c4, c5, c6, c7, c8⟩ := hinv
  have e0 : load64 s1.mem list = load64 s.mem list :=
    load64_congr fun x h1 h2 => hhdr x h1 (by omega)
  have e8 : load64 s1.mem (list + 8) = load64 s.mem (list + 8) :=
    load64_congr fun x h1 h2 => hhdr x (by omega) (by omega)
  have e16 : load64 s1.mem (list + 16) = load64 s.mem (list + 16) :=
    load64_congr fun x h1 h2 => hhdr x (by omega) (by omega)
  refine ⟨by rw [e0]; exact c1, ?_, fun h => by rw [e16]; exact c3 h, c4, ?_, by omega, c7,
    by rw [hbase]; exact c8⟩
  · rw [e8]
    exact chain_congr_blocks s.mem s1.mem nodes _ hblk c2
  · intro nd hnd
    have := c5 nd hnd
    omega

/-- What a returning append writes: the new node's block, the list header, and the `next`
field of the old last node. -/
theorem append_frame {s s1 : State} {list : Nat} {content : CStr} {nodes : List (Nat × CStr)}
    (hinv : ListInv s list nodes) (hv : content.valid)
    (h : _bsbs_list_append list content s = .ret s1) :
    ∀ x, (x < list ∨ list + 24 ≤ x) → (x < s1._bsbs_alloc_ptr ∨ s._bsbs_alloc_ptr ≤ x) →
      ¬ InBlocks nodes x → s1.mem x = s.mem x := by
  unfold _bsbs_list_append at h
  simp only at h
  obtain ⟨⟨p1, sA⟩, hA, h⟩ := Outcome.bind_eq_ret h
  obtain ⟨⟨node, sB⟩, hB, h⟩ := Outcome.bind_eq_ret h
  simp only at h
  obtain ⟨_, hA1, hA2, hA3⟩ := alloc_ret_inv hA
  obtain ⟨_, hB1, hB2, hB3⟩ := alloc_ret_inv hB
  rw [Nat.mod_eq_of_lt hv.2] at hA2
  subst hA3
  subst hB3
  simp only [NODE_SIZE, Nat.one_mul, Nat.mul_one] at h hA1 hA2 hB1 hB2
  obtain ⟨m2, hm2⟩ : ∃ m2, m2 = strcpy (store64 s.mem node 0) (node + 8) content := ⟨_, rfl⟩
  rw [← hm2] at h
  have F2 : ∀ x, x < node ∨ node + 8 + content.length + 1 ≤ x → m2 x = s.mem x := by
    intro x hx
    rw [hm2, strcpy_outside content _ _ _ (by omega), store64_outside _ _ _ _ (by omega)]
  have Htail : load64 m2 (list + 16) = load64 s.mem (list + 16) :=
    load64_congr fun x h1 h2 => F2 x (by have := hinv.hdr; omega)
  have Hhead : load64 m2 (list + 8) = load64 s.mem (list + 8) :=
    load64_congr fun x h1 h2 => F2 x (by have := hinv.hdr; omega)
  intro x hx1 hx2 hx3
  split at h
  · simp only [Outcome.ret.injEq] at h
    subst h
    show store64 _ _ _ x = s.mem x
    rw [store64_outside _ _ _ _ (by omega), store64_outside _ _ _ _ (by omega),
      store64_outside _ _ _ _ (by omega)]
    exact F2 x (by simp only at hx2; omega)
  · rename_i hz
    rw [Hhead] at hz
    have hne : nodes ≠ [] := fun e => hz ((chain_nil_iff hinv.chain).mpr e)
    obtain ⟨tn, htm, hte⟩ := lastAddr_mem nodes hne
    have hout : x < lastAddr nodes ∨ lastAddr nodes + 8 ≤ x := by
      by_contra hc
      exact hx3 ⟨tn, htm, by omega, by omega⟩
    rw [Htail, hinv.tail hne] at h
    simp only [Outcome.ret.injEq] at h
    subst h
    show store64 _ _ _ x = s.mem x
    rw [store64_outside _ _ _ _ (by omega), store64_outside _ _ _ _ (by omega),
      store64_outside _ _ _ _ (by omega)]
    exact F2 x (by simp only at hx2; omega)

/-- An append to one list keeps another list whose header and node blocks it does not
touch, and the new node's block lies below the blocks of that list. -/
theorem append_other {s s1 : State} {list other : Nat} {content : CStr}
    {nodes others : List (Nat × CStr)}
    (hinv : ListInv s list nodes) (hoth : ListInv s other others) (hv : content.valid)
    (hsep : list + 24 ≤ other ∨ other + 24 ≤ list)
    (hlow : ∀ nd ∈ nodes, nd.1 + 8 + nd.2.length + 1 ≤ other)
    (hlow1 : ∀ nd ∈ others, nd.1 + 8 + nd.2.length + 1 ≤ list)
    (hapart : ∀ x, InBlocks nodes x → ¬ InBlocks others x)
    (h : _bsbs_list_append list content s = .ret s1) :
    ListInv s1 other others ∧
      ∀ x, InBlocks (nodes ++ [(s1._bsbs_alloc_ptr, content)]) x → ¬ InBlocks others x := by
  obtain ⟨_, hstep, hb, _⟩ := append_step hinv hv h
  have hfr := append_frame hinv hv h
  refine ⟨listInv_frame hoth hb (by omega) ?_ ?_, ?_⟩
  · intro x h1 h2
    refine hfr x (by omega) (Or.inr (by have := hoth.hdr; omega)) ?_
    rintro ⟨nd, hnd, hb1, hb2⟩
    have := hlow nd hnd
    omega
  · intro x hx
    obtain ⟨nd, hnd, hb1, hb2⟩ := hx
    have h1 := hlow1 nd hnd
    have h2 := hoth.above nd hnd
    exact hfr x (by omega) (Or.inr (by omega)) (fun hc => hapart x hc ⟨nd, hnd, hb1, hb2⟩)
  · intro x hx
    rcases (inBlocks_snoc _ _ _).mp hx with h1 | h1
    · exact hapart x h1
    · rintro ⟨nd, hnd, hb1, hb2⟩
      have := hoth.above nd hnd
      simp only at h1
      omega


theorem runInv_add_arg {s s1 : State} {run : Nat} {A I O : List (Nat × CStr)} {p : CStr}
    (hinv : RunInv s run A I O) (hv : p.valid) (h : _bsbs_list_append run p s = .ret s1) :
    RunInv s1 run (A ++ [(s1._bsbs_alloc_ptr, p)]) I O := by
  obtain ⟨ha, hi, ho, bi, bo, dAI, dAO, dIO⟩ := hinv
  have bA := stacked_mem A run ha.stacked
  obtain ⟨ha1, _, _, _⟩ := append_step ha hv h
  obtain ⟨hi1, dAI1⟩ := append_other ha hi hv (Or.inl (Nat.le_refl _))
    (fun nd hnd => by have := bA nd hnd; omega) bi dAI h
  obtain ⟨ho1, dAO1⟩ := append_other ha ho hv (Or.inl (by omega))
    (fun nd hnd => by have := bA nd hnd; omega) bo dAO h
  exact ⟨ha1, hi1, ho1, bi, bo, dAI1, dAO1, dIO⟩

theorem runInv_add_input {s s1 : State} {run : Nat} {A I O : List (Nat × CStr)} {p : CStr}
    (hinv : RunInv s run A I O) (hv : p.valid)
    (h : _bsbs_list_append (run + 24) p s = .ret s1) :
    RunInv s1 run A (I ++ [(s1._bsbs_alloc_ptr, p)]) O := by
  obtain ⟨ha, hi, ho, bi, bo, dAI, dAO, dIO⟩ := hinv
  have bA := stacked_mem A run ha.stacked
  obtain ⟨hi1, hstep, _, _⟩ := append_step hi hv h
  obtain ⟨ha1, dIA1⟩ := append_other hi ha hv (Or.inr (Nat.le_refl _)) bi
    (fun nd hnd => by have := bA nd hnd; omega) (fun x hI hA => dAI x hA hI) h
  obtain ⟨ho1, dIO1⟩ := append_other hi ho hv (Or.inl (by omega))
    (fun nd hnd => by have := bi nd hnd; omega)
    (fun nd hnd => by have := bo nd hnd; omega) dIO h
  refine ⟨ha1, hi1, ho1, ?_, bo, fun x hA hI => dIA1 x hI hA, dAO, dIO1⟩
  intro nd hnd
  rcases List.mem_append.mp hnd with h1 | h1
  · exact bi nd h1
  · rw [List.mem_singleton.mp h1]
    have := ha.hdr
    show s1._bsbs_alloc_ptr + 8 + p.length + 1 ≤ run
    omega

theorem runInv_add_output {s s1 : State} {run : Nat} {A I O : List (Nat × CStr)} {p : CStr}
    (hinv : RunInv s run A I O) (hv : p.valid)
    (h : _bsbs_list_append (run + 48) p s = .ret s1) :
    RunInv s1 run A I (O ++ [(s1._bsbs_alloc_ptr, p)]) := by
  obtain ⟨ha, hi, ho, bi, bo, dAI, dAO, dIO⟩ := hinv
  have bA := stacked_mem A run ha.stacked
  obtain ⟨ho1, hstep, _, _⟩ := append_step ho hv h
  obtain ⟨ha1, dOA1⟩ := append_other ho ha hv (Or.inr (by omega)) bo
    (fun nd hnd => by have := bA nd hnd; omega) (fun x hO hA => dAO x hA hO) h
  obtain ⟨hi1, dOI1⟩ := append_other ho hi hv (Or.inr (by omega))
    (fun nd hnd => by have := bo nd hnd; omega)
    (fun nd hnd => by have := bi nd hnd; omega) (fun x hO hI => dIO x hI hO) h
  refine ⟨ha1, hi1, ho1, bi, ?_, dAI, fun x hA hO => dOA1 x hO hA,
    fun x hI hO => dOI1 x hO hI⟩
  intro nd hnd
  rcases List.mem_append.mp hnd with h1 | h1
  · exact bo nd h1
  · rw [List.mem_singleton.mp h1]
    have := ha.hdr
    show s1._bsbs_alloc_ptr + 8 + p.length + 1 ≤ run
    omega

theorem listInv_isList {s : State} {list : Nat} {nodes : List (Nat × CStr)}
    (h : ListInv s list nodes) : IsList s.mem list (nodes.map fun nd => nd.2) :=
  ⟨by rw [h.count, List.length_map], chain_nodes s.mem nodes _ h.chain⟩

/-- A well-formed Run represents its three lists. -/
theorem runRep_isRun {s : State} {run : Nat} {args inputs outputs : List CStr}
    (h : RunRep s run args inputs outputs) : IsRun s.mem run args inputs outputs := by
  obtain ⟨A, I, O, hinv, eA, eI, eO⟩ := h
  subst eA; subst eI; subst eO
  exact ⟨listInv_isList hinv.args, listInv_isList hinv.inputs, listInv_isList hinv.outputs⟩

theorem runRep_add_arg {s s1 : State} {run : Nat} {args inputs outputs : List CStr} {p : CStr}
    (hrep : RunRep s run args inputs outputs) (hv : p.valid)
    (h : _bsbs_list_append run p s = .ret s1) : RunRep s1 run (args ++ [p]) inputs outputs := by
  obtain ⟨A, I, O, hinv, eA, eI, eO⟩ := hrep
  exact ⟨_, I, O, runInv_add_arg hinv hv h, by rw [List.map_append, eA]; rfl, eI, eO⟩

theorem runRep_add_input {s s1 : State} {run : Nat} {args inputs outputs : List CStr}
    {p : CStr} (hrep : RunRep s run args inputs outputs) (hv : p.valid)
    (h : _bsbs_list_append (run + 24) p s = .ret s1) :
    RunRep s1 run args (inputs ++ [p]) outputs := by
  obtain ⟨A, I, O, hinv, eA, eI, eO⟩ := hrep
  exact ⟨A, _, O, runInv_add_input hinv hv h, eA, by rw [List.map_append, eI]; rfl, eO⟩

theorem runRep_add_output {s s1 : State} {run : Nat} {args inputs outputs : List CStr}
    {p : CStr} (hrep : RunRep s run args inputs outputs) (hv : p.valid)
    (h : _bsbs_list_append (run + 48) p s = .ret s1) :
    RunRep s1 run args inputs (outputs ++ [p]) := by
  obtain ⟨A, I, O, hinv, eA, eI, eO⟩ := hrep
  exact ⟨A, I, _, runInv_add_output hinv hv h, eA, eI, by rw [List.map_append, eO]; rfl⟩

/-- An append returns whenever the arena has room for the string, its NUL, the node's
pointer and the padding that aligns the node. -/
theorem append_returns (list : Nat) (content : CStr) (s : State) (hv : content.valid)
    (hp : s._bsbs_alloc_ptr < SIZE_MOD)
    (hroom : s._bsbs_alloc_base + content.length + 16 ≤ s._bsbs_alloc_ptr) :
    ∃ s1, _bsbs_list_append list content s = .ret s1 ∧
      s._bsbs_alloc_ptr ≤ s1._bsbs_alloc_ptr + content.length + 16 := by
  have hlen : content.length + 1 < 18446744073709551616 := hv.2
  have hp1 : s._bsbs_alloc_ptr < 18446744073709551616 := hp
  have hA := alloc_eq 1 0 ((content.length + 1) % SIZE_MOD) s (by decide) (by decide)
    (by decide) hp
  rw [Nat.mod_eq_of_lt hv.2] at hA
  simp only [Nat.pow_zero, Nat.div_one, Nat.mul_one, Nat.one_mul] at hA
  rw [if_neg (by simp only [SIZE_MOD]; omega), if_neg (by omega), if_neg (by omega)] at hA
  have hB := alloc_eq 8 3 1 { s with _bsbs_alloc_ptr := s._bsbs_alloc_ptr - (content.length + 1) }
    (by decide) (by decide) (by decide) (by show _ - _ < SIZE_MOD; simp only [SIZE_MOD]; omega)
  have hdiv := Nat.div_mul_le_self (s._bsbs_alloc_ptr - (content.length + 1)) 8
  have hdiv2 : s._bsbs_alloc_ptr - (content.length + 1) <
      (s._bsbs_alloc_ptr - (content.length + 1)) / 8 * 8 + 8 := by
    have := Nat.div_add_mod (s._bsbs_alloc_ptr - (content.length + 1)) 8
    have := Nat.mod_lt (s._bsbs_alloc_ptr - (content.length + 1)) (show 0 < 8 by decide)
    omega
  norm_num at hB
  rw [if_neg (by omega), if_neg (by omega)] at hB
  unfold _bsbs_list_append
  simp only
  rw [Nat.mod_eq_of_lt hv.2, hA]
  simp only [Outcome.bind_ret, NODE_SIZE]
  have hB2 : bsbs_alloc_aligned_array 8 8 1
      { s with _bsbs_alloc_ptr := s._bsbs_alloc_ptr - (content.length + 1) } = _ := hB
  rw [hB2]
  simp only [Outcome.bind_ret]
  split
  · exact ⟨_, rfl, by show s._bsbs_alloc_ptr ≤ _ - 8 + content.length + 16; omega⟩
  · exact ⟨_, rfl, by show s._bsbs_alloc_ptr ≤ _ - 8 + content.length + 16; omega⟩


/-- C11: on a well-formed Run holding `args`, `inputs` and `outputs`, each builder that
returns has appended the string `p` as the new last element of exactly the lists it names
and left the other lists as they were, the earlier elements keeping their order; the Run
stays well formed. Each builder returns when the arena has room for two copies of `p` with
their nodes. -/
theorem C11_builders_frame (s : State) (run : Nat) (args inputs outputs : List CStr) (p : CStr)
    (hrep : RunRep s run args inputs outputs) (hv : p.valid) :
    (∀ s1, bsbs_run_add_arg run p s = .ret s1 →
        RunRep s1 run (args ++ [p]) inputs outputs ∧
          IsRun s1.mem run (args ++ [p]) inputs outputs) ∧
      (∀ s1, bsbs_run_add_input_file run p s = .ret s1 →
        RunRep s1 run args (inputs ++ [p]) outputs ∧
          IsRun s1.mem run args (inputs ++ [p]) outputs) ∧
      (∀ s1, bsbs_run_add_output_file run p s = .ret s1 →
        RunRep s1 run args inputs (outputs ++ [p]) ∧
          IsRun s1.mem run args inputs (outputs ++ [p])) ∧
      (∀ s1, bsbs_run_add_input_file_arg run p s = .ret s1 →
        RunRep s1 run (args ++ [p]) (inputs ++ [p]) outputs ∧
          IsRun s1.mem run (args ++ [p]) (inputs ++ [p]) outputs) ∧
      (∀ s1, bsbs_run_add_output_file_arg run p s = .ret s1 →
        RunRep s1 run (args ++ [p]) inputs (outputs ++ [p]) ∧
          IsRun s1.mem run (args ++ [p]) inputs (outputs ++ [p])) ∧
      (s._bsbs_alloc_base + 2 * (p.length + 16) ≤ s._bsbs_alloc_ptr →
        (∃ s1, bsbs_run_add_arg run p s = .ret s1) ∧
        (∃ s1, bsbs_run_add_input_file run p s = .ret s1) ∧
        (∃ s1, bsbs_run_add_output_file run p s = .ret s1) ∧
        (∃ s1, bsbs_run_add_input_file_arg run p s = .ret s1) ∧
        (∃ s1, bsbs_run_add_output_file_arg run p s = .ret s1)) := by
  refine ⟨?_, ?_, ?_, ?_, ?_, ?_⟩
  · intro s1 h
    have := runRep_add_arg hrep hv h
    exact ⟨this, runRep_isRun this⟩
  · intro s1 h
    have := runRep_add_input hrep hv h
    exact ⟨this, runRep_isRun this⟩
  · intro s1 h
    have := runRep_add_output hrep hv h
    exact ⟨this, runRep_isRun this⟩
  · intro s1 h
    obtain ⟨sA, hA, hB⟩ := Outcome.bind_eq_ret h
    have := runRep_add_input (runRep_add_arg hrep hv hA) hv hB
    exact ⟨this, runRep_isRun this⟩
  · intro s1 h
    obtain ⟨sA, hA, hB⟩ := Outcome.bind_eq_ret h
    have := runRep_add_output (runRep_add_arg hrep hv hA) hv hB
    exact ⟨this, runRep_isRun this⟩
  · intro hroom
    obtain ⟨A, I, O, hinv, _, _, _⟩ := hrep
    have hp : s._bsbs_alloc_ptr < SIZE_MOD :=
      lt_of_le_of_lt hinv.args.hdr hinv.args.hdr_lt
    have two : ∀ l1 l2, ∃ s1,
        (_bsbs_list_append l1 p s).bind (fun sA => _bsbs_list_append l2 p sA) = .ret s1 := by
      intro l1 l2
      obtain ⟨sA, hA, hle⟩ := append_returns l1 p s hv hp (by omega)
      obtain ⟨hb, _, _, hdown, _⟩ := append_ret_fields hA
      obtain ⟨sB, hB, _⟩ := append_returns l2 p sA hv (by omega) (by omega)
      exact ⟨sB, by rw [hA]; exact hB⟩
    have one : ∀ l1, ∃ s1, _bsbs_list_append l1 p s = .ret s1 := by
      intro l1
      obtain ⟨sA, hA, _⟩ := append_returns l1 p s hv hp (by omega)
      exact ⟨sA, hA⟩
    exact ⟨one _, one _, one _, two _ _, two _ _⟩

theorem C11_builders_frame_witness :
    ∃ s1, bsbs_run_add_input_file_arg 8120 [97] (run_with [[111]] [[105]]).2 = .ret s1 ∧
      IsRun s1.mem 8120 ([] ++ [[97]]) ([[105]] ++ [[97]]) [[111]] :=
  have T := C11_builders_frame (run_with [[111]] [[105]]).2 8120 [] [[105]] [[111]] [97]
    ⟨[], [(8088, [105])], [(8104, [111])],
      ⟨⟨by decide, by simp only [Chain]; decide, (fun h => absurd rfl h), trivial, (fun _ h => nomatch h),
          by decide, by decide, by decide⟩,
        ⟨by decide, by simp only [Chain, CStrAt]; decide, (fun _ => by decide),
          by simp only [Stacked]; decide,
          (fun nd hnd => by rw [List.mem_singleton.mp hnd]; decide),
          by decide, by decide, by decide⟩,
        ⟨by decide, by simp only [Chain, CStrAt]; decide, (fun _ => by decide),
          by simp only [Stacked]; decide,
          (fun nd hnd => by rw [List.mem_singleton.mp hnd]; decide),
          by decide, by decide, by decide⟩,
        (fun nd hnd => by rw [List.mem_singleton.mp hnd]; decide),
        (fun nd hnd => by rw [List.mem_singleton.mp hnd]; decide),
        (fun _ h => nomatch h.choose_spec.1),
        (fun _ h => nomatch h.choose_spec.1),
        (fun x hI hO => by
          obtain ⟨a, ha, ha1, ha2⟩ := hI
          obtain ⟨b, hb, hb1, hb2⟩ := hO
          rw [List.mem_singleton.mp ha] at ha1 ha2
          rw [List.mem_singleton.mp hb] at hb1 hb2
          simp only [List.length_singleton] at ha1 ha2 hb1 hb2
          omega)⟩,
      rfl, rfl, rfl⟩
    ⟨by decide, by decide⟩
  (T.2.2.2.2.2 (by decide)).2.2.2.1.elim fun s1 h => ⟨s1, h, (T.2.2.2.1 s1 h).2⟩


theorem load64_zero {m : Mem} {a : Nat} (h : ∀ x, a ≤ x → x < a + 8 → m x = 0) :
    load64 m a = 0 := by
  rw [@load64_congr (fun _ => 0) m a (fun x h1 h2 => h x h1 h2)]
  rfl

/-- On zero-filled memory `bsbs_run_create` returns an empty, well-formed Run. -/
theorem runRep_create {s s1 : State} {run : Nat} (h : bsbs_run_create s = .ret (run, s1))
    (hzero : ∀ x, run ≤ x → x < run + 72 → s.mem x = 0) (hbase : 0 < s._bsbs_alloc_base)
    (hp : s._bsbs_alloc_ptr < SIZE_MOD) : RunRep s1 run [] [] [] := by
  unfold bsbs_run_create at h
  obtain ⟨_, h1, h2, h3⟩ := alloc_ret_inv h
  subst h3
  simp only [RUN_SIZE, Nat.mul_one] at h2
  have hp1 : s._bsbs_alloc_ptr < 18446744073709551616 := hp
  have z : ∀ d, d + 8 ≤ 72 → load64 s.mem (run + d) = 0 := fun d hd =>
    load64_zero fun x hx1 hx2 => hzero x (by omega) (by omega)
  have e : ∀ d, d + 16 ≤ 72 →
      ListInv { s with _bsbs_alloc_ptr := run } (run + d) [] := fun d hd =>
    listInv_empty (z d (by omega)) (z (d + 8) (by omega)) (Nat.le_add_right _ _)
      (by simp only [SIZE_MOD]; omega) hbase
  exact ⟨[], [], [], ⟨e 0 (by decide), e 24 (by decide), e 48 (by decide),
    (fun _ hn => nomatch hn), (fun _ hn => nomatch hn),
    (fun _ hn => nomatch hn.choose_spec.1), (fun _ hn => nomatch hn.choose_spec.1),
    (fun _ hn => nomatch hn.choose_spec.1)⟩, rfl, rfl, rfl⟩

/-- The four builder calls of `bsbs_init` on an empty Run: the lists they leave, and that
they return when the arena has room for the six appended strings. -/
theorem describe_spec {s : State} {run : Nat} {arg0 file : CStr}
    (hrep : RunRep s run [] [] []) (hcc : s.bsbs_cc.valid) (hfile : file.valid)
    (harg0 : arg0.valid) :
    (∀ s4, bsbs_init.describe run arg0 file s = .ret s4 →
        RunRep s4 run [s.bsbs_cc, file, [45, 111], arg0] [file] [arg0]) ∧
      (s._bsbs_alloc_base + (s.bsbs_cc.length + 2 * file.length + 2 * arg0.length + 98) ≤
          s._bsbs_alloc_ptr →
        ∃ s4, bsbs_init.describe run arg0 file s = .ret s4 ∧
          s._bsbs_alloc_ptr ≤
            s4._bsbs_alloc_ptr + (s.bsbs_cc.length + 2 * file.length + 2 * arg0.length + 98)) := by
  have hdash : CStr.valid [45, 111] := ⟨by decide, by decide⟩
  constructor
  · intro s4 h
    unfold bsbs_init.describe bsbs_run_add_arg bsbs_run_add_input_file_arg
      bsbs_run_add_output_file_arg at h
    obtain ⟨s1, h1, h⟩ := Outcome.bind_eq_ret h
    obtain ⟨s2, h2, h⟩ := Outcome.bind_eq_ret h
    obtain ⟨s2a, h2a, h2b⟩ := Outcome.bind_eq_ret h2
    obtain ⟨s3, h3, h⟩ := Outcome.bind_eq_ret h
    obtain ⟨s3a, h4a, h4b⟩ := Outcome.bind_eq_ret h
    have r1 := runRep_add_arg hrep hcc h1
    have r2 := runRep_add_input (runRep_add_arg r1 hfile h2a) hfile h2b
    have r3 := runRep_add_arg r2 hdash h3
    exact runRep_add_output (runRep_add_arg r3 harg0 h4a) harg0 h4b
  · intro hroom
    obtain ⟨A, I, O, hinv, _, _, _⟩ := hrep
    have hp : s._bsbs_alloc_ptr < 18446744073709551616 :=
      lt_of_le_of_lt hinv.args.hdr hinv.args.hdr_lt
    obtain ⟨s1, h1, l1⟩ := append_returns run s.bsbs_cc s hcc hp (by omega)
    obtain ⟨b1, _, _, d1, _⟩ := append_ret_fields h1
    obtain ⟨s2, h2, l2⟩ := append_returns run file s1 hfile
      (by simp only [SIZE_MOD]; omega) (by omega)
    obtain ⟨b2, _, _, d2, _⟩ := append_ret_fields h2
    obtain ⟨s3, h3, l3⟩ := append_returns (run + 24) file s2 hfile
      (by simp only [SIZE_MOD]; omega) (by omega)
    obtain ⟨b3, _, _, d3, _⟩ := append_ret_fields h3
    obtain ⟨s4, h4, l4⟩ := append_returns run [45, 111] s3 hdash
      (by simp only [SIZE_MOD]; omega)
      (by simp only [List.length_cons, List.length_nil]; omega)
    obtain ⟨b4, _, _, d4, _⟩ := append_ret_fields h4
    simp only [List.length_cons, List.length_nil] at l4
    obtain ⟨s5, h5, l5⟩ := append_returns run arg0 s4 harg0
      (by simp only [SIZE_MOD]; omega) (by omega)
    obtain ⟨b5, _, _, d5, _⟩ := append_ret_fields h5
    obtain ⟨s6, h6, l6⟩ := append_returns (run + 48) arg0 s5 harg0
      (by simp only [SIZE_MOD]; omega) (by omega)
    refine ⟨s6, ?_, by omega⟩
    unfold bsbs_init.describe bsbs_run_add_arg bsbs_run_add_input_file_arg
      bsbs_run_add_output_file_arg
    rw [h1, Outcome.bind_ret, h2, Outcome.bind_ret, h3, Outcome.bind_ret, h4, Outcome.bind_ret,
      h5, Outcome.bind_ret, h6]

/-- C14: the builder calls of `bsbs_init`, made on the empty Run that `bsbs_run_create`
returned after the setup, leave `args = [cc, file, "-o", arg0]` in that order,
`inputs = [file]` and `outputs = [arg0]`, where `cc` is the value of `CC` when it is set and
`"cc"` otherwise; they return when the arena has room for the six appended strings. -/
theorem C14_recompile_lists (env : Env) (total_memory : Nat) (arg0 file : CStr)
    (s s0 sr : State) (run : Nat)
    (hsetup : bsbs_init.setup env total_memory s = .ret s0)
    (hcreate : bsbs_run_create s0 = .ret (run, sr))
    (hempty : RunRep sr run [] [] [])
    (hcc : ∀ cc, env.getenv_CC = some cc → cc.valid) (hfile : file.valid)
    (harg0 : arg0.valid) :
    sr.bsbs_cc = env.getenv_CC.getD [99, 99] ∧
      (∀ s4, bsbs_init.describe run arg0 file sr = .ret s4 →
        IsRun s4.mem run [env.getenv_CC.getD [99, 99], file, [45, 111], arg0] [file] [arg0]) ∧
      (sr._bsbs_alloc_base +
          ((env.getenv_CC.getD [99, 99]).length + 2 * file.length + 2 * arg0.length + 98) ≤
          sr._bsbs_alloc_ptr →
        ∃ s4, bsbs_init.describe run arg0 file sr = .ret s4) := by
  have e0 : s0.bsbs_cc = env.getenv_CC.getD [99, 99] := by
    unfold bsbs_init.setup at hsetup
    simp only at hsetup
    split at hsetup
    · cases hsetup
    · simp only [Outcome.ret.injEq] at hsetup
      rw [← hsetup]
      cases env.getenv_CC <;> rfl
  have e1 : sr.bsbs_cc = env.getenv_CC.getD [99, 99] := by
    unfold bsbs_run_create at hcreate
    obtain ⟨_, _, _, h3⟩ := alloc_ret_inv hcreate
    rw [h3]
    exact e0
  have hv : sr.bsbs_cc.valid := by
    rw [e1]
    cases hg : env.getenv_CC with
    | none => exact ⟨by decide, by decide⟩
    | some cc => exact hcc cc hg
  obtain ⟨d1, d2⟩ := describe_spec hempty hv hfile harg0
  rw [e1] at d1 d2
  exact ⟨e1, fun s4 h => runRep_isRun (d1 s4 h), fun hroom =>
    (d2 hroom).elim fun s4 h => ⟨s4, h.1⟩⟩

theorem C14_recompile_lists_witness :
    ∃ s4, bsbs_init.describe 8120 [97] [98] { arena0 with _bsbs_alloc_ptr := 8120 } = .ret s4 ∧
      IsRun s4.mem 8120 [(envOf (stat_of [])).getenv_CC.getD [99, 99], [98], [45, 111], [97]]
        [[98]] [[97]] :=
  have T := C14_recompile_lists (envOf (stat_of [])) 4096 [97] [98] boot arena0
    { arena0 with _bsbs_alloc_ptr := 8120 } 8120 (by rfl) (by rfl)
    (runRep_create (by rfl : bsbs_run_create arena0 = .ret (8120, _)) (fun _ _ _ => rfl)
      (by decide) (by decide))
    (fun _ h => nomatch h) ⟨by decide, by decide⟩ ⟨by decide, by decide⟩
  (T.2.2 (by decide)).elim fun s4 h => ⟨s4, h, T.2.1 s4 h⟩


/-- A returning append is its two allocations, the write of the node by `store64` and
`strcpy`, and the linking of the node. -/
theorem append_eq_link {list : Nat} {content : CStr} {s sA sB : State} {p1 node : Nat}
    (hA : bsbs_alloc_aligned_array 1 1 ((content.length + 1) % SIZE_MOD) s = .ret (p1, sA))
    (hB : bsbs_alloc_aligned_array NODE_SIZE NODE_SIZE 1 sA = .ret (node, sB)) :
    _bsbs_list_append list content s = .ret { sB with
      mem := _bsbs_list_append.link list node
        (strcpy (store64 s.mem node 0) (node + 8) content) } := by
  obtain ⟨_, _, _, hA3⟩ := alloc_ret_inv hA
  obtain ⟨_, _, _, hB3⟩ := alloc_ret_inv hB
  have hm : sB.mem = s.mem := by rw [hB3, hA3]
  unfold _bsbs_list_append _bsbs_list_append.link
  simp only [hA, hB, Outcome.bind_ret, hm]
  split <;> rfl

/-- C19: when both allocations of `_bsbs_list_append` return, the append returns with the
cursor at the node, and the memory it leaves is the linking of the node applied to what
`strcpy` wrote at `node->content`, the address `node + 8` just past the `next` pointer. Every
byte that `strcpy` changes lies in `[node + 8, node + 8 + n + 1)`, inside
`[cursor after, cursor before)`, past the `next` field and below every block reserved
earlier. When the list header and its tail node lie in reserved memory, the memory the
append leaves differs below the old cursor only inside the node's block, the `next` field
still reads `NULL` and the string with its NUL is stored at `node + 8`. -/
theorem C19_strcpy_inside_reserved (reqs : List (Nat × Nat × Nat)) (s0 s sA sB : State)
    (blocks : List (Nat × Nat)) (list : Nat) (content : CStr) (p1 node : Nat)
    (hprev : alloc_calls reqs s0 = .ret (blocks, s))
    (hlen : content.length + 1 < SIZE_MOD)
    (hA : bsbs_alloc_aligned_array 1 1 ((content.length + 1) % SIZE_MOD) s = .ret (p1, sA))
    (hB : bsbs_alloc_aligned_array NODE_SIZE NODE_SIZE 1 sA = .ret (node, sB)) :
    ∃ s1, _bsbs_list_append list content s = .ret s1 ∧ s1._bsbs_alloc_ptr = node ∧
      s1.mem = _bsbs_list_append.link list node
        (strcpy (store64 s.mem node 0) (node + 8) content) ∧
      node + 8 + (content.length + 1) ≤ s._bsbs_alloc_ptr ∧
      (∀ x, strcpy (store64 s.mem node 0) (node + 8) content x ≠ store64 s.mem node 0 x →
        (node + 8 ≤ x ∧ x < node + 8 + (content.length + 1)) ∧
        (s1._bsbs_alloc_ptr ≤ x ∧ x < s._bsbs_alloc_ptr) ∧ ∀ b ∈ blocks, x < b.1) ∧
      (s._bsbs_alloc_ptr ≤ list →
        (load64 s.mem (list + 8) ≠ 0 → s._bsbs_alloc_ptr ≤ load64 s.mem (list + 16)) →
        (∀ x, x < s._bsbs_alloc_ptr → s1.mem x ≠ s.mem x →
          node ≤ x ∧ x < node + 8 + (content.length + 1)) ∧
        load64 s1.mem node = 0 ∧
        ((∀ c ∈ content, 0 < c ∧ c < 256) → CStrAt s1.mem (node + 8) content)) := by
  obtain ⟨_, _, _, hin, _⟩ := alloc_calls_inv reqs s0 s blocks hprev
  obtain ⟨_, hA1, hA2, hA3⟩ := alloc_ret_inv hA
  obtain ⟨_, hB1, hB2, hB3⟩ := alloc_ret_inv hB
  rw [Nat.mod_eq_of_lt hlen] at hA2
  have hsA : sA._bsbs_alloc_ptr = p1 := by rw [hA3]
  simp only [NODE_SIZE, Nat.mul_one, Nat.one_mul] at hB2 hA2
  have hend : node + 8 + (content.length + 1) ≤ s._bsbs_alloc_ptr := by omega
  have hptr : sB._bsbs_alloc_ptr = node := by rw [hB3]
  obtain ⟨m2, hm2⟩ : ∃ m2, m2 = strcpy (store64 s.mem node 0) (node + 8) content := ⟨_, rfl⟩
  have F2 : ∀ x, x < node ∨ node + 8 + content.length + 1 ≤ x → m2 x = s.mem x := by
    intro x hx
    rw [hm2, strcpy_outside content _ _ _ (by omega), store64_outside _ _ _ _ (by omega)]
  refine ⟨_, append_eq_link hA hB, hptr, rfl, hend, ?_, ?_⟩
  · intro x hx
    have hrange : node + 8 ≤ x ∧ x < node + 8 + (content.length + 1) := by
      by_contra hcon
      exact hx (strcpy_outside content _ (node + 8) x (by omega))
    refine ⟨hrange, ⟨by show sB._bsbs_alloc_ptr ≤ x; omega, by omega⟩, ?_⟩
    intro b hb
    have := hin b hb
    omega
  · intro hhdr htail
    show (∀ x, x < s._bsbs_alloc_ptr →
        _bsbs_list_append.link list node (strcpy (store64 s.mem node 0) (node + 8) content) x ≠
          s.mem x → node ≤ x ∧ x < node + 8 + (content.length + 1)) ∧
      load64 (_bsbs_list_append.link list node
        (strcpy (store64 s.mem node 0) (node + 8) content)) node = 0 ∧
      ((∀ c ∈ content, 0 < c ∧ c < 256) → CStrAt (_bsbs_list_append.link list node
        (strcpy (store64 s.mem node 0) (node + 8) content)) (node + 8) content)
    rw [← hm2]
    have Hhead : load64 m2 (list + 8) = load64 s.mem (list + 8) :=
      load64_congr fun x h1 h2 => F2 x (by omega)
    have Htail : load64 m2 (list + 16) = load64 s.mem (list + 16) :=
      load64_congr fun x h1 h2 => F2 x (by omega)
    have G : ∀ x, x < s._bsbs_alloc_ptr → _bsbs_list_append.link list node m2 x = m2 x := by
      intro x hx
      unfold _bsbs_list_append.link
      split
      · simp only
        rw [store64_outside _ _ _ _ (by omega), store64_outside _ _ _ _ (by omega),
          store64_outside _ _ _ _ (by omega)]
      · rename_i hz
        rw [Hhead] at hz
        have ht := htail hz
        simp only
        rw [Htail, store64_outside _ _ _ _ (by omega), store64_outside _ _ _ _ (by omega),
          store64_outside _ _ _ _ (by omega)]
    refine ⟨?_, ?_, ?_⟩
    · intro x hx hne
      rw [G x hx] at hne
      by_contra hcon
      exact hne (F2 x (by omega))
    · rw [load64_congr fun x h1 h2 => G x (by omega), hm2,
        load64_congr fun x h1 h2 => strcpy_outside content _ _ x (Or.inl (by omega))]
      exact load64_store64_same _ _ _ (by norm_num)
    · intro hbytes
      refine CStrAt_congr content m2 _ _ (fun x h1 h2 => G x (by omega)) ?_
      rw [hm2]
      exact CStrAt_strcpy content _ _ hbytes

theorem C19_strcpy_inside_reserved_witness :
    ∃ s1, _bsbs_list_append 8120 [97, 98] { arena0 with _bsbs_alloc_ptr := 8120 } = .ret s1 ∧
      s1._bsbs_alloc_ptr = 8104 ∧
      8104 + 8 + (([97, 98] : CStr).length + 1) ≤ 8120 ∧
      (∀ x, x < 8120 → s1.mem x ≠ arena0.mem x →
        8104 ≤ x ∧ x < 8104 + 8 + (([97, 98] : CStr).length + 1)) ∧
      load64 s1.mem 8104 = 0 ∧ CStrAt s1.mem (8104 + 8) [97, 98] :=
  (C19_strcpy_inside_reserved [(72, 8, 1)] arena0 { arena0 with _bsbs_alloc_ptr := 8120 }
    { arena0 with _bsbs_alloc_ptr := 8117 } { arena0 with _bsbs_alloc_ptr := 8104 }
    [(8120, 72)] 8120 [97, 98] 8117 8104 (by rfl) (by decide) (by rfl) (by rfl)).elim
    fun s1 h =>
      have h2 := h.2.2.2.2.2 (by decide) (fun hne => absurd (by decide) hne)
      ⟨s1, h.1, h.2.1, h.2.2.2.1, h2.1, h2.2.1, h2.2.2 (by decide)⟩


/-- A list is kept by anything that leaves its header and the blocks of its nodes
unwritten and at or above the cursor. -/
theorem listInv_kept {s s1 : State} {list : Nat} {nodes : List (Nat × CStr)}
    (hinv : ListInv s list nodes) (hbase : 0 < s1._bsbs_alloc_base)
    (hptr : s1._bsbs_alloc_ptr ≤ list) (habove : ∀ nd ∈ nodes, s1._bsbs_alloc_ptr ≤ nd.1)
    (hhdr : ∀ x, list ≤ x → x < list + 24 → s1.mem x = s.mem x)
    (hblk : ∀ x, InBlocks nodes x → s1.mem x = s.mem x) : ListInv s1 list nodes := by
  obtain ⟨c1, c2, c3, c4, c5, c6, c7, c8⟩ := hinv
  have e0 : load64 s1.mem list = load64 s.mem list :=
    load64_congr fun x h1 h2 => hhdr x h1 (by omega)
  have e8 : load64 s1.mem (list + 8) = load64 s.mem (list + 8) :=
    load64_congr fun x h1 h2 => hhdr x (by omega) (by omega)
  have e16 : load64 s1.mem (list + 16) = load64 s.mem (list + 16) :=
    load64_congr fun x h1 h2 => hhdr x (by omega) (by omega)
  refine ⟨by rw [e0]; exact c1, ?_, fun h => by rw [e16]; exact c3 h, c4, habove, hptr, c7,
    hbase⟩
  rw [e8]
  exact chain_congr_blocks s.mem s1.mem nodes _ hblk c2

/-- On a well-formed list with room for the pointers, `_bsbs_list_to_ntarray` returns the
argument vector of the list's strings and records no event. -/
theorem to_ntarray_room {s : State} {list : Nat} {nodes : List (Nat × CStr)}
    (hinv : ListInv s list nodes)
    (hroom : s._bsbs_alloc_base + 8 * (nodes.length + 1) ≤ s._bsbs_alloc_ptr / 8 * 8) :
    ∃ s1, _bsbs_list_to_ntarray list s =
        .ret (s._bsbs_alloc_ptr / 8 * 8 - 8 * (nodes.length + 1), s1) ∧
      IsArgv s1.mem (s._bsbs_alloc_ptr / 8 * 8 - 8 * (nodes.length + 1))
        (nodes.map fun nd => nd.2) ∧ s1.trace = s.trace := by
  have hps : s._bsbs_alloc_ptr < 18446744073709551616 := by
    have h1 : list < 18446744073709551616 := hinv.hdr_lt
    have h2 := hinv.hdr
    omega
  have hdiv : s._bsbs_alloc_ptr / 8 * 8 ≤ s._bsbs_alloc_ptr := Nat.div_mul_le_self _ _
  have halloc := alloc_eq 8 3 (nodes.length + 1) s (by decide) (by decide) (by decide) hps
  rw [if_neg (by simp only [SIZE_MOD]; omega), if_neg (by norm_num; omega),
    if_neg (by norm_num; omega)] at halloc
  norm_num at halloc
  obtain ⟨s1, hret, _, _, htr, hfr, hent, hnull⟩ := to_ntarray_spec hinv halloc
  refine ⟨s1, hret, ⟨?_, ?_⟩, htr⟩
  · intro j hj
    have hj1 : j < nodes.length := by simpa using hj
    have hget : nodes[j]? = some nodes[j] := List.getElem?_eq_getElem hj1
    obtain ⟨hnz, hcs⟩ := chain_get s.mem nodes _ j _ hinv.chain hget
    rw [hent j _ hget, List.getElem_map]
    refine ⟨by omega, CStrAt_congr _ s.mem s1.mem _ ?_ hcs⟩
    intro x hx _
    exact hfr x (by have := hinv.above _ (List.getElem_mem hj1); omega)
  · rw [List.length_map]
    exact hnull

/-- Without room for the pointers the call ends in the fatal error of its allocation. -/
theorem to_ntarray_no_room {s : State} {list : Nat} {nodes : List (Nat × CStr)}
    (hinv : ListInv s list nodes)
    (hroom : ¬ s._bsbs_alloc_base + 8 * (nodes.length + 1) ≤ s._bsbs_alloc_ptr / 8 * 8) :
    (_bsbs_list_to_ntarray list s).died = some (Fatal.underflow, s.trace) ∨
      (_bsbs_list_to_ntarray list s).died = some (Fatal.out_of_memory, s.trace) := by
  have hps : s._bsbs_alloc_ptr < 18446744073709551616 := by
    have h1 : list < 18446744073709551616 := hinv.hdr_lt
    have h2 := hinv.hdr
    omega
  have hlen := stacked_length nodes list hinv.stacked
  have hl : list < 18446744073709551616 := hinv.hdr_lt
  have halloc := alloc_eq 8 3 (nodes.length + 1) s (by decide) (by decide) (by decide) hps
  rw [if_neg (by simp only [SIZE_MOD]; omega)] at halloc
  norm_num at halloc
  unfold _bsbs_list_to_ntarray
  rw [hinv.count, Nat.mod_eq_of_lt (by simp only [SIZE_MOD]; omega)]
  have h2 : bsbs_alloc_aligned_array PTR_SIZE PTR_SIZE (nodes.length + 1) s = _ := halloc
  rw [h2]
  by_cases hu : s._bsbs_alloc_ptr / 8 * 8 < 8 * (nodes.length + 1)
  · rw [if_pos hu]
    exact Or.inl rfl
  · rw [if_neg hu, if_pos (by omega)]
    exact Or.inr rfl


/-- C10 (amended): the well-formedness `ListInv` holds of the empty header in reserved
memory, is kept by every returning `_bsbs_list_append` to the list, which adds its string
as the last node, and is kept by anything else that leaves the header and the nodes
unwritten and at or above the cursor (appends to other lists, other allocations). On every
such list with strings `s_1 .. s_n`: when the arena has room for `n + 1` pointers below the
cursor aligned down to 8, `_bsbs_list_to_ntarray` passes both assertions and returns the
array reserved there, entry `j` a non-null pointer to a copy of `s_j`, in insertion order,
entry `n` being `NULL`, and for the `args` list of a Run this array is the vector that
`_bsbs_run_execute_unchecked` hands to `execvp` in the child; without that room the call
ends in the underflow or out-of-memory error of its allocation. -/
theorem C10_ntarray_of_appended (env : Env) (list : Nat) :
    (∀ s : State, load64 s.mem list = 0 → load64 s.mem (list + 8) = 0 →
        s._bsbs_alloc_ptr ≤ list → list < SIZE_MOD → 0 < s._bsbs_alloc_base →
        ListInv s list []) ∧
      (∀ (s s1 : State) (nodes : List (Nat × CStr)) (content : CStr),
        ListInv s list nodes → content.valid → _bsbs_list_append list content s = .ret s1 →
        ListInv s1 list (nodes ++ [(s1._bsbs_alloc_ptr, content)])) ∧
      (∀ (s s1 : State) (nodes : List (Nat × CStr)),
        ListInv s list nodes → 0 < s1._bsbs_alloc_base → s1._bsbs_alloc_ptr ≤ list →
        (∀ nd ∈ nodes, s1._bsbs_alloc_ptr ≤ nd.1) →
        (∀ x, list ≤ x → x < list + 24 → s1.mem x = s.mem x) →
        (∀ x, InBlocks nodes x → s1.mem x = s.mem x) → ListInv s1 list nodes) ∧
      ∀ (s : State) (nodes : List (Nat × CStr)), ListInv s list nodes →
        (s._bsbs_alloc_base + 8 * (nodes.length + 1) ≤ s._bsbs_alloc_ptr / 8 * 8 →
          (∃ s1, _bsbs_list_to_ntarray list s =
              .ret (s._bsbs_alloc_ptr / 8 * 8 - 8 * (nodes.length + 1), s1) ∧
            IsArgv s1.mem (s._bsbs_alloc_ptr / 8 * 8 - 8 * (nodes.length + 1))
              (nodes.map fun nd => nd.2)) ∧
          ∃ s1 : State, IsArgv s1.mem (s._bsbs_alloc_ptr / 8 * 8 - 8 * (nodes.length + 1))
              (nodes.map fun nd => nd.2) ∧
            (env.fork s1.mem (s._bsbs_alloc_ptr / 8 * 8 - 8 * (nodes.length + 1)) = 0 →
              _bsbs_run_execute_unchecked env list s =
                if env.execvp s1.mem (s._bsbs_alloc_ptr / 8 * 8 - 8 * (nodes.length + 1)) then
                  .replaced (s.trace ++ [Event.run_execute_unchecked list,
                    Event.fork (s._bsbs_alloc_ptr / 8 * 8 - 8 * (nodes.length + 1))])
                else .die .exec_failed (s.trace ++ [Event.run_execute_unchecked list,
                    Event.fork (s._bsbs_alloc_ptr / 8 * 8 - 8 * (nodes.length + 1))]))) ∧
        (¬ s._bsbs_alloc_base + 8 * (nodes.length + 1) ≤ s._bsbs_alloc_ptr / 8 * 8 →
          (_bsbs_list_to_ntarray list s).died = some (Fatal.underflow, s.trace) ∨
            (_bsbs_list_to_ntarray list s).died = some (Fatal.out_of_memory, s.trace)) := by
  refine ⟨fun s h1 h2 h3 h4 h5 => listInv_empty h1 h2 h3 h4 h5,
    fun s s1 nodes content hinv hv h => (append_step hinv hv h).1,
    fun s s1 nodes hinv h1 h2 h3 h4 h5 => listInv_kept hinv h1 h2 h3 h4 h5, ?_⟩
  intro s nodes hinv
  refine ⟨fun hroom => ⟨?_, ?_⟩, to_ntarray_no_room hinv⟩
  · obtain ⟨s1, h1, h2, _⟩ := to_ntarray_room hinv hroom
    exact ⟨s1, h1, h2⟩
  · have hinv1 : ListInv { s with trace := s.trace ++ [Event.run_execute_unchecked list] }
        list nodes :=
      listInv_kept hinv hinv.base_pos hinv.hdr hinv.above (fun _ _ _ => rfl) (fun _ _ => rfl)
    obtain ⟨s1, h1, h2, h3⟩ := to_ntarray_room hinv1 hroom
    obtain ⟨ht, heq⟩ := unchecked_after_args env list s _ s1 h1
    have etr : s1.trace ++ [Event.fork (s._bsbs_alloc_ptr / 8 * 8 - 8 * (nodes.length + 1))] =
        s.trace ++ [Event.run_execute_unchecked list,
          Event.fork (s._bsbs_alloc_ptr / 8 * 8 - 8 * (nodes.length + 1))] := by
      rw [ht, List.append_assoc]; rfl
    refine ⟨s1, h2, ?_⟩
    intro h0
    simp only at heq
    rw [heq, if_pos h0, etr]

theorem C10_ntarray_of_appended_witness :
    ∃ s4 s1 array,
      bsbs_init.describe 8120 [97] [98] { arena0 with _bsbs_alloc_ptr := 8120 } = .ret s4 ∧
      s4._bsbs_alloc_ptr < load64 s4.mem (8120 + 16) ∧
      _bsbs_list_to_ntarray 8120 s4 = .ret (array, s1) ∧
      IsArgv s1.mem array [[99, 99], [98], [45, 111], [97]] := by
  have hrep : RunRep { arena0 with _bsbs_alloc_ptr := 8120 } 8120 [] [] [] :=
    runRep_create (by rfl : bsbs_run_create arena0 = .ret (8120, _)) (fun _ _ _ => rfl)
      (by decide) (by decide)
  obtain ⟨d1, d2⟩ := @describe_spec _ _ [97] [98] hrep ⟨by decide, by decide⟩
    ⟨by decide, by decide⟩ ⟨by decide, by decide⟩
  obtain ⟨s4, hd, hlow⟩ := d2 (by decide)
  obtain ⟨A, I, O, hinv, eA, eI, eO⟩ := d1 s4 hd
  clear d1 d2
  obtain ⟨hb, _, _, _, _⟩ := describe_fields hd
  have hlen : A.length = 4 := by
    have := congrArg List.length eA
    simpa using this
  have hb1 : s4._bsbs_alloc_base = 4096 := hb
  have hlow1 : 8120 ≤ s4._bsbs_alloc_ptr + 104 := hlow
  obtain ⟨⟨s1, h1, h2⟩, _⟩ := ((C10_ntarray_of_appended (envOf (stat_of [])) 8120).2.2.2 s4 A
    hinv.args).1 (by omega)
  rw [eA] at h2
  have hv : ((bsbs_init.describe 8120 [97] [98]
      { arena0 with _bsbs_alloc_ptr := 8120 }).value.map fun s =>
        decide (s._bsbs_alloc_ptr < load64 s.mem (8120 + 16))) = some true := by decide!
  rw [hd] at hv
  exact ⟨s4, s1, _, hd, of_decide_eq_true (Option.some.inj hv), h1, h2⟩


end Bsbs
